import Mathlib

/-!
# Glyph bitmaps, FreeType parameters and text rendering (freetype-renderer.cpp)

A shallow embedding of `src/freetype-renderer.cpp`: the glyph classes
(`RasteredGlyph`, `MonochromeGlyph`, `ByteDataGlyph`, `GrayScaleGlyph`,
`AbstractSubPixelGlyph`, `SubPixelGlyph`, `VerticalSubPixelGlyph`), `FreeTypeParameters`,
`GlyphData`, the measuring loop of `FontShaping` and the glyph loop of
`FreeTypeFontPreviewRenderer::renderText`, together with the small part of the Qt API
they call (`QImage`, `QColor::getRgb`, `qRgb`, `QByteArray::at`) and the FreeType
constants they use.  What the shaping engine and the rasterizer return is an input.
A last part embeds `PreviewParameters::fromString` of `src/menupreview.cpp`.

Conventions of the embedding:

* C++ `int` values are `Int`, `unsigned int` values are `Nat`; unsigned
  arithmetic that can wrap is reduced modulo `2 ^ 32`.  Signed overflow is
  undefined behaviour in the source and is not modelled: coordinates and glyph
  dimensions are taken to stay inside the range of `int`.
* A read outside a buffer (`QByteArray::at` with a bad index, `buffer[index]`
  past the end) has no defined result in the source; here it makes the
  enclosing operation return `none`.
* A `for (i = 0; i < n; ++i)` loop is `forLoop n body`.
-/

namespace FreetypeRenderer

/-! ## Bytes, colours and the canvas -/

/-- One unsigned byte: the value of a `static_cast<unsigned char>(...)`. -/
abbrev Byte := Fin 256

/-- The colour part of a `QRgb` value: three bytes.  The alpha byte is left out, since
`qRgb` always sets it to 255 and an RGB888 canvas does not store it. -/
structure QRgb where
  red : Byte
  green : Byte
  blue : Byte
deriving DecidableEq, Repr

/-- A `QColor` as seen through `getRgb` and `rgb()`: three channel values in 0..255. -/
abbrev QColor := QRgb

/-- The conversion `pen.rgb()`. -/
def QColor.rgb (c : QColor) : QRgb := c

/-- The byte `v & 0xff` of an `int`. -/
def lowByte (v : Int) : Byte := ⟨(v % 256).toNat, by omega⟩

/-- The Qt function `qRgb(r, g, b)`: every argument is masked with `0xff`. -/
def qRgb (r g b : Int) : QRgb := ⟨lowByte r, lowByte g, lowByte b⟩

/-- A `QImage` of format RGB888: its size and its pixel data.  Only the pixels with
`0 ≤ x < width` and `0 ≤ y < height` belong to the image. -/
structure QImage where
  width : Nat
  height : Nat
  pixels : Int → Int → QRgb

/-- The test `QImage::valid(x, y)`. -/
def QImage.valid (img : QImage) (x y : Int) : Prop :=
  0 ≤ x ∧ x < img.width ∧ 0 ≤ y ∧ y < img.height

instance (img : QImage) (x y : Int) : Decidable (img.valid x y) := by
  unfold QImage.valid
  exact inferInstance

/-- The method `QImage::setPixel(x, y, rgb)`: a coordinate outside the image is reported
with a warning and nothing is written. -/
def QImage.setPixel (img : QImage) (x y : Int) (rgb : QRgb) : QImage :=
  if img.valid x y then
    { img with pixels := fun a b => if a = x ∧ b = y then rgb else img.pixels a b }
  else img

/-- The method `QImage::pixelColor(x, y)`: a coordinate outside the image yields the
invalid `QColor()`, whose `getRgb` components are all 0. -/
def QImage.pixelColor (img : QImage) (x y : Int) : QColor :=
  if img.valid x y then img.pixels x y else ⟨0, 0, 0⟩

/-- The method `QImage::fill(color)` on a fresh image of the given size. -/
def QImage.filled (width height : Nat) (color : QColor) : QImage :=
  { width := width, height := height, pixels := fun _ _ => color.rgb }

/-- The method `QByteArray::at(i)`; also used for a raw `buffer[index]`. -/
def byteAt (buffer : List Byte) (i : Int) : Option Byte :=
  if i < 0 then none else buffer[i.toNat]?

/-- The loop `for (i = 0; i < n; ++i) body(i)` over a state that a failing
iteration aborts. -/
def forLoop {σ : Type} (n : Nat) (body : Nat → σ → Option σ) (s : σ) : Option σ :=
  match n with
  | 0 => some s
  | k + 1 => (forLoop k body s).bind (body k)

/-! ## The rasterizer bitmap and the glyph classes -/

/-- The FreeType enumeration `FT_Pixel_Mode`. -/
inductive FT_Pixel_Mode where
  | NONE | MONO | GRAY | GRAY2 | GRAY4 | LCD | LCD_V | BGRA
deriving DecidableEq, Repr

/-- The fields of the FreeType structure `FT_Bitmap` that the renderer reads. -/
structure FT_Bitmap where
  rows : Nat
  width : Nat
  pitch : Int
  buffer : List Byte
  pixel_mode : FT_Pixel_Mode

/-- The fields of the class `RasteredGlyph`. -/
structure RasteredGlyph where
  pitch : Int
  rowLength : Nat
  width : Nat
  height : Nat
deriving DecidableEq, Repr

/-- The constructor `RasteredGlyph::RasteredGlyph(bitmap, width, height)`. -/
def RasteredGlyph.ctor (bitmap : FT_Bitmap) (width height : Nat) : RasteredGlyph :=
  { pitch := bitmap.pitch
    rowLength := bitmap.pitch.natAbs
    width := width
    height := height }

/-- The class `MonochromeGlyph`: one bit per pixel. -/
structure MonochromeGlyph extends RasteredGlyph where
  bitmap : List Byte
deriving DecidableEq, Repr

/-- The constructor `MonochromeGlyph::MonochromeGlyph(bitmap)`: `size` bytes are copied
out of the rasterizer buffer, which must hold that many. -/
def MonochromeGlyph.ctor (bitmap : FT_Bitmap) : Option MonochromeGlyph :=
  let base := RasteredGlyph.ctor bitmap bitmap.width bitmap.rows
  let size := (base.height * base.rowLength) % 2 ^ 32
  if size ≤ bitmap.buffer.length then
    some { toRasteredGlyph := base, bitmap := bitmap.buffer.take size }
  else none

/-- The helper `MonochromeGlyph::pixelAt(x, y, pitch, buffer)`. -/
def MonochromeGlyph.pixelAt (x y : Nat) (pitch : Int) (buffer : List Byte) : Option Nat :=
  let index : Nat := (y * pitch.natAbs + x / 8) % 2 ^ 32
  let position : Nat := 7 - x % 8
  (byteAt buffer (index : Int)).map (fun byte => (byte.val >>> position) &&& 1)

/-- The body of the inner loop of `MonochromeGlyph::paint`. -/
def MonochromeGlyph.paintPixel (g : MonochromeGlyph) (x y : Int) (pen : QColor)
    (glyphY glyphX : Nat) (canvas : QImage) : Option QImage :=
  (MonochromeGlyph.pixelAt glyphX glyphY g.pitch g.bitmap).map (fun bit =>
    if bit ≠ 0 then
      let cursorX : Int := (glyphX : Int) + x
      let cursorY : Int := (glyphY : Int) + y
      canvas.setPixel cursorX cursorY pen.rgb
    else canvas)

/-- The method `MonochromeGlyph::paint(canvas, x, y, pen)`. -/
def MonochromeGlyph.paint (g : MonochromeGlyph) (canvas : QImage) (x y : Int)
    (pen : QColor) : Option QImage :=
  forLoop g.height (fun glyphY canvas =>
    forLoop g.width (fun glyphX canvas => g.paintPixel x y pen glyphY glyphX canvas) canvas)
    canvas

/-- The class `ByteDataGlyph`: pixel data stored in bytes. -/
structure ByteDataGlyph extends RasteredGlyph where
  bytemap : List Byte
deriving DecidableEq, Repr

/-- The constructor `ByteDataGlyph::ByteDataGlyph(bitmap, bytesPerPixel, width, height)`:
`size` bytes are copied out of the rasterizer buffer, which must hold that many.  The
unsigned product is converted to `int`; a product of `2 ^ 31` or more would become a
negative size and has no result here. -/
def ByteDataGlyph.ctor (bitmap : FT_Bitmap) (bytesPerPixel width height : Nat) :
    Option ByteDataGlyph :=
  let base := RasteredGlyph.ctor bitmap width height
  let size := (height * base.rowLength * bytesPerPixel) % 2 ^ 32
  if size < 2 ^ 31 ∧ size ≤ bitmap.buffer.length then
    some { toRasteredGlyph := base, bytemap := bitmap.buffer.take size }
  else none

/-- The constructor `GrayScaleGlyph::GrayScaleGlyph(bitmap)`. -/
def GrayScaleGlyph.ctor (bitmap : FT_Bitmap) : Option ByteDataGlyph :=
  ByteDataGlyph.ctor bitmap 1 bitmap.width bitmap.rows

/-- The alpha blend of one channel, as written three times in both blending paint
methods: `((255 - value) * background + value * pen) / 255` on `int`, where `/`
truncates towards zero. -/
def blend (value background pen : Int) : Int :=
  Int.tdiv ((255 - value) * background + value * pen) 255

/-- The buffer index read by `GrayScaleGlyph::paint` for row `j` and column `i`. -/
def GrayScaleGlyph.index (g : ByteDataGlyph) (j i : Int) : Int := j * g.pitch + i

/-- The body of the inner loop of `GrayScaleGlyph::paint`. -/
def GrayScaleGlyph.paintPixel (g : ByteDataGlyph) (x y : Int) (pen : QColor)
    (j i : Nat) (canvas : QImage) : Option QImage :=
  let pen_r : Int := pen.red.val
  let pen_g : Int := pen.green.val
  let pen_b : Int := pen.blue.val
  let cursor_x : Int := (i : Int) + x
  let cursor_y : Int := (j : Int) + y
  (byteAt g.bytemap (GrayScaleGlyph.index g j i)).map (fun byte =>
    let value : Int := byte.val
    let background := canvas.pixelColor cursor_x cursor_y
    let result_r := blend value background.red.val pen_r
    let result_g := blend value background.green.val pen_g
    let result_b := blend value background.blue.val pen_b
    canvas.setPixel cursor_x cursor_y (qRgb result_r result_g result_b))

/-- The method `GrayScaleGlyph::paint(canvas, x, y, pen)`. -/
def GrayScaleGlyph.paint (g : ByteDataGlyph) (canvas : QImage) (x y : Int)
    (pen : QColor) : Option QImage :=
  forLoop g.height (fun j canvas =>
    forLoop g.width (fun i canvas => GrayScaleGlyph.paintPixel g x y pen j i canvas) canvas)
    canvas

/-- The class `AbstractSubPixelGlyph`: byte data with three samples per pixel. -/
structure AbstractSubPixelGlyph extends ByteDataGlyph where
  reverse : Bool
deriving DecidableEq, Repr

/-- The constructor `AbstractSubPixelGlyph::AbstractSubPixelGlyph`. -/
def AbstractSubPixelGlyph.ctor (bitmap : FT_Bitmap) (bytesPerPixel width height : Nat)
    (reversed : Bool) : Option AbstractSubPixelGlyph :=
  (ByteDataGlyph.ctor bitmap bytesPerPixel width height).map
    (fun base => { toByteDataGlyph := base, reverse := reversed })

/-- The constructor `SubPixelGlyph::SubPixelGlyph(bitmap, reversed)`. -/
def SubPixelGlyph.ctor (bitmap : FT_Bitmap) (reversed : Bool) : Option AbstractSubPixelGlyph :=
  AbstractSubPixelGlyph.ctor bitmap 3 (bitmap.width / 3) bitmap.rows reversed

/-- The constructor `VerticalSubPixelGlyph::VerticalSubPixelGlyph(bitmap, reversed)`. -/
def VerticalSubPixelGlyph.ctor (bitmap : FT_Bitmap) (reversed : Bool) :
    Option AbstractSubPixelGlyph :=
  AbstractSubPixelGlyph.ctor bitmap 3 bitmap.width (bitmap.rows / 3) reversed

/-- The buffer index read by `SubPixelGlyph::getValue(row, column, subPixelOffset)`. -/
def SubPixelGlyph.index (g : AbstractSubPixelGlyph) (row column subPixelOffset : Int) : Int :=
  row * g.pitch + 3 * column + subPixelOffset

/-- The method `SubPixelGlyph::getValue(row, column, subPixelOffset)`. -/
def SubPixelGlyph.getValue (g : AbstractSubPixelGlyph) (row column subPixelOffset : Int) :
    Option Byte :=
  byteAt g.bytemap (SubPixelGlyph.index g row column subPixelOffset)

/-- The buffer index read by `VerticalSubPixelGlyph::getValue(row, column, subPixelOffset)`. -/
def VerticalSubPixelGlyph.index (g : AbstractSubPixelGlyph) (row column subPixelOffset : Int) :
    Int :=
  (3 * row + subPixelOffset) * g.pitch + column

/-- The method `VerticalSubPixelGlyph::getValue(row, column, subPixelOffset)`. -/
def VerticalSubPixelGlyph.getValue (g : AbstractSubPixelGlyph)
    (row column subPixelOffset : Int) : Option Byte :=
  byteAt g.bytemap (VerticalSubPixelGlyph.index g row column subPixelOffset)

/-- The body of the inner loop of `AbstractSubPixelGlyph::paint`; the virtual method
`getValue` of the glyph is the first argument. -/
def AbstractSubPixelGlyph.paintPixel (getValue : Int → Int → Int → Option Byte)
    (g : AbstractSubPixelGlyph) (x y : Int) (pen : QColor)
    (j i : Nat) (canvas : QImage) : Option QImage :=
  let pen_r : Int := pen.red.val
  let pen_g : Int := pen.green.val
  let pen_b : Int := pen.blue.val
  let offset_r : Int := if g.reverse then 2 else 0
  let offset_g : Int := 1
  let offset_b : Int := if g.reverse then 0 else 2
  let cursor_x : Int := (i : Int) + x
  let cursor_y : Int := (j : Int) + y
  let background := canvas.pixelColor cursor_x cursor_y
  (getValue j i offset_r).bind (fun value_r =>
  (getValue j i offset_g).bind (fun value_g =>
  (getValue j i offset_b).map (fun value_b =>
    let result_r := blend value_r.val background.red.val pen_r
    let result_g := blend value_g.val background.green.val pen_g
    let result_b := blend value_b.val background.blue.val pen_b
    canvas.setPixel cursor_x cursor_y (qRgb result_r result_g result_b))))

/-- The method `AbstractSubPixelGlyph::paint(canvas, x, y, pen)`; the virtual method
`getValue` of the glyph is the first argument. -/
def AbstractSubPixelGlyph.paint (getValue : Int → Int → Int → Option Byte)
    (g : AbstractSubPixelGlyph) (canvas : QImage) (x y : Int) (pen : QColor) :
    Option QImage :=
  forLoop g.height (fun j canvas =>
    forLoop g.width (fun i canvas =>
      AbstractSubPixelGlyph.paintPixel getValue g x y pen j i canvas) canvas) canvas

/-- The method `paint` of a `SubPixelGlyph` (horizontal sub-pixel layout). -/
def SubPixelGlyph.paint (g : AbstractSubPixelGlyph) (canvas : QImage) (x y : Int)
    (pen : QColor) : Option QImage :=
  AbstractSubPixelGlyph.paint (SubPixelGlyph.getValue g) g canvas x y pen

/-- The method `paint` of a `VerticalSubPixelGlyph` (vertical sub-pixel layout). -/
def VerticalSubPixelGlyph.paint (g : AbstractSubPixelGlyph) (canvas : QImage) (x y : Int)
    (pen : QColor) : Option QImage :=
  AbstractSubPixelGlyph.paint (VerticalSubPixelGlyph.getValue g) g canvas x y pen

/-- The formula of the specification for one blended channel, on natural numbers:
`((255 - c) * background + c * pen) / 255` with integer division. -/
def blendFormula (c background pen : Nat) : Nat :=
  ((255 - c) * background + c * pen) / 255

/-! ## Rendering options and FreeType parameters -/

/-- The enumeration `KXftConfig::AntiAliasing`. -/
inductive KXftConfig.AntiAliasing where
  | NotSet | Disabled | Enabled
deriving DecidableEq, Repr

/-- The enumeration `KXftConfig::Hinting`. -/
inductive KXftConfig.Hinting where
  | Disabled | Enabled
deriving DecidableEq, Repr

/-- The enumeration `KXftConfig::Hint`. -/
inductive KXftConfig.Hint where
  | NotSet | None | Slight | Medium | Full
deriving DecidableEq, Repr

/-- The enumeration `KXftConfig::SubPixel`. -/
inductive KXftConfig.SubPixel where
  | NotSet | None | Rgb | Bgr | Vrgb | Vbgr
deriving DecidableEq, Repr

/-- The data members of the class `KXftConfig`. -/
structure KXftConfig where
  antialiasingSetting : KXftConfig.AntiAliasing
  hintingSetting : KXftConfig.Hinting
  hintstyleSetting : KXftConfig.Hint
  subpixelSetting : KXftConfig.SubPixel
  dpiH : Nat
  dpiV : Nat
deriving DecidableEq, Repr

/-- The FreeType enumeration `FT_Render_Mode` (values 0 to 4 in this order). -/
inductive FT_Render_Mode where
  | NORMAL | LIGHT | MONO | LCD | LCD_V
deriving DecidableEq, Repr

/-- The FreeType constant `FT_LOAD_DEFAULT`, `0x0` in `freetype.h`. -/
def FT_LOAD_DEFAULT : Nat := 0

/-- The FreeType constant `FT_LOAD_NO_HINTING`, `1L << 1` in `freetype.h`. -/
def FT_LOAD_NO_HINTING : Nat := 1 <<< 1

/-- The FreeType constant `FT_LOAD_NO_BITMAP`, `1L << 3` in `freetype.h`. -/
def FT_LOAD_NO_BITMAP : Nat := 1 <<< 3

/-- The FreeType constant `FT_LOAD_MONOCHROME`, `1L << 12` in `freetype.h`. -/
def FT_LOAD_MONOCHROME : Nat := 1 <<< 12

/-- The FreeType macro `FT_LOAD_TARGET_(x)`, `((x) & 15) << 16` in `freetype.h`, applied to
the number of a render mode. -/
def FT_LOAD_TARGET_ (x : Nat) : Nat := (x &&& 15) <<< 16

/-- The FreeType constant `FT_LOAD_TARGET_NORMAL`. -/
def FT_LOAD_TARGET_NORMAL : Nat := FT_LOAD_TARGET_ 0

/-- The FreeType constant `FT_LOAD_TARGET_LIGHT`. -/
def FT_LOAD_TARGET_LIGHT : Nat := FT_LOAD_TARGET_ 1

/-- The FreeType constant `FT_LOAD_TARGET_MONO`. -/
def FT_LOAD_TARGET_MONO : Nat := FT_LOAD_TARGET_ 2

/-- The FreeType constant `FT_LOAD_TARGET_LCD`. -/
def FT_LOAD_TARGET_LCD : Nat := FT_LOAD_TARGET_ 3

/-- The FreeType constant `FT_LOAD_TARGET_LCD_V`. -/
def FT_LOAD_TARGET_LCD_V : Nat := FT_LOAD_TARGET_ 4

/-- The data members of the class `FreeTypeParameters`. -/
structure FreeTypeParameters where
  loadFlags : Nat
  renderMode : FT_Render_Mode
deriving DecidableEq, Repr

/-- The constructor `FreeTypeParameters::FreeTypeParameters(options)`.  Both members start
from their initialisers `FT_LOAD_DEFAULT` and `FT_RENDER_MODE_NORMAL`; every `|=` of the
source is a `|||` here. -/
def FreeTypeParameters.ctor (options : KXftConfig) : FreeTypeParameters :=
  let loadFlags := FT_LOAD_DEFAULT
  let renderMode := FT_Render_Mode.NORMAL
  if options.antialiasingSetting = KXftConfig.AntiAliasing.Disabled then
    let renderMode := FT_Render_Mode.MONO
    let loadFlags := loadFlags ||| FT_LOAD_MONOCHROME
    if options.hintingSetting = KXftConfig.Hinting.Disabled
        ∨ options.hintstyleSetting = KXftConfig.Hint.None then
      { loadFlags := loadFlags ||| FT_LOAD_NO_HINTING, renderMode := renderMode }
    else
      { loadFlags := loadFlags ||| FT_LOAD_TARGET_MONO, renderMode := renderMode }
  else
    let loadFlags := loadFlags ||| FT_LOAD_NO_BITMAP
    let loadFlags :=
      match options.hintstyleSetting with
      | KXftConfig.Hint.NotSet => loadFlags ||| FT_LOAD_NO_HINTING
      | KXftConfig.Hint.None => loadFlags ||| FT_LOAD_NO_HINTING
      | KXftConfig.Hint.Slight => loadFlags ||| FT_LOAD_TARGET_LIGHT
      | KXftConfig.Hint.Medium => loadFlags ||| FT_LOAD_TARGET_LIGHT
      | KXftConfig.Hint.Full =>
        match options.subpixelSetting with
        | KXftConfig.SubPixel.NotSet => loadFlags ||| FT_LOAD_TARGET_NORMAL
        | KXftConfig.SubPixel.None => loadFlags ||| FT_LOAD_TARGET_NORMAL
        | KXftConfig.SubPixel.Rgb => loadFlags ||| FT_LOAD_TARGET_LCD
        | KXftConfig.SubPixel.Bgr => loadFlags ||| FT_LOAD_TARGET_LCD
        | KXftConfig.SubPixel.Vrgb => loadFlags ||| FT_LOAD_TARGET_LCD_V
        | KXftConfig.SubPixel.Vbgr => loadFlags ||| FT_LOAD_TARGET_LCD_V
    let renderMode :=
      match options.subpixelSetting with
      | KXftConfig.SubPixel.Rgb => FT_Render_Mode.LCD
      | KXftConfig.SubPixel.Bgr => FT_Render_Mode.LCD
      | KXftConfig.SubPixel.Vrgb => FT_Render_Mode.LCD_V
      | KXftConfig.SubPixel.Vbgr => FT_Render_Mode.LCD_V
      | _ => renderMode
    { loadFlags := loadFlags, renderMode := renderMode }

/-- The constructor `FreeTypeParameters::FreeTypeParameters(options)` as a procedure on
the storage of the object under construction: `storage` is what the two members hold
before the constructor runs (indeterminate in the source).  The member initialisers
`loadFlags(FT_LOAD_DEFAULT)` and `renderMode(FT_RENDER_MODE_NORMAL)` write both members
first; every `|=` of the body reads the member and writes it back; the body names no
variable other than `options` and the two members. -/
def FreeTypeParameters.ctorOn (storage : FreeTypeParameters) (options : KXftConfig) :
    FreeTypeParameters :=
  let object : FreeTypeParameters := { storage with loadFlags := FT_LOAD_DEFAULT }
  let object : FreeTypeParameters := { object with renderMode := FT_Render_Mode.NORMAL }
  if options.antialiasingSetting = KXftConfig.AntiAliasing.Disabled then
    let object : FreeTypeParameters := { object with renderMode := FT_Render_Mode.MONO }
    let object : FreeTypeParameters :=
      { object with loadFlags := object.loadFlags ||| FT_LOAD_MONOCHROME }
    if options.hintingSetting = KXftConfig.Hinting.Disabled
        ∨ options.hintstyleSetting = KXftConfig.Hint.None then
      { object with loadFlags := object.loadFlags ||| FT_LOAD_NO_HINTING }
    else
      { object with loadFlags := object.loadFlags ||| FT_LOAD_TARGET_MONO }
  else
    let object : FreeTypeParameters :=
      { object with loadFlags := object.loadFlags ||| FT_LOAD_NO_BITMAP }
    let object : FreeTypeParameters :=
      match options.hintstyleSetting with
      | KXftConfig.Hint.NotSet =>
        { object with loadFlags := object.loadFlags ||| FT_LOAD_NO_HINTING }
      | KXftConfig.Hint.None =>
        { object with loadFlags := object.loadFlags ||| FT_LOAD_NO_HINTING }
      | KXftConfig.Hint.Slight =>
        { object with loadFlags := object.loadFlags ||| FT_LOAD_TARGET_LIGHT }
      | KXftConfig.Hint.Medium =>
        { object with loadFlags := object.loadFlags ||| FT_LOAD_TARGET_LIGHT }
      | KXftConfig.Hint.Full =>
        match options.subpixelSetting with
        | KXftConfig.SubPixel.NotSet =>
          { object with loadFlags := object.loadFlags ||| FT_LOAD_TARGET_NORMAL }
        | KXftConfig.SubPixel.None =>
          { object with loadFlags := object.loadFlags ||| FT_LOAD_TARGET_NORMAL }
        | KXftConfig.SubPixel.Rgb =>
          { object with loadFlags := object.loadFlags ||| FT_LOAD_TARGET_LCD }
        | KXftConfig.SubPixel.Bgr =>
          { object with loadFlags := object.loadFlags ||| FT_LOAD_TARGET_LCD }
        | KXftConfig.SubPixel.Vrgb =>
          { object with loadFlags := object.loadFlags ||| FT_LOAD_TARGET_LCD_V }
        | KXftConfig.SubPixel.Vbgr =>
          { object with loadFlags := object.loadFlags ||| FT_LOAD_TARGET_LCD_V }
    match options.subpixelSetting with
    | KXftConfig.SubPixel.Rgb => { object with renderMode := FT_Render_Mode.LCD }
    | KXftConfig.SubPixel.Bgr => { object with renderMode := FT_Render_Mode.LCD }
    | KXftConfig.SubPixel.Vrgb => { object with renderMode := FT_Render_Mode.LCD_V }
    | KXftConfig.SubPixel.Vbgr => { object with renderMode := FT_Render_Mode.LCD_V }
    | _ => object

/-! ## Glyph data, shaping and rendering

The `float` and `qreal` values of this part are rational numbers here.  The conversions
of the 32-bit glyph metrics to `float` in `GlyphData::GlyphData` and the `float`
additions that run over the whole glyph run (`width += ...` in `FontShaping`, `x += ...`
and `x + bearingLeft` in `renderText`) round their result to the nearest `float`:
`roundToFloat`.  Comparison, `abs`, `/ 64`, `ceill` and `rint` are exact on every
`float`.  The remaining operations (`getHeight() - abs(bearingTop)`,
`baseLineOffset + bottomExtend`, `getBaseLineOffset() - getBearingTop() + getOffsetY()`)
act on the metrics of a single glyph: integers and 26.6 values of the size of one bitmap
of the rasterizer (at most 32767 pixels a side), far below the `2 ^ 18` pixels up to
which `+` and `-` on such values are exact; they are exact here.
The unqualified `abs(bearingTop)` is the floating-point overload. -/

/-- The C function `rint` in the default rounding mode, converted to `int`: the nearest
integer, a tie going to the even neighbour. -/
def rint (v : ℚ) : Int :=
  let f := ⌊v⌋
  let d := v - f
  if d < 1 / 2 then f else if 1 / 2 < d then f + 1 else if f % 2 = 0 then f else f + 1

/-- The rounding of a real value to `float` (IEEE 754 binary32: a significand of 24 bits,
round to nearest, a tie going to the even significand), which every `float` operation
and every conversion to `float` applies to its exact result.  For `2 ^ e <= |v| <
2 ^ (e + 1)` the neighbouring `float` values are `2 ^ (e - 23)` apart.  The exponent is
not bounded here: the values of the renderer are multiples of `1 / 64` that come from
32-bit integers, and a sum that has reached `2 ^ 50` is no longer changed by adding one
of them, so neither the subnormal range nor the overflow to infinity is reached. -/
def roundToFloat (v : ℚ) : ℚ :=
  if v = 0 then 0
  else
    let exponent : Int := Int.log 2 |v|
    let ulp : ℚ := 2 ^ (exponent - 23)
    (rint (v / ulp) : ℚ) * ulp

/-- The object behind the pointer `RasteredGlyph* pixelData`: an instance of one of the
four concrete glyph classes. -/
inductive PixelData where
  | monochrome (g : MonochromeGlyph)
  | grayScale (g : ByteDataGlyph)
  | subPixel (g : AbstractSubPixelGlyph)
  | verticalSubPixel (g : AbstractSubPixelGlyph)

/-- The `RasteredGlyph` base object of a glyph object. -/
def PixelData.toRasteredGlyph : PixelData → RasteredGlyph
  | PixelData.monochrome g => g.toRasteredGlyph
  | PixelData.grayScale g => g.toRasteredGlyph
  | PixelData.subPixel g => g.toRasteredGlyph
  | PixelData.verticalSubPixel g => g.toRasteredGlyph

/-- The method `RasteredGlyph::getWidth()`. -/
def PixelData.getWidth (p : PixelData) : Nat := p.toRasteredGlyph.width

/-- The method `RasteredGlyph::getHeight()`. -/
def PixelData.getHeight (p : PixelData) : Nat := p.toRasteredGlyph.height

/-- The virtual method `RasteredGlyph::paint(canvas, x, y, pen)`. -/
def PixelData.paint (p : PixelData) (canvas : QImage) (x y : Int) (pen : QColor) :
    Option QImage :=
  match p with
  | PixelData.monochrome g => g.paint canvas x y pen
  | PixelData.grayScale g => GrayScaleGlyph.paint g canvas x y pen
  | PixelData.subPixel g => SubPixelGlyph.paint g canvas x y pen
  | PixelData.verticalSubPixel g => VerticalSubPixelGlyph.paint g canvas x y pen

/-- The HarfBuzz structure `hb_glyph_position_t`: positions in 26.6 fixed point. -/
structure hb_glyph_position_t where
  x_advance : Int
  y_advance : Int
  x_offset : Int
  y_offset : Int

/-- The fields of the FreeType structure `FT_GlyphSlotRec` that the renderer reads. -/
structure FT_GlyphSlotRec where
  bitmap : FT_Bitmap
  bitmap_left : Int
  bitmap_top : Int

/-- The macro `PIXEL_FRACTION_FACTOR`. -/
def PIXEL_FRACTION_FACTOR : ℚ := 64

/-- The data members of the class `GlyphData`; `pixelData` is `none` for `nullptr`. -/
structure GlyphData where
  offsetX : ℚ
  offsetY : ℚ
  advanceX : ℚ
  advanceY : ℚ
  bearingLeft : ℚ
  bearingTop : ℚ
  pixelData : Option PixelData

/-- The constructor `GlyphData::GlyphData(glyphPos, glyphData, reversedSubpixel)`.  The
four shaping values go through `static_cast<float>` before the division by 64, the two
bearings are converted to `float` by the member initialiser.  The `switch` has no case
for the pixel modes NONE, GRAY2 and GRAY4 and an empty one for BGRA: `pixelData` stays
`nullptr` for them. -/
def GlyphData.ctor (glyphPos : hb_glyph_position_t) (glyphData : FT_GlyphSlotRec)
    (reversedSubpixel : Bool) : Option GlyphData :=
  let pixelData : Option (Option PixelData) :=
    match glyphData.bitmap.pixel_mode with
    | FT_Pixel_Mode.MONO =>
      (MonochromeGlyph.ctor glyphData.bitmap).map (fun g => some (PixelData.monochrome g))
    | FT_Pixel_Mode.GRAY =>
      (GrayScaleGlyph.ctor glyphData.bitmap).map (fun g => some (PixelData.grayScale g))
    | FT_Pixel_Mode.LCD =>
      (SubPixelGlyph.ctor glyphData.bitmap reversedSubpixel).map
        (fun g => some (PixelData.subPixel g))
    | FT_Pixel_Mode.LCD_V =>
      (VerticalSubPixelGlyph.ctor glyphData.bitmap reversedSubpixel).map
        (fun g => some (PixelData.verticalSubPixel g))
    | FT_Pixel_Mode.BGRA => some none
    | _ => some none
  pixelData.map (fun pixelData =>
    { offsetX := roundToFloat (glyphPos.x_offset : ℚ) / PIXEL_FRACTION_FACTOR
      offsetY := roundToFloat (glyphPos.y_offset : ℚ) / PIXEL_FRACTION_FACTOR
      advanceX := roundToFloat (glyphPos.x_advance : ℚ) / PIXEL_FRACTION_FACTOR
      advanceY := roundToFloat (glyphPos.y_advance : ℚ) / PIXEL_FRACTION_FACTOR
      bearingLeft := roundToFloat (glyphData.bitmap_left : ℚ)
      bearingTop := roundToFloat (glyphData.bitmap_top : ℚ)
      pixelData := pixelData })

/-- The method `GlyphData::getOffsetX()`. -/
def GlyphData.getOffsetX (g : GlyphData) : ℚ := g.offsetX

/-- The method `GlyphData::getOffsetY()`. -/
def GlyphData.getOffsetY (g : GlyphData) : ℚ := g.offsetY

/-- The method `GlyphData::getBearingLeft()`. -/
def GlyphData.getBearingLeft (g : GlyphData) : ℚ := g.bearingLeft

/-- The method `GlyphData::getBearingTop()`. -/
def GlyphData.getBearingTop (g : GlyphData) : ℚ := g.bearingTop

/-- The method `GlyphData::getAdvanceX()`. -/
def GlyphData.getAdvanceX (g : GlyphData) : ℚ := g.advanceX

/-- The method `GlyphData::getAdvanceY()`. -/
def GlyphData.getAdvanceY (g : GlyphData) : ℚ := g.advanceY

/-- The method `GlyphData::getWidth()`. -/
def GlyphData.getWidth (g : GlyphData) : Nat :=
  match g.pixelData with
  | none => 0
  | some pixelData => pixelData.getWidth

/-- The method `GlyphData::getHeight()`. -/
def GlyphData.getHeight (g : GlyphData) : Nat :=
  match g.pixelData with
  | none => 0
  | some pixelData => pixelData.getHeight

/-- The method `GlyphData::paint(canvas, x, y, pen)`. -/
def GlyphData.paint (g : GlyphData) (canvas : QImage) (x y : Int) (pen : QColor) :
    Option QImage :=
  match g.pixelData with
  | none => some canvas
  | some pixelData => pixelData.paint canvas x y pen

/-- The function `_subpixel_reverse(options)`. -/
def _subpixel_reverse (options : KXftConfig) : Bool :=
  if options.subpixelSetting = KXftConfig.SubPixel.Bgr then true
  else if options.subpixelSetting = KXftConfig.SubPixel.Vbgr then true
  else false

/-- The Qt class `QRectF` as built by `QRectF(x, y, width, height)`. -/
structure QRectF where
  x : ℚ
  y : ℚ
  width : ℚ
  height : ℚ

/-- The data members of the class `FontShaping` that the renderer reads; `glyphCount` is
the length of `glyphs`. -/
structure FontShaping where
  glyphs : List GlyphData
  baseLineOffset : ℚ
  boundingBox : QRectF

/-- The variables that the glyph loop of `FontShaping::FontShaping` updates. -/
structure FontShaping.Metrics where
  baseLineOffset : ℚ
  bottomExtend : ℚ
  width : ℚ

/-- One iteration of the glyph loop of `FontShaping::FontShaping`, after the glyph has
been constructed; `width += getAdvanceX()` is a `float` addition. -/
def FontShaping.measure (m : FontShaping.Metrics) (glyph : GlyphData) : FontShaping.Metrics :=
  let bearingTop := glyph.getBearingTop
  let baseLineOffset :=
    if bearingTop ≥ 0 then
      if bearingTop > m.baseLineOffset then bearingTop else m.baseLineOffset
    else m.baseLineOffset
  let absBearing := |bearingTop|
  let glyphBottomExtend := (glyph.getHeight : ℚ) - absBearing
  let bottomExtend :=
    if glyphBottomExtend > m.bottomExtend then glyphBottomExtend else m.bottomExtend
  { baseLineOffset := baseLineOffset
    bottomExtend := bottomExtend
    width := roundToFloat (m.width + glyph.getAdvanceX) }

/-- The measuring part of `FontShaping::FontShaping`, on the glyphs of the run in shaping
order: the loop from `baseLineOffset = 0`, `bottomExtend = 0`, `width = 0`, the width of
the last glyph (an `unsigned int` converted to `float` and added in `float`), and the
bounding box. -/
def FontShaping.ofGlyphs (glyphs : List GlyphData) : FontShaping :=
  let m := glyphs.foldl FontShaping.measure ⟨0, 0, 0⟩
  let width :=
    match glyphs.getLast? with
    | some last => roundToFloat (m.width + roundToFloat (last.getWidth : ℚ))
    | none => m.width
  { glyphs := glyphs
    baseLineOffset := m.baseLineOffset
    boundingBox := ⟨0, 0, width, m.baseLineOffset + m.bottomExtend⟩ }

/-- The constructor `FontShaping::FontShaping`, on what the shaping engine and the
rasterizer deliver for the text: per glyph, in shaping order, the position record and the
glyph slot after `FT_Render_Glyph`. -/
def FontShaping.ctor (rasterized : List (hb_glyph_position_t × FT_GlyphSlotRec))
    (options : KXftConfig) : Option FontShaping :=
  (rasterized.mapM (fun r => GlyphData.ctor r.1 r.2 (_subpixel_reverse options))).map
    FontShaping.ofGlyphs

/-- The method `FontShaping::getGlyphCount()`. -/
def FontShaping.getGlyphCount (f : FontShaping) : Nat := f.glyphs.length

/-- The method `FontShaping::getGlyphs()`. -/
def FontShaping.getGlyphs (f : FontShaping) : List GlyphData := f.glyphs

/-- The method `FontShaping::getBaseLineOffset()`: the `float` member converted to
`unsigned int`, which drops the fraction. -/
def FontShaping.getBaseLineOffset (f : FontShaping) : Nat := ⌊f.baseLineOffset⌋.toNat

/-- The method `FontShaping::getBoundingBox()`. -/
def FontShaping.getBoundingBox (f : FontShaping) : QRectF := f.boundingBox

/-- The C function `ceill`, converted to `int`. -/
def ceill (v : ℚ) : Int := ⌈v⌉

/-- The Qt constructor `QImage(width, height, format)`: when either size is 0 or
negative the result is the null image, whose `width()` and `height()` are both 0. -/
def QImage.ctor (width height : Int) : QImage :=
  if width ≤ 0 ∨ height ≤ 0 then { width := 0, height := 0, pixels := fun _ _ => ⟨0, 0, 0⟩ }
  else { width := width.toNat, height := height.toNat, pixels := fun _ _ => ⟨0, 0, 0⟩ }

/-- The method `QImage::fill(color)`. -/
def QImage.fill (img : QImage) (color : QColor) : QImage :=
  { img with pixels := fun _ _ => color.rgb }

/-- The glyph loop of `FreeTypeFontPreviewRenderer::renderText`, on the glyphs still to
paint, the canvas and the running pen position `x` (a `float`: `x + getBearingLeft()` and
`x += getAdvanceX()` are `float` additions); `baseLineOffset` is the value of
`fontShaping.getBaseLineOffset()`. -/
def FreeTypeFontPreviewRenderer.paintGlyphs (baseLineOffset : Nat) (pen : QColor) :
    List GlyphData → QImage → ℚ → Option QImage
  | [], canvas, _ => some canvas
  | data :: rest, canvas, x =>
    let offset : ℚ := (baseLineOffset : ℚ) - data.getBearingTop + data.getOffsetY
    (data.paint canvas (rint (roundToFloat (x + data.getBearingLeft))) (rint offset) pen).bind
      (fun canvas =>
        FreeTypeFontPreviewRenderer.paintGlyphs baseLineOffset pen rest canvas
          (roundToFloat (x + data.getAdvanceX)))

/-- The method `FreeTypeFontPreviewRenderer::renderText`, from the constructed
`fontShaping` on. -/
def FreeTypeFontPreviewRenderer.renderText (fontShaping : FontShaping)
    (background pen : QColor) : Option QImage :=
  let width := fontShaping.getBoundingBox.width
  let height := fontShaping.getBoundingBox.height
  let canvas := (QImage.ctor (ceill width) (ceill height)).fill background
  FreeTypeFontPreviewRenderer.paintGlyphs fontShaping.getBaseLineOffset pen
    fontShaping.getGlyphs canvas 0

/-! ## Locating and opening the font file -/

/-- The fontconfig result codes `FcResult`. -/
inductive FcResult where
  | FcResultMatch
  | FcResultNoMatch
  | FcResultTypeMismatch
  | FcResultNoId
  | FcResultOutOfMemory
  deriving DecidableEq, Repr

/-- The FreeType error code `FT_Error`; 0 is success. -/
abbrev FT_Error := Int

/-- The FreeType face handle `FT_Face`, a pointer value. -/
abbrev FT_Face := Nat

/-- The method `FontManagement::retrievePath(font)`, on what fontconfig delivers for the
font specifier: the result code that `FcFontMatch` stores, the result code of
`FcPatternGetString(match, FC_FILE, ...)` and the value of `copyFcString(fontFacePath)`.
Both failure branches return the empty string. -/
def FontManagement.retrievePath (fcResult getStringResult : FcResult) (path : String) :
    String :=
  if fcResult ≠ FcResult.FcResultMatch then ""
  else if getStringResult ≠ FcResult.FcResultMatch then ""
  else path

/-- The method `FreeTypeLibrary::getFontFace(path)`, on what `FT_New_Face` delivers for
the path: its error code and the value it leaves in the local `fontFace`.  The branch
`if (error)` is empty. -/
def FreeTypeLibrary.getFontFace (FT_New_Face : String → FT_Error × FT_Face) (path : String) :
    FT_Face :=
  let fontFace := (FT_New_Face path).2
  let error := (FT_New_Face path).1
  if error ≠ 0 then fontFace else fontFace

/-- The two statements `path = fontManagement->retrievePath(font)` and
`fontFace = freetypeLib->getFontFace(path)` of the constructor `FontShaping::FontShaping`:
the face that the constructor hands on to `FT_Set_Char_Size`, `hb_ft_font_create` and
`hb_shape`.  No statement of the constructor tests the path or the face. -/
def FontShaping.openFace (fcResult getStringResult : FcResult) (copied : String)
    (FT_New_Face : String → FT_Error × FT_Face) : String × FT_Face :=
  let path := FontManagement.retrievePath fcResult getStringResult copied
  let fontFace := FreeTypeLibrary.getFontFace FT_New_Face path
  (path, fontFace)

/-! ## The preview parameters (menupreview.cpp)

`PreviewParameters::fromString` of `src/menupreview.cpp`.  The conversions
`QString::toFloat` and `QString::toInt` are arguments of the embedding.  A value of an
enumeration type (`enum class`, underlying type `int`) is its `int` value here, so that
the result of a `static_cast` that names no enumerator is a value like any other. -/

/-- The Qt method `QString::split(sep)` for a separator of one character, on the list of
characters: the parts between the separators, empty parts kept, so the result always has
at least one part. -/
def QString.splitChars (sep : Char) : List Char → List (List Char)
  | [] => [[]]
  | c :: rest =>
    if c = sep then [] :: QString.splitChars sep rest
    else
      match QString.splitChars sep rest with
      | [] => [[c]]
      | part :: parts => (c :: part) :: parts

/-- The Qt method `QString::split(sep)` for a separator of one character. -/
def QString.split (s : String) (sep : Char) : List String :=
  (QString.splitChars sep s.toList).map String.mk

/-- What `PreviewParameters::fromString` can run into instead of returning. -/
inductive PreviewParameters.Fault where
  /-- The access `fragments[index]` on a list of `length <= index` elements: an assertion
  failure or a read outside the list in the source. -/
  | indexOutOfRange (index length : Nat)
deriving DecidableEq, Repr

/-- The access `fragments[i]` of `QStringList`, defined for `i < fragments.length()`. -/
def QStringList.get (fragments : List String) (i : Nat) :
    Except PreviewParameters.Fault String :=
  match fragments[i]? with
  | some fragment => Except.ok fragment
  | none => Except.error (PreviewParameters.Fault.indexOutOfRange i fragments.length)

/-- The `int` value of an enumerator of `KXftConfig::AntiAliasing`. -/
def KXftConfig.AntiAliasing.toInt : KXftConfig.AntiAliasing → Int
  | KXftConfig.AntiAliasing.NotSet => 0
  | KXftConfig.AntiAliasing.Disabled => 1
  | KXftConfig.AntiAliasing.Enabled => 2

/-- The `int` value of an enumerator of `KXftConfig::Hinting`. -/
def KXftConfig.Hinting.toInt : KXftConfig.Hinting → Int
  | KXftConfig.Hinting.Disabled => 0
  | KXftConfig.Hinting.Enabled => 1

/-- The `int` value of an enumerator of `KXftConfig::Hint`. -/
def KXftConfig.Hint.toInt : KXftConfig.Hint → Int
  | KXftConfig.Hint.NotSet => 0
  | KXftConfig.Hint.None => 1
  | KXftConfig.Hint.Slight => 2
  | KXftConfig.Hint.Medium => 3
  | KXftConfig.Hint.Full => 4

/-- The `int` value of an enumerator of `KXftConfig::SubPixel`. -/
def KXftConfig.SubPixel.toInt : KXftConfig.SubPixel → Int
  | KXftConfig.SubPixel.NotSet => 0
  | KXftConfig.SubPixel.None => 1
  | KXftConfig.SubPixel.Rgb => 2
  | KXftConfig.SubPixel.Bgr => 3
  | KXftConfig.SubPixel.Vrgb => 4
  | KXftConfig.SubPixel.Vbgr => 5

/-- The data members of the class `KXftConfig` with every enumeration member as its `int`
value: what the constructor `KXftConfig(antialiasingSetting, hintingSetting,
hintstyleSetting, subpixelSetting, dpiH, dpiV)` stores when its arguments come out of a
`static_cast`. -/
structure KXftConfig.Values where
  antialiasingSetting : Int
  hintingSetting : Int
  hintstyleSetting : Int
  subpixelSetting : Int
  dpiH : Nat
  dpiV : Nat
deriving DecidableEq, Repr

/-- The data members of the class `PreviewParameters`. -/
structure PreviewParameters where
  fontFamily : String
  pointSize : ℚ
  options : KXftConfig.Values

/-- The function `PreviewParameters::fromString(id, dpiH, dpiV)`; `toFloat` and `toInt`
are the conversions `QString::toFloat` and `QString::toInt`. -/
def PreviewParameters.fromString (toFloat : String → ℚ) (toInt : String → Int)
    (id : String) (dpiH dpiV : Nat) :
    Except PreviewParameters.Fault PreviewParameters := do
  let fragments := QString.split id '/'
  let mut fontFamily := ""
  let mut pointSize : ℚ := 10
  let mut antialiasingSetting := KXftConfig.AntiAliasing.Disabled.toInt
  let mut hintingSetting := KXftConfig.Hinting.Enabled.toInt
  let mut hintstyleSetting := KXftConfig.Hint.None.toInt
  let mut subpixelSetting := KXftConfig.SubPixel.None.toInt
  if fragments.length ≤ 5 then
    fontFamily ← QStringList.get fragments 0
    pointSize := toFloat (← QStringList.get fragments 1)
    antialiasingSetting := toInt (← QStringList.get fragments 2)
    hintstyleSetting := toInt (← QStringList.get fragments 3)
    subpixelSetting := toInt (← QStringList.get fragments 4)
  if hintstyleSetting = KXftConfig.Hint.None.toInt then
    hintingSetting := KXftConfig.Hinting.Disabled.toInt
  return { fontFamily := fontFamily
           pointSize := pointSize
           options := ⟨antialiasingSetting, hintingSetting, hintstyleSetting,
             subpixelSetting, dpiH, dpiV⟩ }

/-! ## Predicates and values used to state the effect of a paint -/

/-- Canvas `c2` results from canvas `c1` by one loop iteration that touches only the
pixel `(p, q)`, replacing its colour `v` by `F v` when the pixel belongs to the image. -/
def PixelStep (F : QRgb → QRgb) (p q : Int) (c1 c2 : QImage) : Prop :=
  c2.width = c1.width ∧ c2.height = c1.height ∧
  (∀ a b, ¬(a = p ∧ b = q) → c2.pixels a b = c1.pixels a b) ∧
  c2.pixels p q = if c1.valid p q then F (c1.pixels p q) else c1.pixels p q

/-- Canvas `c2` results from canvas `c1` by one run of an inner loop: columns
`0 .. w-1` of the row at canvas line `q`, starting at canvas column `x`. -/
def RowStep (F : Nat → QRgb → QRgb) (x q : Int) (w : Nat) (c1 c2 : QImage) : Prop :=
  c2.width = c1.width ∧ c2.height = c1.height ∧
  (∀ a b, ¬(b = q ∧ x ≤ a ∧ a < x + w) → c2.pixels a b = c1.pixels a b) ∧
  (∀ i, i < w → c2.pixels (i + x) q
      = if c1.valid (i + x) q then F i (c1.pixels (i + x) q) else c1.pixels (i + x) q)

/-- Canvas `c2` results from canvas `c1` by a whole paint: every pixel of the glyph box
that belongs to the image has its colour `v` replaced by `F row col v`, and nothing else
changes. -/
def BoxStep (F : Nat → Nat → QRgb → QRgb) (x y : Int) (w h : Nat) (c1 c2 : QImage) : Prop :=
  c2.width = c1.width ∧ c2.height = c1.height ∧
  (∀ a b, ¬(x ≤ a ∧ a < x + w ∧ y ≤ b ∧ b < y + h) → c2.pixels a b = c1.pixels a b) ∧
  (∀ j i, j < h → i < w → c2.pixels (i + x) (j + y)
      = if c1.valid (i + x) (j + y) then F j i (c1.pixels (i + x) (j + y))
        else c1.pixels (i + x) (j + y))

/-- The colour that both blending paint methods store for a pixel whose previous colour
is `bg`, given the coverage samples used for red, green and blue. -/
def blendPixel (vr vg vb : Byte) (pen : QColor) (bg : QRgb) : QRgb :=
  qRgb (blend vr.val bg.red.val pen.red.val) (blend vg.val bg.green.val pen.green.val)
    (blend vb.val bg.blue.val pen.blue.val)

/-- The coverage byte that `GrayScaleGlyph::paint` reads for `(row, col)`, 0 if the read
is outside the buffer. -/
def GrayScaleGlyph.coverage (g : ByteDataGlyph) (row col : Nat) : Byte :=
  (byteAt g.bytemap (GrayScaleGlyph.index g row col)).getD 0

/-- The coverage sample that `getValue(row, col, k)` yields, 0 if the read is outside the
buffer. -/
def sampleOf (getValue : Int → Int → Int → Option Byte) (row col : Nat) (k : Int) : Byte :=
  (getValue row col k).getD 0

/-- The bit that `pixelAt` yields for glyph pixel `(gx, gy)`, 0 if the read is outside the
buffer. -/
def MonochromeGlyph.bit (g : MonochromeGlyph) (gx gy : Nat) : Nat :=
  (MonochromeGlyph.pixelAt gx gy g.pitch g.bitmap).getD 0

/-- Canvas `c2` has the size of canvas `c1` and the same colour at every pixel outside
the box `[x, x+w) x [y, y+h)`. -/
def UnchangedOutside (x y : Int) (w h : Nat) (c1 c2 : QImage) : Prop :=
  c2.width = c1.width ∧ c2.height = c1.height ∧
  ∀ a b : Int, ¬(x ≤ a ∧ a < x + w ∧ y ≤ b ∧ b < y + h) → c2.pixels a b = c1.pixels a b

/-- The specification's `max(0, max of the values)`. -/
def maxWithZero (values : List ℚ) : ℚ := values.foldr max 0

/-- The maximum of a non-empty sequence of values, given as its first value and the
others. -/
def maxOver (first : ℚ) (others : List ℚ) : ℚ := others.foldr max first

/-- The specification's bottom extent of a glyph, `height − |bearingTop|`. -/
def bottomExtent (g : GlyphData) : ℚ := (g.getHeight : ℚ) - |g.bearingTop|

/-- One invocation `data->paint(&canvas, x, y, pen)` of the glyph loop of `renderText`:
the glyph and the integer origin. -/
structure PaintCall where
  glyph : GlyphData
  x : Int
  y : Int

/-- The invocations of `paint` that the glyph loop of `renderText` makes, in the order
in which it makes them, on the glyphs still to paint and the running pen position `x`:
the same recursion as `paintGlyphs`, recording the arguments instead of painting. -/
def FreeTypeFontPreviewRenderer.paintCalls (baseLineOffset : Nat) :
    List GlyphData → ℚ → List PaintCall
  | [], _ => []
  | data :: rest, x =>
    ⟨data, rint (roundToFloat (x + data.getBearingLeft)),
        rint ((baseLineOffset : ℚ) - data.getBearingTop + data.getOffsetY)⟩
      :: FreeTypeFontPreviewRenderer.paintCalls baseLineOffset rest
          (roundToFloat (x + data.getAdvanceX))

/-- The effect of one invocation of `paint` on the canvas. -/
def PaintCall.run (pen : QColor) (canvas : QImage) (call : PaintCall) : Option QImage :=
  call.glyph.paint canvas call.x call.y pen

/-- Pixel `(a, b)` lies in the paint box of the invocation: the box of the glyph's width
and height at the origin of the call. -/
def PaintCall.covers (call : PaintCall) (a b : Int) : Prop :=
  call.x ≤ a ∧ a < call.x + call.glyph.getWidth ∧
  call.y ≤ b ∧ b < call.y + call.glyph.getHeight

/-- The glyph object can be painted without a read outside its buffer: its rows fit the
positive stride and the buffer holds all rows (for Mono: the magnitude of the stride). -/
def PixelData.Readable : PixelData → Prop
  | PixelData.monochrome g =>
    g.width ≤ 8 * g.pitch.natAbs ∧ g.height * g.pitch.natAbs ≤ g.bitmap.length
  | PixelData.grayScale g =>
    0 < g.pitch ∧ (g.width : Int) ≤ g.pitch ∧ (g.height : Int) * g.pitch ≤ g.bytemap.length
  | PixelData.subPixel g =>
    0 < g.pitch ∧ 3 * (g.width : Int) ≤ g.pitch
      ∧ (g.height : Int) * g.pitch ≤ g.bytemap.length
  | PixelData.verticalSubPixel g =>
    0 < g.pitch ∧ (g.width : Int) ≤ g.pitch
      ∧ 3 * (g.height : Int) * g.pitch ≤ g.bytemap.length

/-- The glyph has no bitmap object or one that is `Readable`. -/
def GlyphData.Readable (g : GlyphData) : Prop :=
  ∀ p, g.pixelData = some p → p.Readable

/-- The number of bytes that `MonochromeGlyph::MonochromeGlyph` copies out of the
rasterizer buffer: its local `size`. -/
def MonochromeGlyph.copySize (bitmap : FT_Bitmap) : Nat :=
  (bitmap.rows * bitmap.pitch.natAbs) % 2 ^ 32

/-- The number of bytes that `ByteDataGlyph::ByteDataGlyph(bitmap, bytesPerPixel, width,
height)` copies out of the rasterizer buffer: its local `size`. -/
def ByteDataGlyph.copySize (bitmap : FT_Bitmap) (bytesPerPixel height : Nat) : Nat :=
  (height * bitmap.pitch.natAbs * bytesPerPixel) % 2 ^ 32

/-- The specification's reading of a Mono bitmap of the given width: rows of
`ceil(width / 8)` bytes, most significant bit first, so that pixel `(x, y)` is bit
`7 - x mod 8` of the byte at index `y * ceil(width / 8) + floor(x / 8)`. -/
def specPixelAt (width : Nat) (buffer : List Byte) (x y : Nat) : Option Nat :=
  (buffer[y * ((width + 7) / 8) + x / 8]?).map (fun byte => byte.val / 2 ^ (7 - x % 8) % 2)

/-- The Gray bitmap of the same logical size as the sub-pixel glyph `s` that holds, for
every logical pixel, the middle one of its three samples as coverage; rows are stored
without padding (stride = width).  `getValue` is the sample access of `s`. -/
def GrayScaleGlyph.ofSamples (getValue : Int → Int → Int → Option Byte)
    (s : AbstractSubPixelGlyph) : ByteDataGlyph :=
  { pitch := (s.width : Int)
    rowLength := s.width
    width := s.width
    height := s.height
    bytemap := (List.range (s.height * s.width)).map (fun n =>
      (getValue ((n / s.width : Nat) : Int) ((n % s.width : Nat) : Int) 1).getD 0) }

/-- The `float` accumulation `x += a` over the values of a list, from the start value:
every addition is rounded to `float`. -/
def floatSum (start : ℚ) (values : List ℚ) : ℚ :=
  values.foldl (fun x a => roundToFloat (x + a)) start

/-! ## Facts about the blend -/

theorem blend_eq_blendFormula (c background pen : Nat) (hc : c ≤ 255) :
    blend c background pen = (blendFormula c background pen : Int) := by
  unfold blend blendFormula
  have hnum : (255 - (c : Int)) * background + c * pen
      = (((255 - c) * background + c * pen : Nat) : Int) := by
    push_cast [Nat.cast_sub hc]
    ring
  rw [hnum, Int.tdiv_eq_ediv (Int.ofNat_nonneg _) (by decide)]
  norm_cast

theorem blendFormula_le (c background pen : Nat) (hc : c ≤ 255) (hb : background ≤ 255)
    (hp : pen ≤ 255) : blendFormula c background pen ≤ 255 := by
  unfold blendFormula
  apply Nat.div_le_of_le_mul
  have h1 : (255 - c) * background ≤ (255 - c) * 255 := Nat.mul_le_mul_left _ hb
  have h2 : c * pen ≤ c * 255 := Nat.mul_le_mul_left _ hp
  have h3 : (255 - c) * 255 + c * 255 = 255 * 255 := by
    rw [← Nat.add_mul]
    congr 1
    omega
  omega

theorem lowByte_blend (c background pen : Byte) :
    (lowByte (blend c.val background.val pen.val)).val
      = blendFormula c.val background.val pen.val := by
  have hc : c.val ≤ 255 := by omega
  have hb : background.val ≤ 255 := by omega
  have hp : pen.val ≤ 255 := by omega
  have hle := blendFormula_le c.val background.val pen.val hc hb hp
  rw [blend_eq_blendFormula _ _ _ hc]
  simp only [lowByte]
  omega

/-! ## Effect of the paint loops on the canvas -/

theorem valid_congr {c1 c2 : QImage} (hw : c2.width = c1.width) (hh : c2.height = c1.height)
    (p q : Int) : c2.valid p q ↔ c1.valid p q := by
  unfold QImage.valid
  rw [hw, hh]

theorem pixelStep_setPixel (f : QColor → QRgb) (p q : Int) (c : QImage) :
    PixelStep f p q c (c.setPixel p q (f (c.pixelColor p q))) := by
  unfold PixelStep QImage.setPixel QImage.pixelColor
  by_cases hv : c.valid p q
  · rw [if_pos hv, if_pos hv, if_pos hv]
    refine ⟨rfl, rfl, ?_, ?_⟩
    · intro a b hab
      exact if_neg hab
    · exact if_pos ⟨rfl, rfl⟩
  · rw [if_neg hv, if_neg hv]
    exact ⟨rfl, rfl, fun _ _ _ => rfl, rfl⟩

theorem pixelStep_skip (p q : Int) (c : QImage) : PixelStep (fun v => v) p q c c := by
  unfold PixelStep
  refine ⟨rfl, rfl, fun _ _ _ => rfl, ?_⟩
  split <;> rfl

theorem forLoop_row (body : Nat → QImage → Option QImage) (F : Nat → QRgb → QRgb)
    (x q : Int) (w : Nat)
    (H : ∀ i, i < w → ∀ c, ∃ c2, body i c = some c2 ∧ PixelStep (F i) (i + x) q c c2) :
    ∀ c, ∃ c2, forLoop w body c = some c2 ∧ RowStep F x q w c c2 := by
  induction w with
  | zero =>
    intro c
    refine ⟨c, rfl, rfl, rfl, fun _ _ _ => rfl, ?_⟩
    intro i hi
    omega
  | succ k ih =>
    intro c
    obtain ⟨c1, hrun, hw1, hh1, hout1, hin1⟩ := ih (fun i hi => H i (by omega)) c
    obtain ⟨c2, hbody, hw2, hh2, hout2, hin2⟩ := H k (by omega) c1
    refine ⟨c2, ?_, by rw [hw2, hw1], by rw [hh2, hh1], ?_, ?_⟩
    · simp only [forLoop, hrun, Option.some_bind, hbody]
    · intro a b hab
      rw [hout2 a b (by intro h; apply hab; omega), hout1 a b (by intro h; apply hab; omega)]
    · intro i hi
      by_cases hik : i = k
      · subst hik
        rw [hin2, hout1 _ _ (by omega)]
        simp only [valid_congr hw1 hh1]
      · rw [hout2 _ _ (by omega)]
        exact hin1 i (by omega)

theorem forLoop_box (body : Nat → QImage → Option QImage) (F : Nat → Nat → QRgb → QRgb)
    (x y : Int) (w h : Nat)
    (H : ∀ j, j < h → ∀ c, ∃ c2, body j c = some c2 ∧ RowStep (F j) x (j + y) w c c2) :
    ∀ c, ∃ c2, forLoop h body c = some c2 ∧ BoxStep F x y w h c c2 := by
  induction h with
  | zero =>
    intro c
    refine ⟨c, rfl, rfl, rfl, fun _ _ _ => rfl, ?_⟩
    intro j i hj
    omega
  | succ k ih =>
    intro c
    obtain ⟨c1, hrun, hw1, hh1, hout1, hin1⟩ := ih (fun j hj => H j (by omega)) c
    obtain ⟨c2, hbody, hw2, hh2, hout2, hin2⟩ := H k (by omega) c1
    refine ⟨c2, ?_, by rw [hw2, hw1], by rw [hh2, hh1], ?_, ?_⟩
    · simp only [forLoop, hrun, Option.some_bind, hbody]
    · intro a b hab
      rw [hout2 a b (by intro h; apply hab; omega), hout1 a b (by intro h; apply hab; omega)]
    · intro j i hj hi
      by_cases hjk : j = k
      · subst hjk
        rw [hin2 i hi, hout1 _ _ (by omega)]
        simp only [valid_congr hw1 hh1]
      · rw [hout2 _ _ (by omega)]
        exact hin1 j i (by omega) hi

/-- The nested loops of a paint method whose body is a `PixelStep` at every pixel of the
glyph box run to completion, and their result is the corresponding `BoxStep`. -/
theorem paint_loops (body : Nat → Nat → QImage → Option QImage)
    (F : Nat → Nat → QRgb → QRgb) (x y : Int) (w h : Nat)
    (H : ∀ j i, j < h → i < w → ∀ c,
      ∃ c2, body j i c = some c2 ∧ PixelStep (F j i) (i + x) (j + y) c c2) (c : QImage) :
    ∃ c2, forLoop h (fun j c => forLoop w (fun i c => body j i c) c) c = some c2
      ∧ BoxStep F x y w h c c2 :=
  forLoop_box _ F x y w h
    (fun j hj c => forLoop_row (fun i c => body j i c) (F j) x (j + y) w
      (fun i hi c => H j i hj hi c) c) c

/-! ## The blending paint methods, pixel by pixel -/

theorem blendPixel_red (vr vg vb : Byte) (pen : QColor) (bg : QRgb) :
    (blendPixel vr vg vb pen bg).red.val = blendFormula vr.val bg.red.val pen.red.val :=
  lowByte_blend vr bg.red pen.red

theorem blendPixel_green (vr vg vb : Byte) (pen : QColor) (bg : QRgb) :
    (blendPixel vr vg vb pen bg).green.val = blendFormula vg.val bg.green.val pen.green.val :=
  lowByte_blend vg bg.green pen.green

theorem blendPixel_blue (vr vg vb : Byte) (pen : QColor) (bg : QRgb) :
    (blendPixel vr vg vb pen bg).blue.val = blendFormula vb.val bg.blue.val pen.blue.val :=
  lowByte_blend vb bg.blue pen.blue

theorem byteAt_isSome (buffer : List Byte) (i : Int) (h0 : 0 ≤ i) (h1 : i < buffer.length) :
    ∃ v, byteAt buffer i = some v := by
  unfold byteAt
  rw [if_neg (by omega)]
  have hlt : i.toNat < buffer.length := by omega
  exact ⟨buffer[i.toNat], List.getElem?_eq_getElem hlt⟩

theorem gray_paintPixel_step (g : ByteDataGlyph) (x y : Int) (pen : QColor) (j i : Nat)
    (c : QImage) (v : Byte) (hread : byteAt g.bytemap (GrayScaleGlyph.index g j i) = some v) :
    ∃ c2, GrayScaleGlyph.paintPixel g x y pen j i c = some c2
      ∧ PixelStep (blendPixel v v v pen) (i + x) (j + y) c c2 := by
  unfold GrayScaleGlyph.paintPixel
  rw [hread]
  exact ⟨_, rfl, pixelStep_setPixel (blendPixel v v v pen) _ _ c⟩

theorem gray_index_inside (g : ByteDataGlyph) (hpitch : 0 < g.pitch)
    (hwidth : (g.width : Int) ≤ g.pitch)
    (hlen : (g.height : Int) * g.pitch ≤ g.bytemap.length) (j i : Nat) (hj : j < g.height)
    (hi : i < g.width) :
    0 ≤ GrayScaleGlyph.index g j i ∧ GrayScaleGlyph.index g j i < g.bytemap.length := by
  unfold GrayScaleGlyph.index
  have h1 : (0 : Int) ≤ (j : Int) * g.pitch := by positivity
  have h2 : ((j : Int) + 1) * g.pitch ≤ (g.height : Int) * g.pitch :=
    Int.mul_le_mul_of_nonneg_right (by omega) (by omega)
  have h3 : ((j : Int) + 1) * g.pitch = (j : Int) * g.pitch + g.pitch := by ring
  constructor <;> omega

theorem gray_read (g : ByteDataGlyph) (hpitch : 0 < g.pitch)
    (hwidth : (g.width : Int) ≤ g.pitch)
    (hlen : (g.height : Int) * g.pitch ≤ g.bytemap.length) (j i : Nat) (hj : j < g.height)
    (hi : i < g.width) :
    byteAt g.bytemap (GrayScaleGlyph.index g j i) = some (GrayScaleGlyph.coverage g j i) := by
  obtain ⟨h0, h1⟩ := gray_index_inside g hpitch hwidth hlen j i hj hi
  obtain ⟨v, hv⟩ := byteAt_isSome g.bytemap _ h0 h1
  unfold GrayScaleGlyph.coverage
  rw [hv]
  rfl

theorem gray_paint_boxStep (g : ByteDataGlyph) (canvas : QImage) (x y : Int) (pen : QColor)
    (hread : ∀ j i, j < g.height → i < g.width →
      byteAt g.bytemap (GrayScaleGlyph.index g j i) = some (GrayScaleGlyph.coverage g j i)) :
    ∃ c2, GrayScaleGlyph.paint g canvas x y pen = some c2
      ∧ BoxStep (fun j i => blendPixel (GrayScaleGlyph.coverage g j i)
          (GrayScaleGlyph.coverage g j i) (GrayScaleGlyph.coverage g j i) pen)
          x y g.width g.height canvas c2 :=
  paint_loops (GrayScaleGlyph.paintPixel g x y pen) _ x y g.width g.height
    (fun j i hj hi c => gray_paintPixel_step g x y pen j i c _ (hread j i hj hi)) canvas

theorem subpixel_paintPixel_step (getValue : Int → Int → Int → Option Byte)
    (g : AbstractSubPixelGlyph) (x y : Int) (pen : QColor) (j i : Nat) (c : QImage)
    (vr vg vb : Byte)
    (hr : getValue j i (if g.reverse then 2 else 0) = some vr)
    (hg : getValue j i 1 = some vg)
    (hb : getValue j i (if g.reverse then 0 else 2) = some vb) :
    ∃ c2, AbstractSubPixelGlyph.paintPixel getValue g x y pen j i c = some c2
      ∧ PixelStep (blendPixel vr vg vb pen) (i + x) (j + y) c c2 := by
  unfold AbstractSubPixelGlyph.paintPixel
  simp only [hr, hg, hb, Option.some_bind, Option.map_some']
  exact ⟨_, rfl, pixelStep_setPixel (blendPixel vr vg vb pen) _ _ c⟩

theorem subpixel_paint_boxStep (getValue : Int → Int → Int → Option Byte)
    (g : AbstractSubPixelGlyph) (canvas : QImage) (x y : Int) (pen : QColor)
    (hread : ∀ j i, j < g.height → i < g.width → ∀ k : Int, 0 ≤ k → k ≤ 2 →
      getValue j i k = some (sampleOf getValue j i k)) :
    ∃ c2, AbstractSubPixelGlyph.paint getValue g canvas x y pen = some c2
      ∧ BoxStep (fun j i => blendPixel (sampleOf getValue j i (if g.reverse then 2 else 0))
          (sampleOf getValue j i 1) (sampleOf getValue j i (if g.reverse then 0 else 2)) pen)
          x y g.width g.height canvas c2 :=
  paint_loops (AbstractSubPixelGlyph.paintPixel getValue g x y pen) _ x y g.width g.height
    (fun j i hj hi c => subpixel_paintPixel_step getValue g x y pen j i c _ _ _
      (hread j i hj hi _ (by split <;> omega) (by split <;> omega))
      (hread j i hj hi 1 (by omega) (by omega))
      (hread j i hj hi _ (by split <;> omega) (by split <;> omega))) canvas

theorem read_getD (buffer : List Byte) (i : Int) (h0 : 0 ≤ i) (h1 : i < buffer.length) :
    byteAt buffer i = some ((byteAt buffer i).getD 0) := by
  obtain ⟨v, hv⟩ := byteAt_isSome buffer i h0 h1
  rw [hv]
  rfl

theorem subPixel_read (g : AbstractSubPixelGlyph) (hpitch : 0 < g.pitch)
    (hwidth : 3 * (g.width : Int) ≤ g.pitch)
    (hlen : (g.height : Int) * g.pitch ≤ g.bytemap.length) (j i : Nat) (hj : j < g.height)
    (hi : i < g.width) (k : Int) (hk0 : 0 ≤ k) (hk2 : k ≤ 2) :
    SubPixelGlyph.getValue g j i k = some (sampleOf (SubPixelGlyph.getValue g) j i k) := by
  unfold sampleOf SubPixelGlyph.getValue
  apply read_getD <;> unfold SubPixelGlyph.index
  · have h1 : (0 : Int) ≤ (j : Int) * g.pitch := by positivity
    omega
  · have h2 : ((j : Int) + 1) * g.pitch ≤ (g.height : Int) * g.pitch :=
      Int.mul_le_mul_of_nonneg_right (by omega) (by omega)
    have h3 : ((j : Int) + 1) * g.pitch = (j : Int) * g.pitch + g.pitch := by ring
    omega

theorem verticalSubPixel_read (g : AbstractSubPixelGlyph) (hpitch : 0 < g.pitch)
    (hwidth : (g.width : Int) ≤ g.pitch)
    (hlen : 3 * (g.height : Int) * g.pitch ≤ g.bytemap.length) (j i : Nat)
    (hj : j < g.height) (hi : i < g.width) (k : Int) (hk0 : 0 ≤ k) (hk2 : k ≤ 2) :
    VerticalSubPixelGlyph.getValue g j i k
      = some (sampleOf (VerticalSubPixelGlyph.getValue g) j i k) := by
  unfold sampleOf VerticalSubPixelGlyph.getValue
  apply read_getD <;> unfold VerticalSubPixelGlyph.index
  · have h1 : (0 : Int) ≤ (3 * (j : Int) + k) * g.pitch :=
      Int.mul_nonneg (by omega) (by omega)
    omega
  · have h2 : (3 * (j : Int) + k + 1) * g.pitch ≤ 3 * (g.height : Int) * g.pitch :=
      Int.mul_le_mul_of_nonneg_right (by omega) (by omega)
    have h3 : (3 * (j : Int) + k + 1) * g.pitch = (3 * (j : Int) + k) * g.pitch + g.pitch := by
      ring
    omega

/-! ## The monochrome paint method, pixel by pixel -/

theorem mono_bit_le_one (g : MonochromeGlyph) (gx gy : Nat) : g.bit gx gy = 0 ∨ g.bit gx gy = 1 := by
  unfold MonochromeGlyph.bit MonochromeGlyph.pixelAt
  simp only []
  generalize byteAt g.bitmap ((((gy * g.pitch.natAbs + gx / 8) % 2 ^ 32 : Nat)) : Int) = r
  cases r with
  | none => exact Or.inl rfl
  | some byte =>
    simp only [Option.map_some', Option.getD_some, Nat.and_one_is_mod]
    omega

theorem mono_read (g : MonochromeGlyph) (hwidth : g.width ≤ 8 * g.pitch.natAbs)
    (hlen : g.height * g.pitch.natAbs ≤ g.bitmap.length) (gx gy : Nat) (hx : gx < g.width)
    (hy : gy < g.height) :
    MonochromeGlyph.pixelAt gx gy g.pitch g.bitmap = some (g.bit gx gy) := by
  have h2 : (gy + 1) * g.pitch.natAbs ≤ g.height * g.pitch.natAbs :=
    Nat.mul_le_mul_right _ (by omega)
  have h3 : (gy + 1) * g.pitch.natAbs = gy * g.pitch.natAbs + g.pitch.natAbs := by ring
  have h4 : (gy * g.pitch.natAbs + gx / 8) % 2 ^ 32 ≤ gy * g.pitch.natAbs + gx / 8 :=
    Nat.mod_le _ _
  obtain ⟨v, hv⟩ := byteAt_isSome g.bitmap
    (((gy * g.pitch.natAbs + gx / 8) % 2 ^ 32 : Nat) : Int) (by omega) (by omega)
  unfold MonochromeGlyph.bit MonochromeGlyph.pixelAt
  simp only [hv, Option.map_some', Option.getD_some]

theorem mono_paintPixel_step (g : MonochromeGlyph) (x y : Int) (pen : QColor)
    (gy gx : Nat) (c : QImage)
    (hread : MonochromeGlyph.pixelAt gx gy g.pitch g.bitmap = some (g.bit gx gy)) :
    ∃ c2, g.paintPixel x y pen gy gx c = some c2
      ∧ PixelStep (fun bg => if g.bit gx gy ≠ 0 then pen.rgb else bg) (gx + x) (gy + y) c c2 := by
  unfold MonochromeGlyph.paintPixel
  rw [hread]
  by_cases hb : g.bit gx gy ≠ 0
  · simp only [Option.map_some', if_pos hb]
    exact ⟨_, rfl, pixelStep_setPixel (fun _ => pen.rgb) _ _ c⟩
  · simp only [Option.map_some', if_neg hb]
    exact ⟨_, rfl, pixelStep_skip _ _ c⟩

theorem mono_paint_boxStep (g : MonochromeGlyph) (canvas : QImage) (x y : Int) (pen : QColor)
    (hread : ∀ gy gx, gy < g.height → gx < g.width →
      MonochromeGlyph.pixelAt gx gy g.pitch g.bitmap = some (g.bit gx gy)) :
    ∃ c2, g.paint canvas x y pen = some c2
      ∧ BoxStep (fun gy gx bg => if g.bit gx gy ≠ 0 then pen.rgb else bg)
          x y g.width g.height canvas c2 :=
  paint_loops (g.paintPixel x y pen) _ x y g.width g.height
    (fun gy gx hy hx c => mono_paintPixel_step g x y pen gy gx c (hread gy gx hy hx)) canvas

/-! ## Gray bitmaps -/

theorem gray_paint_pixels (g : ByteDataGlyph) (canvas : QImage) (x y : Int) (pen : QColor)
    (hpitch : 0 < g.pitch) (hwidth : (g.width : Int) ≤ g.pitch)
    (hlen : (g.height : Int) * g.pitch ≤ g.bytemap.length) :
    ∃ canvas2, GrayScaleGlyph.paint g canvas x y pen = some canvas2 ∧
      canvas2.width = canvas.width ∧ canvas2.height = canvas.height ∧
      ∀ row col : Nat, row < g.height → col < g.width → canvas.valid (col + x) (row + y) →
        ∃ c : Byte, byteAt g.bytemap ((row : Int) * g.pitch + col) = some c ∧
          canvas2.pixels (col + x) (row + y)
            = blendPixel c c c pen (canvas.pixels (col + x) (row + y)) := by
  obtain ⟨c2, hrun, hw, hh, _, hin⟩ := gray_paint_boxStep g canvas x y pen
    (fun j i hj hi => gray_read g hpitch hwidth hlen j i hj hi)
  refine ⟨c2, hrun, hw, hh, ?_⟩
  intro row col hrow hcol hvalid
  refine ⟨GrayScaleGlyph.coverage g row col, gray_read g hpitch hwidth hlen row col hrow hcol, ?_⟩
  rw [hin row col hrow hcol, if_pos hvalid]

/-- C1: for a Gray bitmap with positive row stride whose rows fit the stride and whose
buffer holds `height` rows, `GrayScaleGlyph::paint` runs to completion and sets every
channel of every canvas pixel `(x+col, y+row)` of the glyph box to
`((255-c)*background + c*pen) / 255` (integer division), where `c` is the byte at
`row*stride+col` and `background` the channel the canvas held before the paint; a second
Gray paint over the result blends over the first blend, in paint order. -/
theorem GrayScaleGlyph_paint_blends (g : ByteDataGlyph) (canvas : QImage) (x y : Int)
    (pen : QColor) (hpitch : 0 < g.pitch) (hwidth : (g.width : Int) ≤ g.pitch)
    (hlen : (g.height : Int) * g.pitch ≤ g.bytemap.length) :
    ∃ canvas2, GrayScaleGlyph.paint g canvas x y pen = some canvas2 ∧
      (∀ row col : Nat, row < g.height → col < g.width → canvas.valid (col + x) (row + y) →
        ∃ c : Byte, byteAt g.bytemap ((row : Int) * g.pitch + col) = some c ∧
          (canvas2.pixels (col + x) (row + y)).red.val
            = ((255 - c.val) * (canvas.pixels (col + x) (row + y)).red.val
                + c.val * pen.red.val) / 255 ∧
          (canvas2.pixels (col + x) (row + y)).green.val
            = ((255 - c.val) * (canvas.pixels (col + x) (row + y)).green.val
                + c.val * pen.green.val) / 255 ∧
          (canvas2.pixels (col + x) (row + y)).blue.val
            = ((255 - c.val) * (canvas.pixels (col + x) (row + y)).blue.val
                + c.val * pen.blue.val) / 255) ∧
      (∀ (g2 : ByteDataGlyph) (x2 y2 : Int) (pen2 : QColor), 0 < g2.pitch →
        (g2.width : Int) ≤ g2.pitch → (g2.height : Int) * g2.pitch ≤ g2.bytemap.length →
        ∃ canvas3, GrayScaleGlyph.paint g2 canvas2 x2 y2 pen2 = some canvas3 ∧
          ∀ row col row2 col2 : Nat, row < g.height → col < g.width → row2 < g2.height →
            col2 < g2.width → (col2 : Int) + x2 = col + x → (row2 : Int) + y2 = row + y →
            canvas.valid (col + x) (row + y) →
            ∃ c c2 : Byte, byteAt g.bytemap ((row : Int) * g.pitch + col) = some c ∧
              byteAt g2.bytemap ((row2 : Int) * g2.pitch + col2) = some c2 ∧
              (canvas3.pixels (col + x) (row + y)).red.val
                = ((255 - c2.val) * (((255 - c.val) * (canvas.pixels (col + x) (row + y)).red.val
                    + c.val * pen.red.val) / 255) + c2.val * pen2.red.val) / 255 ∧
              (canvas3.pixels (col + x) (row + y)).green.val
                = ((255 - c2.val) * (((255 - c.val) * (canvas.pixels (col + x) (row + y)).green.val
                    + c.val * pen.green.val) / 255) + c2.val * pen2.green.val) / 255 ∧
              (canvas3.pixels (col + x) (row + y)).blue.val
                = ((255 - c2.val) * (((255 - c.val) * (canvas.pixels (col + x) (row + y)).blue.val
                    + c.val * pen.blue.val) / 255) + c2.val * pen2.blue.val) / 255) := by
  obtain ⟨canvas2, hrun, hw, hh, hpix⟩ := gray_paint_pixels g canvas x y pen hpitch hwidth hlen
  refine ⟨canvas2, hrun, ?_, ?_⟩
  · intro row col hrow hcol hvalid
    obtain ⟨c, hc, hval⟩ := hpix row col hrow hcol hvalid
    refine ⟨c, hc, ?_, ?_, ?_⟩
    · rw [hval, blendPixel_red]; rfl
    · rw [hval, blendPixel_green]; rfl
    · rw [hval, blendPixel_blue]; rfl
  · intro g2 x2 y2 pen2 hpitch2 hwidth2 hlen2
    obtain ⟨canvas3, hrun2, _, _, hpix2⟩ :=
      gray_paint_pixels g2 canvas2 x2 y2 pen2 hpitch2 hwidth2 hlen2
    refine ⟨canvas3, hrun2, ?_⟩
    intro row col row2 col2 hrow hcol hrow2 hcol2 hx hy hvalid
    obtain ⟨c, hc, hval⟩ := hpix row col hrow hcol hvalid
    have hvalid2 : canvas2.valid (col2 + x2) (row2 + y2) := by
      rw [hx, hy]
      exact (valid_congr hw hh _ _).mpr hvalid
    obtain ⟨c2, hc2, hval2⟩ := hpix2 row2 col2 hrow2 hcol2 hvalid2
    rw [hx, hy] at hval2
    refine ⟨c, c2, hc, hc2, ?_, ?_, ?_⟩
    · rw [hval2, blendPixel_red, hval, blendPixel_red]; rfl
    · rw [hval2, blendPixel_green, hval, blendPixel_green]; rfl
    · rw [hval2, blendPixel_blue, hval, blendPixel_blue]; rfl

/-- C1, scenario of the specification: coverage 128 over a white canvas with a black pen
gives 127 in every channel. -/
theorem GrayScaleGlyph_paint_blends_witness :
    ∃ canvas2, GrayScaleGlyph.paint ⟨⟨1, 1, 1, 1⟩, [128]⟩
        (QImage.filled 1 1 ⟨255, 255, 255⟩) 0 0 ⟨0, 0, 0⟩ = some canvas2 ∧
      (canvas2.pixels 0 0).red.val = 127 ∧ (canvas2.pixels 0 0).green.val = 127 ∧
      (canvas2.pixels 0 0).blue.val = 127 := by
  obtain ⟨canvas2, hrun, hpix, _⟩ := GrayScaleGlyph_paint_blends ⟨⟨1, 1, 1, 1⟩, [128]⟩
    (QImage.filled 1 1 ⟨255, 255, 255⟩) 0 0 ⟨0, 0, 0⟩ (by decide) (by decide) (by decide)
  refine ⟨canvas2, hrun, ?_⟩
  obtain ⟨c, hc, hr, hg, hb⟩ := hpix 0 0 (by decide) (by decide) (by decide)
  have hc128 : c = 128 := by
    have h : byteAt [128] 0 = some c := hc
    exact (Option.some.inj h).symm
  subst hc128
  exact ⟨hr, hg, hb⟩

/-- C2: the Gray blend with coverage 0 returns exactly the background value and with
coverage 255 exactly the pen value (for all channel values, in particular those in
0..255). -/
theorem blend_coverage_endpoints (background pen : Int) :
    blend 0 background pen = background ∧ blend 255 background pen = pen := by
  unfold blend
  constructor
  · have h : (255 - 0) * background + 0 * pen = 255 * background := by ring
    rw [h]
    exact Int.mul_tdiv_cancel_left background (by decide)
  · have h : (255 - 255) * background + 255 * pen = 255 * pen := by ring
    rw [h]
    exact Int.mul_tdiv_cancel_left pen (by decide)

/-- C3: for non-negative background and pen values (in particular those in 0..255) the
Gray blend is monotonic in the coverage: for coverages `c1 ≤ c2` in 0..255 the result does
not decrease when `pen ≥ background` and does not increase when `pen ≤ background`,
integer division included. -/
theorem blend_monotone_in_coverage (background pen c1 c2 : Int)
    (hb0 : 0 ≤ background) (hp0 : 0 ≤ pen)
    (hc0 : 0 ≤ c1) (hc : c1 ≤ c2) (hc1 : c2 ≤ 255) :
    (background ≤ pen → blend c1 background pen ≤ blend c2 background pen) ∧
    (pen ≤ background → blend c2 background pen ≤ blend c1 background pen) := by
  have hn1 : 0 ≤ (255 - c1) * background + c1 * pen :=
    Int.add_nonneg (Int.mul_nonneg (by omega) hb0) (Int.mul_nonneg hc0 hp0)
  have hn2 : 0 ≤ (255 - c2) * background + c2 * pen :=
    Int.add_nonneg (Int.mul_nonneg (by omega) hb0) (Int.mul_nonneg (by omega) hp0)
  have hdiff : ((255 - c2) * background + c2 * pen) - ((255 - c1) * background + c1 * pen)
      = (c2 - c1) * (pen - background) := by ring
  unfold blend
  rw [Int.tdiv_eq_ediv hn1 (by decide), Int.tdiv_eq_ediv hn2 (by decide)]
  constructor
  · intro h
    have hpos : 0 ≤ (c2 - c1) * (pen - background) := Int.mul_nonneg (by omega) (by omega)
    exact Int.ediv_le_ediv (by decide) (by omega)
  · intro h
    have hpos : 0 ≤ (c2 - c1) * (background - pen) := Int.mul_nonneg (by omega) (by omega)
    have hneg : (c2 - c1) * (pen - background) = -((c2 - c1) * (background - pen)) := by ring
    exact Int.ediv_le_ediv (by decide) (by omega)

/-- C3 at background 10, pen 200 and coverages 64 ≤ 128. -/
theorem blend_monotone_in_coverage_witness :
    ((10 : Int) ≤ 200 → blend 64 10 200 ≤ blend 128 10 200) ∧
    ((200 : Int) ≤ 10 → blend 128 10 200 ≤ blend 64 10 200) :=
  blend_monotone_in_coverage 10 200 64 128 (by decide) (by decide) (by decide) (by decide)
    (by decide)

/-! ## Mono bitmaps -/

/-- C4: for a Mono bitmap whose rows fit the stride and whose buffer holds `height` rows,
`MonochromeGlyph::paint` runs to completion; afterwards every canvas pixel `(x+gx, y+gy)`
of the glyph box is exactly the pen colour when the glyph bit at `(gx, gy)` is 1 and keeps
its previous value when the bit is 0, and no pixel of the canvas holds any other new
colour. -/
theorem MonochromeGlyph_paint_pen_or_unchanged (g : MonochromeGlyph) (canvas : QImage)
    (x y : Int) (pen : QColor) (hwidth : g.width ≤ 8 * g.pitch.natAbs)
    (hlen : g.height * g.pitch.natAbs ≤ g.bitmap.length) :
    ∃ canvas2, g.paint canvas x y pen = some canvas2 ∧
      (∀ gx gy : Nat, gx < g.width → gy < g.height → canvas.valid (gx + x) (gy + y) →
        (MonochromeGlyph.pixelAt gx gy g.pitch g.bitmap = some 1
          ∧ canvas2.pixels (gx + x) (gy + y) = pen.rgb) ∨
        (MonochromeGlyph.pixelAt gx gy g.pitch g.bitmap = some 0
          ∧ canvas2.pixels (gx + x) (gy + y) = canvas.pixels (gx + x) (gy + y))) ∧
      (∀ a b : Int, canvas2.pixels a b = pen.rgb ∨ canvas2.pixels a b = canvas.pixels a b) := by
  have hread : ∀ gy gx, gy < g.height → gx < g.width →
      MonochromeGlyph.pixelAt gx gy g.pitch g.bitmap = some (g.bit gx gy) :=
    fun gy gx hy hx => mono_read g hwidth hlen gx gy hx hy
  obtain ⟨c2, hrun, _, _, hout, hin⟩ := mono_paint_boxStep g canvas x y pen hread
  refine ⟨c2, hrun, ?_, ?_⟩
  · intro gx gy hx hy hvalid
    have hpix := hin gy gx hy hx
    rw [if_pos hvalid] at hpix
    beta_reduce at hpix
    rcases mono_bit_le_one g gx gy with h0 | h1
    · right
      refine ⟨by rw [hread gy gx hy hx, h0], ?_⟩
      rw [hpix, h0]
      rfl
    · left
      refine ⟨by rw [hread gy gx hy hx, h1], ?_⟩
      rw [hpix, h1]
      rfl
  · intro a b
    by_cases hbox : x ≤ a ∧ a < x + g.width ∧ y ≤ b ∧ b < y + g.height
    · have ha : ((a - x).toNat : Int) + x = a := by omega
      have hb : ((b - y).toNat : Int) + y = b := by omega
      have hpix := hin (b - y).toNat (a - x).toNat (by omega) (by omega)
      rw [ha, hb] at hpix
      beta_reduce at hpix
      rw [hpix]
      by_cases hvalid : canvas.valid a b
      · rw [if_pos hvalid]
        by_cases hbit : g.bit (a - x).toNat (b - y).toNat ≠ 0
        · rw [if_pos hbit]
          exact Or.inl rfl
        · rw [if_neg hbit]
          exact Or.inr rfl
      · rw [if_neg hvalid]
        exact Or.inr rfl
    · exact Or.inr (hout a b hbox)

/-- C4 on a 2x1 glyph whose single byte `0x80` covers the left pixel only: painted in
black on a white canvas, the left pixel is black and the right pixel stays white. -/
theorem MonochromeGlyph_paint_pen_or_unchanged_witness :
    ∃ canvas2, MonochromeGlyph.paint ⟨⟨1, 1, 2, 1⟩, [128]⟩
        (QImage.filled 2 1 ⟨255, 255, 255⟩) 0 0 ⟨0, 0, 0⟩ = some canvas2 ∧
      canvas2.pixels 0 0 = ⟨0, 0, 0⟩ ∧ canvas2.pixels 1 0 = ⟨255, 255, 255⟩ := by
  obtain ⟨canvas2, hrun, hpix, _⟩ := MonochromeGlyph_paint_pen_or_unchanged
    ⟨⟨1, 1, 2, 1⟩, [128]⟩ (QImage.filled 2 1 ⟨255, 255, 255⟩) 0 0 ⟨0, 0, 0⟩
    (by decide) (by decide)
  refine ⟨canvas2, hrun, ?_, ?_⟩
  · rcases hpix 0 0 (by decide) (by decide) (by decide) with h | h
    · exact h.2
    · exact absurd h.1 (by decide)
  · rcases hpix 1 0 (by decide) (by decide) (by decide) with h | h
    · exact absurd h.1 (by decide)
    · exact h.2

/-! ## Sub-pixel bitmaps -/

theorem subpixel_paint_channels (getValue : Int → Int → Int → Option Byte)
    (g : AbstractSubPixelGlyph) (canvas : QImage) (x y : Int) (pen : QColor)
    (hread : ∀ j i, j < g.height → i < g.width → ∀ k : Int, 0 ≤ k → k ≤ 2 →
      getValue j i k = some (sampleOf getValue j i k)) :
    ∃ canvas2, AbstractSubPixelGlyph.paint getValue g canvas x y pen = some canvas2 ∧
      canvas2.width = canvas.width ∧ canvas2.height = canvas.height ∧
      (∀ a b, ¬(x ≤ a ∧ a < x + g.width ∧ y ≤ b ∧ b < y + g.height) →
        canvas2.pixels a b = canvas.pixels a b) ∧
      ∀ row col : Nat, row < g.height → col < g.width → canvas.valid (col + x) (row + y) →
        (canvas2.pixels (col + x) (row + y)).red.val
          = blendFormula (if g.reverse then sampleOf getValue row col 2
              else sampleOf getValue row col 0).val
              (canvas.pixels (col + x) (row + y)).red.val pen.red.val ∧
        (canvas2.pixels (col + x) (row + y)).green.val
          = blendFormula (sampleOf getValue row col 1).val
              (canvas.pixels (col + x) (row + y)).green.val pen.green.val ∧
        (canvas2.pixels (col + x) (row + y)).blue.val
          = blendFormula (if g.reverse then sampleOf getValue row col 0
              else sampleOf getValue row col 2).val
              (canvas.pixels (col + x) (row + y)).blue.val pen.blue.val := by
  obtain ⟨c2, hrun, hw, hh, hout, hin⟩ := subpixel_paint_boxStep getValue g canvas x y pen hread
  refine ⟨c2, hrun, hw, hh, hout, ?_⟩
  intro row col hrow hcol hvalid
  have hpix := hin row col hrow hcol
  rw [if_pos hvalid] at hpix
  beta_reduce at hpix
  have hsr : sampleOf getValue row col (if g.reverse = true then 2 else 0)
      = if g.reverse = true then sampleOf getValue row col 2 else sampleOf getValue row col 0 := by
    split <;> rfl
  have hsb : sampleOf getValue row col (if g.reverse = true then 0 else 2)
      = if g.reverse = true then sampleOf getValue row col 0 else sampleOf getValue row col 2 := by
    split <;> rfl
  rw [hpix, blendPixel_red, blendPixel_green, blendPixel_blue, hsr, hsb]
  exact ⟨rfl, rfl, rfl⟩

/-- C5: for a SubpixelH bitmap with positive stride whose rows of `3*width` samples fit
the stride and whose buffer holds `height` rows, paint runs to completion and for every
logical pixel `(row, col)` of the glyph box reads the samples `s0, s1, s2` at byte offsets
`row*stride + 3*col + 0, 1, 2`; with `reverse = false` `s0` feeds red, `s1` green and `s2`
blue, with `reverse = true` `s2` feeds red, `s1` green and `s0` blue, each channel being
`((255-s)*background + s*pen) / 255` with its own sample `s`. -/
theorem SubPixelGlyph_paint_samples (g : AbstractSubPixelGlyph) (canvas : QImage) (x y : Int)
    (pen : QColor) (hpitch : 0 < g.pitch) (hwidth : 3 * (g.width : Int) ≤ g.pitch)
    (hlen : (g.height : Int) * g.pitch ≤ g.bytemap.length) :
    ∃ canvas2, SubPixelGlyph.paint g canvas x y pen = some canvas2 ∧
      ∀ row col : Nat, row < g.height → col < g.width → canvas.valid (col + x) (row + y) →
        ∃ s0 s1 s2 : Byte,
          byteAt g.bytemap ((row : Int) * g.pitch + 3 * col + 0) = some s0 ∧
          byteAt g.bytemap ((row : Int) * g.pitch + 3 * col + 1) = some s1 ∧
          byteAt g.bytemap ((row : Int) * g.pitch + 3 * col + 2) = some s2 ∧
          (canvas2.pixels (col + x) (row + y)).red.val
            = ((255 - (if g.reverse then s2 else s0).val)
                  * (canvas.pixels (col + x) (row + y)).red.val
                + (if g.reverse then s2 else s0).val * pen.red.val) / 255 ∧
          (canvas2.pixels (col + x) (row + y)).green.val
            = ((255 - s1.val) * (canvas.pixels (col + x) (row + y)).green.val
                + s1.val * pen.green.val) / 255 ∧
          (canvas2.pixels (col + x) (row + y)).blue.val
            = ((255 - (if g.reverse then s0 else s2).val)
                  * (canvas.pixels (col + x) (row + y)).blue.val
                + (if g.reverse then s0 else s2).val * pen.blue.val) / 255 := by
  have hread := subPixel_read g hpitch hwidth hlen
  obtain ⟨c2, hrun, _, _, _, hin⟩ := subpixel_paint_channels (SubPixelGlyph.getValue g) g
    canvas x y pen hread
  refine ⟨c2, hrun, ?_⟩
  intro row col hrow hcol hvalid
  exact ⟨sampleOf (SubPixelGlyph.getValue g) row col 0,
    sampleOf (SubPixelGlyph.getValue g) row col 1,
    sampleOf (SubPixelGlyph.getValue g) row col 2,
    hread row col hrow hcol 0 (by decide) (by decide),
    hread row col hrow hcol 1 (by decide) (by decide),
    hread row col hrow hcol 2 (by decide) (by decide),
    hin row col hrow hcol hvalid⟩

/-- C5 on a one-pixel glyph with samples 255, 128, 0, painted in black on white: the
normal order gives (0, 127, 255), the reversed order gives (255, 127, 0). -/
theorem SubPixelGlyph_paint_samples_witness :
    (∃ canvas2, SubPixelGlyph.paint ⟨⟨⟨3, 3, 1, 1⟩, [255, 128, 0]⟩, false⟩
        (QImage.filled 1 1 ⟨255, 255, 255⟩) 0 0 ⟨0, 0, 0⟩ = some canvas2 ∧
      (canvas2.pixels 0 0).red.val = 0 ∧ (canvas2.pixels 0 0).green.val = 127 ∧
      (canvas2.pixels 0 0).blue.val = 255) ∧
    (∃ canvas2, SubPixelGlyph.paint ⟨⟨⟨3, 3, 1, 1⟩, [255, 128, 0]⟩, true⟩
        (QImage.filled 1 1 ⟨255, 255, 255⟩) 0 0 ⟨0, 0, 0⟩ = some canvas2 ∧
      (canvas2.pixels 0 0).red.val = 255 ∧ (canvas2.pixels 0 0).green.val = 127 ∧
      (canvas2.pixels 0 0).blue.val = 0) := by
  constructor
  · obtain ⟨canvas2, hrun, hpix⟩ := SubPixelGlyph_paint_samples
      ⟨⟨⟨3, 3, 1, 1⟩, [255, 128, 0]⟩, false⟩ (QImage.filled 1 1 ⟨255, 255, 255⟩) 0 0
      ⟨0, 0, 0⟩ (by decide) (by decide) (by decide)
    refine ⟨canvas2, hrun, ?_⟩
    obtain ⟨s0, s1, s2, h0, h1, h2, hr, hg, hb⟩ := hpix 0 0 (by decide) (by decide) (by decide)
    have e0 : s0 = 255 := (Option.some.inj (h0 : byteAt [255, 128, 0] 0 = some s0)).symm
    have e1 : s1 = 128 := (Option.some.inj (h1 : byteAt [255, 128, 0] 1 = some s1)).symm
    have e2 : s2 = 0 := (Option.some.inj (h2 : byteAt [255, 128, 0] 2 = some s2)).symm
    subst e0 e1 e2
    exact ⟨hr, hg, hb⟩
  · obtain ⟨canvas2, hrun, hpix⟩ := SubPixelGlyph_paint_samples
      ⟨⟨⟨3, 3, 1, 1⟩, [255, 128, 0]⟩, true⟩ (QImage.filled 1 1 ⟨255, 255, 255⟩) 0 0
      ⟨0, 0, 0⟩ (by decide) (by decide) (by decide)
    refine ⟨canvas2, hrun, ?_⟩
    obtain ⟨s0, s1, s2, h0, h1, h2, hr, hg, hb⟩ := hpix 0 0 (by decide) (by decide) (by decide)
    have e0 : s0 = 255 := (Option.some.inj (h0 : byteAt [255, 128, 0] 0 = some s0)).symm
    have e1 : s1 = 128 := (Option.some.inj (h1 : byteAt [255, 128, 0] 1 = some s1)).symm
    have e2 : s2 = 0 := (Option.some.inj (h2 : byteAt [255, 128, 0] 2 = some s2)).symm
    subst e0 e1 e2
    exact ⟨hr, hg, hb⟩

/-- C6: for a SubpixelV bitmap with positive stride whose rows fit the stride and whose
buffer holds `3*height` rows, paint runs to completion and for every logical pixel
`(row, col)` of the glyph box the sample for sub-offset `k` is the byte at
`(3*row + k)*stride + col`; the channel assignment (normal: 0 red, 1 green, 2 blue;
reversed: 2 red, 1 green, 0 blue) and the per-channel blend are those of SubpixelH. -/
theorem VerticalSubPixelGlyph_paint_samples (g : AbstractSubPixelGlyph) (canvas : QImage)
    (x y : Int) (pen : QColor) (hpitch : 0 < g.pitch) (hwidth : (g.width : Int) ≤ g.pitch)
    (hlen : 3 * (g.height : Int) * g.pitch ≤ g.bytemap.length) :
    ∃ canvas2, VerticalSubPixelGlyph.paint g canvas x y pen = some canvas2 ∧
      ∀ row col : Nat, row < g.height → col < g.width → canvas.valid (col + x) (row + y) →
        ∃ s0 s1 s2 : Byte,
          byteAt g.bytemap ((3 * (row : Int) + 0) * g.pitch + col) = some s0 ∧
          byteAt g.bytemap ((3 * (row : Int) + 1) * g.pitch + col) = some s1 ∧
          byteAt g.bytemap ((3 * (row : Int) + 2) * g.pitch + col) = some s2 ∧
          (canvas2.pixels (col + x) (row + y)).red.val
            = ((255 - (if g.reverse then s2 else s0).val)
                  * (canvas.pixels (col + x) (row + y)).red.val
                + (if g.reverse then s2 else s0).val * pen.red.val) / 255 ∧
          (canvas2.pixels (col + x) (row + y)).green.val
            = ((255 - s1.val) * (canvas.pixels (col + x) (row + y)).green.val
                + s1.val * pen.green.val) / 255 ∧
          (canvas2.pixels (col + x) (row + y)).blue.val
            = ((255 - (if g.reverse then s0 else s2).val)
                  * (canvas.pixels (col + x) (row + y)).blue.val
                + (if g.reverse then s0 else s2).val * pen.blue.val) / 255 := by
  have hread := verticalSubPixel_read g hpitch hwidth hlen
  obtain ⟨c2, hrun, _, _, _, hin⟩ := subpixel_paint_channels (VerticalSubPixelGlyph.getValue g) g
    canvas x y pen hread
  refine ⟨c2, hrun, ?_⟩
  intro row col hrow hcol hvalid
  exact ⟨sampleOf (VerticalSubPixelGlyph.getValue g) row col 0,
    sampleOf (VerticalSubPixelGlyph.getValue g) row col 1,
    sampleOf (VerticalSubPixelGlyph.getValue g) row col 2,
    hread row col hrow hcol 0 (by decide) (by decide),
    hread row col hrow hcol 1 (by decide) (by decide),
    hread row col hrow hcol 2 (by decide) (by decide),
    hin row col hrow hcol hvalid⟩

/-- C6 on a one-pixel glyph of three rows with stride 2 and samples 255, 128, 0 in column
0, painted in black on white: the normal order gives (0, 127, 255), the reversed order
gives (255, 127, 0). -/
theorem VerticalSubPixelGlyph_paint_samples_witness :
    (∃ canvas2, VerticalSubPixelGlyph.paint ⟨⟨⟨2, 2, 1, 1⟩, [255, 7, 128, 7, 0, 7]⟩, false⟩
        (QImage.filled 1 1 ⟨255, 255, 255⟩) 0 0 ⟨0, 0, 0⟩ = some canvas2 ∧
      (canvas2.pixels 0 0).red.val = 0 ∧ (canvas2.pixels 0 0).green.val = 127 ∧
      (canvas2.pixels 0 0).blue.val = 255) ∧
    (∃ canvas2, VerticalSubPixelGlyph.paint ⟨⟨⟨2, 2, 1, 1⟩, [255, 7, 128, 7, 0, 7]⟩, true⟩
        (QImage.filled 1 1 ⟨255, 255, 255⟩) 0 0 ⟨0, 0, 0⟩ = some canvas2 ∧
      (canvas2.pixels 0 0).red.val = 255 ∧ (canvas2.pixels 0 0).green.val = 127 ∧
      (canvas2.pixels 0 0).blue.val = 0) := by
  constructor
  · obtain ⟨canvas2, hrun, hpix⟩ := VerticalSubPixelGlyph_paint_samples
      ⟨⟨⟨2, 2, 1, 1⟩, [255, 7, 128, 7, 0, 7]⟩, false⟩ (QImage.filled 1 1 ⟨255, 255, 255⟩) 0 0
      ⟨0, 0, 0⟩ (by decide) (by decide) (by decide)
    refine ⟨canvas2, hrun, ?_⟩
    obtain ⟨s0, s1, s2, h0, h1, h2, hr, hg, hb⟩ := hpix 0 0 (by decide) (by decide) (by decide)
    have e0 : s0 = 255 :=
      (Option.some.inj (h0 : byteAt [255, 7, 128, 7, 0, 7] 0 = some s0)).symm
    have e1 : s1 = 128 :=
      (Option.some.inj (h1 : byteAt [255, 7, 128, 7, 0, 7] 2 = some s1)).symm
    have e2 : s2 = 0 :=
      (Option.some.inj (h2 : byteAt [255, 7, 128, 7, 0, 7] 4 = some s2)).symm
    subst e0 e1 e2
    exact ⟨hr, hg, hb⟩
  · obtain ⟨canvas2, hrun, hpix⟩ := VerticalSubPixelGlyph_paint_samples
      ⟨⟨⟨2, 2, 1, 1⟩, [255, 7, 128, 7, 0, 7]⟩, true⟩ (QImage.filled 1 1 ⟨255, 255, 255⟩) 0 0
      ⟨0, 0, 0⟩ (by decide) (by decide) (by decide)
    refine ⟨canvas2, hrun, ?_⟩
    obtain ⟨s0, s1, s2, h0, h1, h2, hr, hg, hb⟩ := hpix 0 0 (by decide) (by decide) (by decide)
    have e0 : s0 = 255 :=
      (Option.some.inj (h0 : byteAt [255, 7, 128, 7, 0, 7] 0 = some s0)).symm
    have e1 : s1 = 128 :=
      (Option.some.inj (h1 : byteAt [255, 7, 128, 7, 0, 7] 2 = some s1)).symm
    have e2 : s2 = 0 :=
      (Option.some.inj (h2 : byteAt [255, 7, 128, 7, 0, 7] 4 = some s2)).symm
    subst e0 e1 e2
    exact ⟨hr, hg, hb⟩

theorem blendPixel_green_only (vr vg vb wr wb : Byte) (pen : QColor) (bg : QRgb) :
    (blendPixel wr vg wb pen bg).green = (blendPixel vr vg vb pen bg).green := rfl

theorem reversed_paint_generic (getValue : Int → Int → Int → Option Byte)
    (b : ByteDataGlyph) (canvas : QImage) (x y : Int) (pen : QColor)
    (hread : ∀ j i, j < b.height → i < b.width → ∀ k : Int, 0 ≤ k → k ≤ 2 →
      getValue j i k = some (sampleOf getValue j i k)) :
    ∃ normal reversed,
      AbstractSubPixelGlyph.paint getValue ⟨b, false⟩ canvas x y pen = some normal ∧
      AbstractSubPixelGlyph.paint getValue ⟨b, true⟩ canvas x y pen = some reversed ∧
      (∀ px py : Int, (reversed.pixels px py).green = (normal.pixels px py).green) ∧
      ∀ row col : Nat, row < b.height → col < b.width → canvas.valid (col + x) (row + y) →
        ∃ sr sb : Byte, getValue row col 0 = some sr ∧ getValue row col 2 = some sb ∧
          (normal.pixels (col + x) (row + y)).red.val
            = blendFormula sr.val (canvas.pixels (col + x) (row + y)).red.val pen.red.val ∧
          (normal.pixels (col + x) (row + y)).blue.val
            = blendFormula sb.val (canvas.pixels (col + x) (row + y)).blue.val pen.blue.val ∧
          (reversed.pixels (col + x) (row + y)).red.val
            = blendFormula sb.val (canvas.pixels (col + x) (row + y)).red.val pen.red.val ∧
          (reversed.pixels (col + x) (row + y)).blue.val
            = blendFormula sr.val (canvas.pixels (col + x) (row + y)).blue.val pen.blue.val := by
  obtain ⟨cn, hrunN, _, _, houtN, hinN⟩ :=
    subpixel_paint_boxStep getValue ⟨b, false⟩ canvas x y pen hread
  obtain ⟨cr, hrunR, _, _, houtR, hinR⟩ :=
    subpixel_paint_boxStep getValue ⟨b, true⟩ canvas x y pen hread
  refine ⟨cn, cr, hrunN, hrunR, ?_, ?_⟩
  · intro px py
    by_cases hbox : x ≤ px ∧ px < x + b.width ∧ y ≤ py ∧ py < y + b.height
    · have ha : ((px - x).toNat : Int) + x = px := by omega
      have hb : ((py - y).toNat : Int) + y = py := by omega
      have hj : (py - y).toNat < b.height := by omega
      have hi : (px - x).toNat < b.width := by omega
      have hN := hinN (py - y).toNat (px - x).toNat hj hi
      have hR := hinR (py - y).toNat (px - x).toNat hj hi
      rw [ha, hb] at hN hR
      rw [hN, hR]
      by_cases hvalid : canvas.valid px py
      · rw [if_pos hvalid, if_pos hvalid]
        exact blendPixel_green_only _ _ _ _ _ pen _
      · rw [if_neg hvalid, if_neg hvalid]
    · rw [houtN px py hbox, houtR px py hbox]
  · intro row col hrow hcol hvalid
    have hN := hinN row col hrow hcol
    have hR := hinR row col hrow hcol
    rw [if_pos hvalid] at hN hR
    refine ⟨sampleOf getValue row col 0, sampleOf getValue row col 2,
      hread row col hrow hcol 0 (by decide) (by decide),
      hread row col hrow hcol 2 (by decide) (by decide), ?_, ?_, ?_, ?_⟩
    · rw [hN]; exact blendPixel_red _ _ _ pen _
    · rw [hN]; exact blendPixel_blue _ _ _ pen _
    · rw [hR]; exact blendPixel_red _ _ _ pen _
    · rw [hR]; exact blendPixel_blue _ _ _ pen _

/-- C7: painting the same sub-pixel buffer (SubpixelH or SubpixelV, readable as in C5 and
C6) with `reverse = true` instead of `reverse = false` gives the same green channel at
every pixel, while at every pixel of the glyph box red is blended with the sample the
unreversed paint uses for blue (sub-offset 2) and blue with the sample it uses for red
(sub-offset 0). -/
theorem reversed_swaps_red_and_blue (b : ByteDataGlyph) (canvas : QImage) (x y : Int)
    (pen : QColor) :
    (0 < b.pitch → 3 * (b.width : Int) ≤ b.pitch →
      (b.height : Int) * b.pitch ≤ b.bytemap.length →
      ∃ normal reversed,
        SubPixelGlyph.paint ⟨b, false⟩ canvas x y pen = some normal ∧
        SubPixelGlyph.paint ⟨b, true⟩ canvas x y pen = some reversed ∧
        (∀ px py : Int, (reversed.pixels px py).green = (normal.pixels px py).green) ∧
        ∀ row col : Nat, row < b.height → col < b.width → canvas.valid (col + x) (row + y) →
          ∃ sr sb : Byte, SubPixelGlyph.getValue ⟨b, false⟩ row col 0 = some sr ∧
            SubPixelGlyph.getValue ⟨b, false⟩ row col 2 = some sb ∧
            (normal.pixels (col + x) (row + y)).red.val
              = ((255 - sr.val) * (canvas.pixels (col + x) (row + y)).red.val
                  + sr.val * pen.red.val) / 255 ∧
            (normal.pixels (col + x) (row + y)).blue.val
              = ((255 - sb.val) * (canvas.pixels (col + x) (row + y)).blue.val
                  + sb.val * pen.blue.val) / 255 ∧
            (reversed.pixels (col + x) (row + y)).red.val
              = ((255 - sb.val) * (canvas.pixels (col + x) (row + y)).red.val
                  + sb.val * pen.red.val) / 255 ∧
            (reversed.pixels (col + x) (row + y)).blue.val
              = ((255 - sr.val) * (canvas.pixels (col + x) (row + y)).blue.val
                  + sr.val * pen.blue.val) / 255) ∧
    (0 < b.pitch → (b.width : Int) ≤ b.pitch →
      3 * (b.height : Int) * b.pitch ≤ b.bytemap.length →
      ∃ normal reversed,
        VerticalSubPixelGlyph.paint ⟨b, false⟩ canvas x y pen = some normal ∧
        VerticalSubPixelGlyph.paint ⟨b, true⟩ canvas x y pen = some reversed ∧
        (∀ px py : Int, (reversed.pixels px py).green = (normal.pixels px py).green) ∧
        ∀ row col : Nat, row < b.height → col < b.width → canvas.valid (col + x) (row + y) →
          ∃ sr sb : Byte, VerticalSubPixelGlyph.getValue ⟨b, false⟩ row col 0 = some sr ∧
            VerticalSubPixelGlyph.getValue ⟨b, false⟩ row col 2 = some sb ∧
            (normal.pixels (col + x) (row + y)).red.val
              = ((255 - sr.val) * (canvas.pixels (col + x) (row + y)).red.val
                  + sr.val * pen.red.val) / 255 ∧
            (normal.pixels (col + x) (row + y)).blue.val
              = ((255 - sb.val) * (canvas.pixels (col + x) (row + y)).blue.val
                  + sb.val * pen.blue.val) / 255 ∧
            (reversed.pixels (col + x) (row + y)).red.val
              = ((255 - sb.val) * (canvas.pixels (col + x) (row + y)).red.val
                  + sb.val * pen.red.val) / 255 ∧
            (reversed.pixels (col + x) (row + y)).blue.val
              = ((255 - sr.val) * (canvas.pixels (col + x) (row + y)).blue.val
                  + sr.val * pen.blue.val) / 255) :=
  ⟨fun hpitch hwidth hlen =>
      reversed_paint_generic (SubPixelGlyph.getValue ⟨b, false⟩) b canvas x y pen
        (subPixel_read ⟨b, false⟩ hpitch hwidth hlen),
    fun hpitch hwidth hlen =>
      reversed_paint_generic (VerticalSubPixelGlyph.getValue ⟨b, false⟩) b canvas x y pen
        (verticalSubPixel_read ⟨b, false⟩ hpitch hwidth hlen)⟩

/-- C7 on one-pixel glyphs with samples 255, 128, 0 (red, green, blue sub-offsets),
painted in black on white: green is 127 in both orders, red and blue are swapped. -/
theorem reversed_swaps_red_and_blue_witness :
    (∃ normal reversed,
      SubPixelGlyph.paint ⟨⟨⟨3, 3, 1, 1⟩, [255, 128, 0]⟩, false⟩
        (QImage.filled 1 1 ⟨255, 255, 255⟩) 0 0 ⟨0, 0, 0⟩ = some normal ∧
      SubPixelGlyph.paint ⟨⟨⟨3, 3, 1, 1⟩, [255, 128, 0]⟩, true⟩
        (QImage.filled 1 1 ⟨255, 255, 255⟩) 0 0 ⟨0, 0, 0⟩ = some reversed ∧
      (reversed.pixels 0 0).green = (normal.pixels 0 0).green ∧
      (normal.pixels 0 0).red.val = 0 ∧ (normal.pixels 0 0).blue.val = 255 ∧
      (reversed.pixels 0 0).red.val = 255 ∧ (reversed.pixels 0 0).blue.val = 0) ∧
    (∃ normal reversed,
      VerticalSubPixelGlyph.paint ⟨⟨⟨2, 2, 1, 1⟩, [255, 7, 128, 7, 0, 7]⟩, false⟩
        (QImage.filled 1 1 ⟨255, 255, 255⟩) 0 0 ⟨0, 0, 0⟩ = some normal ∧
      VerticalSubPixelGlyph.paint ⟨⟨⟨2, 2, 1, 1⟩, [255, 7, 128, 7, 0, 7]⟩, true⟩
        (QImage.filled 1 1 ⟨255, 255, 255⟩) 0 0 ⟨0, 0, 0⟩ = some reversed ∧
      (reversed.pixels 0 0).green = (normal.pixels 0 0).green ∧
      (normal.pixels 0 0).red.val = 0 ∧ (normal.pixels 0 0).blue.val = 255 ∧
      (reversed.pixels 0 0).red.val = 255 ∧ (reversed.pixels 0 0).blue.val = 0) := by
  constructor
  · obtain ⟨normal, reversed, hn, hr, hgreen, hpix⟩ :=
      (reversed_swaps_red_and_blue ⟨⟨3, 3, 1, 1⟩, [255, 128, 0]⟩
        (QImage.filled 1 1 ⟨255, 255, 255⟩) 0 0 ⟨0, 0, 0⟩).1 (by decide) (by decide) (by decide)
    refine ⟨normal, reversed, hn, hr, hgreen 0 0, ?_⟩
    obtain ⟨sr, sb, h0, h2, e1, e2, e3, e4⟩ := hpix 0 0 (by decide) (by decide) (by decide)
    have er : sr = 255 := (Option.some.inj (h0 : byteAt [255, 128, 0] 0 = some sr)).symm
    have eb : sb = 0 := (Option.some.inj (h2 : byteAt [255, 128, 0] 2 = some sb)).symm
    subst er eb
    exact ⟨e1, e2, e3, e4⟩
  · obtain ⟨normal, reversed, hn, hr, hgreen, hpix⟩ :=
      (reversed_swaps_red_and_blue ⟨⟨2, 2, 1, 1⟩, [255, 7, 128, 7, 0, 7]⟩
        (QImage.filled 1 1 ⟨255, 255, 255⟩) 0 0 ⟨0, 0, 0⟩).2 (by decide) (by decide) (by decide)
    refine ⟨normal, reversed, hn, hr, hgreen 0 0, ?_⟩
    obtain ⟨sr, sb, h0, h2, e1, e2, e3, e4⟩ := hpix 0 0 (by decide) (by decide) (by decide)
    have er : sr = 255 :=
      (Option.some.inj (h0 : byteAt [255, 7, 128, 7, 0, 7] 0 = some sr)).symm
    have eb : sb = 0 :=
      (Option.some.inj (h2 : byteAt [255, 7, 128, 7, 0, 7] 4 = some sb)).symm
    subst er eb
    exact ⟨e1, e2, e3, e4⟩

theorem blendFormula_full (background pen : Nat) : blendFormula 255 background pen = pen := by
  unfold blendFormula
  omega

theorem QRgb_eq_of_val (p q : QRgb) (hr : p.red.val = q.red.val)
    (hg : p.green.val = q.green.val) (hb : p.blue.val = q.blue.val) : p = q := by
  cases p
  cases q
  simp only [QRgb.mk.injEq]
  exact ⟨Fin.ext hr, Fin.ext hg, Fin.ext hb⟩

theorem byteAt_mem (buffer : List Byte) (i : Int) (v : Byte) (h : byteAt buffer i = some v) :
    v ∈ buffer := by
  unfold byteAt at h
  split at h
  · exact absurd h (by simp)
  · exact List.getElem?_mem h

theorem full_coverage_generic (getValue : Int → Int → Int → Option Byte)
    (g : AbstractSubPixelGlyph) (canvas : QImage) (x y : Int) (pen : QColor)
    (hread : ∀ j i, j < g.height → i < g.width → ∀ k : Int, 0 ≤ k → k ≤ 2 →
      getValue j i k = some (sampleOf getValue j i k))
    (hfull : ∀ j i, j < g.height → i < g.width → ∀ k : Int, 0 ≤ k → k ≤ 2 →
      sampleOf getValue j i k = 255) :
    ∃ canvas2, AbstractSubPixelGlyph.paint getValue g canvas x y pen = some canvas2 ∧
      ∀ row col : Nat, row < g.height → col < g.width → canvas.valid (col + x) (row + y) →
        canvas2.pixels (col + x) (row + y) = pen := by
  obtain ⟨c2, hrun, _, _, _, hin⟩ := subpixel_paint_channels getValue g canvas x y pen hread
  refine ⟨c2, hrun, ?_⟩
  intro row col hrow hcol hvalid
  obtain ⟨hr, hg, hb⟩ := hin row col hrow hcol hvalid
  rw [hfull row col hrow hcol 0 (by decide) (by decide),
    hfull row col hrow hcol 2 (by decide) (by decide), ite_self] at hr hb
  rw [hfull row col hrow hcol 1 (by decide) (by decide)] at hg
  exact QRgb_eq_of_val _ _ (hr.trans (blendFormula_full _ _)) (hg.trans (blendFormula_full _ _))
    (hb.trans (blendFormula_full _ _))

/-- C8: for a sub-pixel bitmap (SubpixelH or SubpixelV, readable as in C5 and C6) whose
samples are all 255, paint runs to completion and sets every canvas pixel of the glyph
box to exactly the pen colour, with `reverse = false` as with `reverse = true`. -/
theorem fully_covered_subpixel_is_pen (b : ByteDataGlyph) (reversed : Bool) (canvas : QImage)
    (x y : Int) (pen : QColor) (hfull : ∀ v ∈ b.bytemap, v = 255) :
    (0 < b.pitch → 3 * (b.width : Int) ≤ b.pitch →
      (b.height : Int) * b.pitch ≤ b.bytemap.length →
      ∃ canvas2, SubPixelGlyph.paint ⟨b, reversed⟩ canvas x y pen = some canvas2 ∧
        ∀ row col : Nat, row < b.height → col < b.width → canvas.valid (col + x) (row + y) →
          canvas2.pixels (col + x) (row + y) = pen) ∧
    (0 < b.pitch → (b.width : Int) ≤ b.pitch →
      3 * (b.height : Int) * b.pitch ≤ b.bytemap.length →
      ∃ canvas2, VerticalSubPixelGlyph.paint ⟨b, reversed⟩ canvas x y pen = some canvas2 ∧
        ∀ row col : Nat, row < b.height → col < b.width → canvas.valid (col + x) (row + y) →
          canvas2.pixels (col + x) (row + y) = pen) := by
  constructor
  · intro hpitch hwidth hlen
    have hread := subPixel_read ⟨b, reversed⟩ hpitch hwidth hlen
    exact full_coverage_generic (SubPixelGlyph.getValue ⟨b, reversed⟩) ⟨b, reversed⟩ canvas x y
      pen hread (fun j i hj hi k hk0 hk2 =>
        hfull _ (byteAt_mem b.bytemap _ _ (hread j i hj hi k hk0 hk2)))
  · intro hpitch hwidth hlen
    have hread := verticalSubPixel_read ⟨b, reversed⟩ hpitch hwidth hlen
    exact full_coverage_generic (VerticalSubPixelGlyph.getValue ⟨b, reversed⟩) ⟨b, reversed⟩
      canvas x y pen hread (fun j i hj hi k hk0 hk2 =>
        hfull _ (byteAt_mem b.bytemap _ _ (hread j i hj hi k hk0 hk2)))

/-- C8 on a fully covered one-pixel glyph painted with pen (10, 20, 30) on white, in
reversed order, for both layouts. -/
theorem fully_covered_subpixel_is_pen_witness :
    (∃ canvas2, SubPixelGlyph.paint ⟨⟨⟨3, 3, 1, 1⟩, [255, 255, 255]⟩, true⟩
        (QImage.filled 1 1 ⟨255, 255, 255⟩) 0 0 ⟨10, 20, 30⟩ = some canvas2 ∧
      canvas2.pixels 0 0 = ⟨10, 20, 30⟩) ∧
    (∃ canvas2, VerticalSubPixelGlyph.paint ⟨⟨⟨1, 1, 1, 1⟩, [255, 255, 255]⟩, true⟩
        (QImage.filled 1 1 ⟨255, 255, 255⟩) 0 0 ⟨10, 20, 30⟩ = some canvas2 ∧
      canvas2.pixels 0 0 = ⟨10, 20, 30⟩) := by
  constructor
  · obtain ⟨canvas2, hrun, hpix⟩ := (fully_covered_subpixel_is_pen
      ⟨⟨3, 3, 1, 1⟩, [255, 255, 255]⟩ true (QImage.filled 1 1 ⟨255, 255, 255⟩) 0 0
      ⟨10, 20, 30⟩ (by simp)).1 (by decide) (by decide) (by decide)
    exact ⟨canvas2, hrun, hpix 0 0 (by decide) (by decide) (by decide)⟩
  · obtain ⟨canvas2, hrun, hpix⟩ := (fully_covered_subpixel_is_pen
      ⟨⟨1, 1, 1, 1⟩, [255, 255, 255]⟩ true (QImage.filled 1 1 ⟨255, 255, 255⟩) 0 0
      ⟨10, 20, 30⟩ (by simp)).2 (by decide) (by decide) (by decide)
    exact ⟨canvas2, hrun, hpix 0 0 (by decide) (by decide) (by decide)⟩

/-! ## The frame of a paint -/

theorem forLoop_preserves {σ : Type} (P : σ → Prop) (n : Nat) (body : Nat → σ → Option σ)
    (hbody : ∀ i, i < n → ∀ s s2, P s → body i s = some s2 → P s2) :
    ∀ s s2, P s → forLoop n body s = some s2 → P s2 := by
  induction n with
  | zero =>
    intro s s2 hs hrun
    have h : s = s2 := Option.some.inj hrun
    exact h ▸ hs
  | succ k ih =>
    intro s s2 hs hrun
    obtain ⟨s1, h1, h2⟩ := Option.bind_eq_some.mp hrun
    exact hbody k (by omega) s1 s2 (ih (fun i hi => hbody i (by omega)) s s1 hs h1) h2

theorem unchangedOutside_setPixel (x y : Int) (w h : Nat) (c0 c : QImage) (p q : Int)
    (v : QRgb) (hp : x ≤ p ∧ p < x + w) (hq : y ≤ q ∧ q < y + h)
    (hc : UnchangedOutside x y w h c0 c) : UnchangedOutside x y w h c0 (c.setPixel p q v) := by
  obtain ⟨hw, hh, hout⟩ := hc
  unfold QImage.setPixel
  split
  · refine ⟨hw, hh, ?_⟩
    intro a b hab
    have hne : ¬(a = p ∧ b = q) := by
      intro hpq
      apply hab
      omega
    show (if a = p ∧ b = q then v else c.pixels a b) = c0.pixels a b
    rw [if_neg hne]
    exact hout a b hab
  · exact ⟨hw, hh, hout⟩

theorem paint_loops_frame (body : Nat → Nat → QImage → Option QImage) (x y : Int)
    (w h : Nat)
    (hbody : ∀ j i c c2, body j i c = some c2 →
      c2 = c ∨ ∃ v, c2 = c.setPixel (i + x) (j + y) v)
    (c c2 : QImage)
    (hrun : forLoop h (fun j c => forLoop w (fun i c => body j i c) c) c = some c2) :
    UnchangedOutside x y w h c c2 := by
  refine forLoop_preserves (UnchangedOutside x y w h c) h _ ?_ c c2
    ⟨rfl, rfl, fun _ _ _ => rfl⟩ hrun
  intro j hj s s2 hs hrow
  refine forLoop_preserves (UnchangedOutside x y w h c) w _ ?_ s s2 hs hrow
  intro i hi t t2 ht hstep
  rcases hbody j i t t2 hstep with h1 | ⟨v, h1⟩
  · rw [h1]
    exact ht
  · rw [h1]
    exact unchangedOutside_setPixel x y w h c t _ _ v (by omega) (by omega) ht

theorem mono_paintPixel_cases (g : MonochromeGlyph) (x y : Int) (pen : QColor)
    (gy gx : Nat) (c c2 : QImage) (h : g.paintPixel x y pen gy gx c = some c2) :
    c2 = c ∨ ∃ v, c2 = c.setPixel (gx + x) (gy + y) v := by
  unfold MonochromeGlyph.paintPixel at h
  obtain ⟨bit, _, hbit⟩ := Option.map_eq_some'.mp h
  by_cases hb : bit ≠ 0
  · rw [if_pos hb] at hbit
    exact Or.inr ⟨_, hbit.symm⟩
  · rw [if_neg hb] at hbit
    exact Or.inl hbit.symm

theorem gray_paintPixel_cases (g : ByteDataGlyph) (x y : Int) (pen : QColor)
    (j i : Nat) (c c2 : QImage) (h : GrayScaleGlyph.paintPixel g x y pen j i c = some c2) :
    c2 = c ∨ ∃ v, c2 = c.setPixel (i + x) (j + y) v := by
  unfold GrayScaleGlyph.paintPixel at h
  obtain ⟨byte, _, hbyte⟩ := Option.map_eq_some'.mp h
  exact Or.inr ⟨_, hbyte.symm⟩

theorem subpixel_paintPixel_cases (getValue : Int → Int → Int → Option Byte)
    (g : AbstractSubPixelGlyph) (x y : Int) (pen : QColor) (j i : Nat) (c c2 : QImage)
    (h : AbstractSubPixelGlyph.paintPixel getValue g x y pen j i c = some c2) :
    c2 = c ∨ ∃ v, c2 = c.setPixel (i + x) (j + y) v := by
  unfold AbstractSubPixelGlyph.paintPixel at h
  obtain ⟨vr, _, h1⟩ := Option.bind_eq_some.mp h
  obtain ⟨vg, _, h2⟩ := Option.bind_eq_some.mp h1
  obtain ⟨vb, _, h3⟩ := Option.map_eq_some'.mp h2
  exact Or.inr ⟨_, h3.symm⟩

theorem forLoop_empty_rows {σ : Type} (h : Nat) (body : Nat → Nat → σ → Option σ) (s : σ) :
    forLoop h (fun j s => forLoop 0 (fun i s => body j i s) s) s = some s := by
  induction h with
  | zero => rfl
  | succ k ih =>
    show (forLoop k (fun j s => forLoop 0 (fun i s => body j i s) s) s).bind _ = some s
    rw [ih]
    rfl

theorem paint_loops_empty {σ : Type} (w h : Nat) (body : Nat → Nat → σ → Option σ) (s : σ)
    (hzero : w = 0 ∨ h = 0) :
    forLoop h (fun j s => forLoop w (fun i s => body j i s) s) s = some s := by
  rcases hzero with hw | hh
  · subst hw
    exact forLoop_empty_rows h body s
  · subst hh
    rfl

/-- C9: for each bitmap variant (Mono `m`, Gray `g`, SubpixelH and SubpixelV `s`), every
canvas, origin and pen: whenever paint completes, the canvas keeps its size and every
pixel outside the box `[x, x+width) x [y, y+height)` keeps its colour; paint does complete
on a readable bitmap; and a bitmap with width 0 or height 0 returns the canvas itself. -/
theorem paint_unchanged_outside_box (m : MonochromeGlyph) (g : ByteDataGlyph)
    (s : AbstractSubPixelGlyph) (canvas : QImage) (x y : Int) (pen : QColor) :
    ((∀ canvas2, m.paint canvas x y pen = some canvas2 →
        UnchangedOutside x y m.width m.height canvas canvas2) ∧
      (m.width ≤ 8 * m.pitch.natAbs → m.height * m.pitch.natAbs ≤ m.bitmap.length →
        ∃ canvas2, m.paint canvas x y pen = some canvas2
          ∧ UnchangedOutside x y m.width m.height canvas canvas2) ∧
      (m.width = 0 ∨ m.height = 0 → m.paint canvas x y pen = some canvas)) ∧
    ((∀ canvas2, GrayScaleGlyph.paint g canvas x y pen = some canvas2 →
        UnchangedOutside x y g.width g.height canvas canvas2) ∧
      (0 < g.pitch → (g.width : Int) ≤ g.pitch →
        (g.height : Int) * g.pitch ≤ g.bytemap.length →
        ∃ canvas2, GrayScaleGlyph.paint g canvas x y pen = some canvas2
          ∧ UnchangedOutside x y g.width g.height canvas canvas2) ∧
      (g.width = 0 ∨ g.height = 0 → GrayScaleGlyph.paint g canvas x y pen = some canvas)) ∧
    ((∀ canvas2, SubPixelGlyph.paint s canvas x y pen = some canvas2 →
        UnchangedOutside x y s.width s.height canvas canvas2) ∧
      (0 < s.pitch → 3 * (s.width : Int) ≤ s.pitch →
        (s.height : Int) * s.pitch ≤ s.bytemap.length →
        ∃ canvas2, SubPixelGlyph.paint s canvas x y pen = some canvas2
          ∧ UnchangedOutside x y s.width s.height canvas canvas2) ∧
      (s.width = 0 ∨ s.height = 0 → SubPixelGlyph.paint s canvas x y pen = some canvas)) ∧
    ((∀ canvas2, VerticalSubPixelGlyph.paint s canvas x y pen = some canvas2 →
        UnchangedOutside x y s.width s.height canvas canvas2) ∧
      (0 < s.pitch → (s.width : Int) ≤ s.pitch →
        3 * (s.height : Int) * s.pitch ≤ s.bytemap.length →
        ∃ canvas2, VerticalSubPixelGlyph.paint s canvas x y pen = some canvas2
          ∧ UnchangedOutside x y s.width s.height canvas canvas2) ∧
      (s.width = 0 ∨ s.height = 0 →
        VerticalSubPixelGlyph.paint s canvas x y pen = some canvas)) := by
  have hm : ∀ canvas2, m.paint canvas x y pen = some canvas2 →
      UnchangedOutside x y m.width m.height canvas canvas2 :=
    fun canvas2 hrun => paint_loops_frame (m.paintPixel x y pen) x y m.width m.height
      (mono_paintPixel_cases m x y pen) canvas canvas2 hrun
  have hg : ∀ canvas2, GrayScaleGlyph.paint g canvas x y pen = some canvas2 →
      UnchangedOutside x y g.width g.height canvas canvas2 :=
    fun canvas2 hrun => paint_loops_frame (GrayScaleGlyph.paintPixel g x y pen) x y g.width
      g.height (gray_paintPixel_cases g x y pen) canvas canvas2 hrun
  have hs : ∀ getValue canvas2,
      AbstractSubPixelGlyph.paint getValue s canvas x y pen = some canvas2 →
      UnchangedOutside x y s.width s.height canvas canvas2 :=
    fun getValue canvas2 hrun =>
      paint_loops_frame (AbstractSubPixelGlyph.paintPixel getValue s x y pen) x y s.width
        s.height (subpixel_paintPixel_cases getValue s x y pen) canvas canvas2 hrun
  refine ⟨⟨hm, ?_, ?_⟩, ⟨hg, ?_, ?_⟩, ⟨hs _, ?_, ?_⟩, ⟨hs _, ?_, ?_⟩⟩
  · intro hwidth hlen
    obtain ⟨c2, hrun, _⟩ := mono_paint_boxStep m canvas x y pen
      (fun gy gx hy hx => mono_read m hwidth hlen gx gy hx hy)
    exact ⟨c2, hrun, hm c2 hrun⟩
  · exact paint_loops_empty m.width m.height (m.paintPixel x y pen) canvas
  · intro hpitch hwidth hlen
    obtain ⟨c2, hrun, _⟩ := gray_paint_boxStep g canvas x y pen
      (fun j i hj hi => gray_read g hpitch hwidth hlen j i hj hi)
    exact ⟨c2, hrun, hg c2 hrun⟩
  · exact paint_loops_empty g.width g.height (GrayScaleGlyph.paintPixel g x y pen) canvas
  · intro hpitch hwidth hlen
    obtain ⟨c2, hrun, _⟩ := subpixel_paint_boxStep (SubPixelGlyph.getValue s) s canvas x y pen
      (subPixel_read s hpitch hwidth hlen)
    exact ⟨c2, hrun, hs _ c2 hrun⟩
  · exact paint_loops_empty s.width s.height
      (AbstractSubPixelGlyph.paintPixel (SubPixelGlyph.getValue s) s x y pen) canvas
  · intro hpitch hwidth hlen
    obtain ⟨c2, hrun, _⟩ := subpixel_paint_boxStep (VerticalSubPixelGlyph.getValue s) s canvas
      x y pen (verticalSubPixel_read s hpitch hwidth hlen)
    exact ⟨c2, hrun, hs _ c2 hrun⟩
  · exact paint_loops_empty s.width s.height
      (AbstractSubPixelGlyph.paintPixel (VerticalSubPixelGlyph.getValue s) s x y pen) canvas

/-- C9 on a 4x1 white canvas: a Gray glyph of one fully covered pixel painted in black at
origin (1, 0) leaves the pixels at columns 0 and 2 white, and a Mono glyph of width 0
returns the canvas itself. -/
theorem paint_unchanged_outside_box_witness :
    (∃ canvas2, GrayScaleGlyph.paint ⟨⟨1, 1, 1, 1⟩, [255]⟩
        (QImage.filled 4 1 ⟨255, 255, 255⟩) 1 0 ⟨0, 0, 0⟩ = some canvas2 ∧
      canvas2.pixels 0 0 = ⟨255, 255, 255⟩ ∧ canvas2.pixels 2 0 = ⟨255, 255, 255⟩) ∧
    MonochromeGlyph.paint ⟨⟨0, 0, 0, 3⟩, []⟩ (QImage.filled 4 1 ⟨255, 255, 255⟩) 1 0 ⟨0, 0, 0⟩
      = some (QImage.filled 4 1 ⟨255, 255, 255⟩) := by
  have h := paint_unchanged_outside_box ⟨⟨0, 0, 0, 3⟩, []⟩ ⟨⟨1, 1, 1, 1⟩, [255]⟩
    ⟨⟨⟨3, 3, 1, 1⟩, [255, 255, 255]⟩, false⟩ (QImage.filled 4 1 ⟨255, 255, 255⟩) 1 0 ⟨0, 0, 0⟩
  constructor
  · obtain ⟨canvas2, hrun, _, _, hout⟩ := h.2.1.2.1 (by decide) (by decide) (by decide)
    exact ⟨canvas2, hrun, hout 0 0 (by decide), hout 2 0 (by decide)⟩
  · exact h.1.2.2 (Or.inl rfl)

/-! ## Negative row stride -/

/-- C10, evaluated on the code: `MonochromeGlyph::pixelAt` reads the same byte for stride
`-s` as for stride `s`, but the byte-data glyphs use the signed pitch.  For the Gray bitmap
of 2x2 pixels with buffer 10, 20, 30, 40, constructed with pitch 2, pixel (row 1, col 0) is
read at index 2 and paint completes; constructed with pitch -2 it is read at index -2,
outside the buffer, and paint has no result.  The indices of `SubPixelGlyph::getValue` and
`VerticalSubPixelGlyph::getValue` change sign in the same way. -/
theorem negative_stride_changes_byte_indices :
    (∀ (s : Int) (x y : Nat) (buffer : List Byte),
      MonochromeGlyph.pixelAt x y (-s) buffer = MonochromeGlyph.pixelAt x y s buffer) ∧
    ((GrayScaleGlyph.ctor ⟨2, 2, 2, [10, 20, 30, 40], FT_Pixel_Mode.GRAY⟩).map
        (fun g => GrayScaleGlyph.index g 1 0) = some 2 ∧
      (GrayScaleGlyph.ctor ⟨2, 2, -2, [10, 20, 30, 40], FT_Pixel_Mode.GRAY⟩).map
        (fun g => GrayScaleGlyph.index g 1 0) = some (-2)) ∧
    (((GrayScaleGlyph.ctor ⟨2, 2, 2, [10, 20, 30, 40], FT_Pixel_Mode.GRAY⟩).bind
        (fun g => GrayScaleGlyph.paint g (QImage.filled 2 2 ⟨255, 255, 255⟩) 0 0
          ⟨0, 0, 0⟩)).isSome = true ∧
      ((GrayScaleGlyph.ctor ⟨2, 2, -2, [10, 20, 30, 40], FT_Pixel_Mode.GRAY⟩).bind
        (fun g => GrayScaleGlyph.paint g (QImage.filled 2 2 ⟨255, 255, 255⟩) 0 0
          ⟨0, 0, 0⟩)).isSome = false) ∧
    ((SubPixelGlyph.ctor ⟨2, 6, 6, List.replicate 36 255, FT_Pixel_Mode.LCD⟩ false).map
        (fun g => SubPixelGlyph.index g 1 0 0) = some 6 ∧
      (SubPixelGlyph.ctor ⟨2, 6, -6, List.replicate 36 255, FT_Pixel_Mode.LCD⟩ false).map
        (fun g => SubPixelGlyph.index g 1 0 0) = some (-6)) ∧
    ((VerticalSubPixelGlyph.ctor ⟨6, 2, 2, List.replicate 12 255, FT_Pixel_Mode.LCD_V⟩
        false).map (fun g => VerticalSubPixelGlyph.index g 1 0 0) = some 6 ∧
      (VerticalSubPixelGlyph.ctor ⟨6, 2, -2, List.replicate 12 255, FT_Pixel_Mode.LCD_V⟩
        false).map (fun g => VerticalSubPixelGlyph.index g 1 0 0) = some (-6)) := by
  refine ⟨?_, ⟨by decide, by decide⟩, ⟨by decide, by decide⟩, ⟨by decide, by decide⟩,
    ⟨by decide, by decide⟩⟩
  intro s x y buffer
  unfold MonochromeGlyph.pixelAt
  rw [Int.natAbs_neg]

/-! ## FreeType parameters -/

/-- C11: with antialiasing Disabled, for every hinting, hint style, sub-pixel order and
dpi, the render mode is `FT_RENDER_MODE_MONO` and the load flags are exactly
`FT_LOAD_MONOCHROME | FT_LOAD_NO_HINTING` when hinting is Disabled or the hint style is
None, and exactly `FT_LOAD_MONOCHROME | FT_LOAD_TARGET_MONO` otherwise. -/
theorem FreeTypeParameters_antialiasing_disabled (hinting : KXftConfig.Hinting)
    (hint : KXftConfig.Hint) (subpixel : KXftConfig.SubPixel) (dpiH dpiV : Nat) :
    (FreeTypeParameters.ctor
        ⟨KXftConfig.AntiAliasing.Disabled, hinting, hint, subpixel, dpiH, dpiV⟩).renderMode
      = FT_Render_Mode.MONO ∧
    (FreeTypeParameters.ctor
        ⟨KXftConfig.AntiAliasing.Disabled, hinting, hint, subpixel, dpiH, dpiV⟩).loadFlags
      = (if hinting = KXftConfig.Hinting.Disabled ∨ hint = KXftConfig.Hint.None then
          FT_LOAD_MONOCHROME ||| FT_LOAD_NO_HINTING
        else FT_LOAD_MONOCHROME ||| FT_LOAD_TARGET_MONO) := by
  cases hinting <;> cases hint <;> exact ⟨rfl, rfl⟩

/-- C12: with antialiasing Enabled the load flags are `FT_LOAD_NO_BITMAP` joined with one
hinting target chosen by the hint style: None or NotSet give `FT_LOAD_NO_HINTING`, Slight
or Medium `FT_LOAD_TARGET_LIGHT`, Full gives `FT_LOAD_TARGET_NORMAL` for sub-pixel order
None or NotSet, `FT_LOAD_TARGET_LCD` for Rgb or Bgr and `FT_LOAD_TARGET_LCD_V` for Vrgb or
Vbgr; the `FT_LOAD_NO_BITMAP` bit is always set and the `FT_LOAD_MONOCHROME` bit never. -/
theorem FreeTypeParameters_antialiasing_enabled_loadFlags (hinting : KXftConfig.Hinting)
    (hint : KXftConfig.Hint) (subpixel : KXftConfig.SubPixel) (dpiH dpiV : Nat) :
    (FreeTypeParameters.ctor
        ⟨KXftConfig.AntiAliasing.Enabled, hinting, hint, subpixel, dpiH, dpiV⟩).loadFlags
      = (match hint with
        | KXftConfig.Hint.NotSet => FT_LOAD_NO_BITMAP ||| FT_LOAD_NO_HINTING
        | KXftConfig.Hint.None => FT_LOAD_NO_BITMAP ||| FT_LOAD_NO_HINTING
        | KXftConfig.Hint.Slight => FT_LOAD_NO_BITMAP ||| FT_LOAD_TARGET_LIGHT
        | KXftConfig.Hint.Medium => FT_LOAD_NO_BITMAP ||| FT_LOAD_TARGET_LIGHT
        | KXftConfig.Hint.Full =>
          match subpixel with
          | KXftConfig.SubPixel.NotSet => FT_LOAD_NO_BITMAP ||| FT_LOAD_TARGET_NORMAL
          | KXftConfig.SubPixel.None => FT_LOAD_NO_BITMAP ||| FT_LOAD_TARGET_NORMAL
          | KXftConfig.SubPixel.Rgb => FT_LOAD_NO_BITMAP ||| FT_LOAD_TARGET_LCD
          | KXftConfig.SubPixel.Bgr => FT_LOAD_NO_BITMAP ||| FT_LOAD_TARGET_LCD
          | KXftConfig.SubPixel.Vrgb => FT_LOAD_NO_BITMAP ||| FT_LOAD_TARGET_LCD_V
          | KXftConfig.SubPixel.Vbgr => FT_LOAD_NO_BITMAP ||| FT_LOAD_TARGET_LCD_V) ∧
    (FreeTypeParameters.ctor
        ⟨KXftConfig.AntiAliasing.Enabled, hinting, hint, subpixel, dpiH, dpiV⟩).loadFlags
      &&& FT_LOAD_NO_BITMAP = FT_LOAD_NO_BITMAP ∧
    (FreeTypeParameters.ctor
        ⟨KXftConfig.AntiAliasing.Enabled, hinting, hint, subpixel, dpiH, dpiV⟩).loadFlags
      &&& FT_LOAD_MONOCHROME = 0 := by
  have hflags : (FreeTypeParameters.ctor
        ⟨KXftConfig.AntiAliasing.Enabled, hinting, hint, subpixel, dpiH, dpiV⟩).loadFlags
      = (match hint with
        | KXftConfig.Hint.NotSet => FT_LOAD_NO_BITMAP ||| FT_LOAD_NO_HINTING
        | KXftConfig.Hint.None => FT_LOAD_NO_BITMAP ||| FT_LOAD_NO_HINTING
        | KXftConfig.Hint.Slight => FT_LOAD_NO_BITMAP ||| FT_LOAD_TARGET_LIGHT
        | KXftConfig.Hint.Medium => FT_LOAD_NO_BITMAP ||| FT_LOAD_TARGET_LIGHT
        | KXftConfig.Hint.Full =>
          match subpixel with
          | KXftConfig.SubPixel.NotSet => FT_LOAD_NO_BITMAP ||| FT_LOAD_TARGET_NORMAL
          | KXftConfig.SubPixel.None => FT_LOAD_NO_BITMAP ||| FT_LOAD_TARGET_NORMAL
          | KXftConfig.SubPixel.Rgb => FT_LOAD_NO_BITMAP ||| FT_LOAD_TARGET_LCD
          | KXftConfig.SubPixel.Bgr => FT_LOAD_NO_BITMAP ||| FT_LOAD_TARGET_LCD
          | KXftConfig.SubPixel.Vrgb => FT_LOAD_NO_BITMAP ||| FT_LOAD_TARGET_LCD_V
          | KXftConfig.SubPixel.Vbgr => FT_LOAD_NO_BITMAP ||| FT_LOAD_TARGET_LCD_V) := by
    cases hint <;> cases subpixel <;> rfl
  refine ⟨hflags, ?_, ?_⟩
  · rw [hflags]
    cases hint <;> cases subpixel <;> decide
  · rw [hflags]
    cases hint <;> cases subpixel <;> decide

/-- C13: with antialiasing Enabled the render mode depends only on the sub-pixel order,
for every hinting and hint style: Rgb or Bgr give `FT_RENDER_MODE_LCD`, Vrgb or Vbgr
`FT_RENDER_MODE_LCD_V`, None or NotSet `FT_RENDER_MODE_NORMAL`. -/
theorem FreeTypeParameters_antialiasing_enabled_renderMode (hinting : KXftConfig.Hinting)
    (hint : KXftConfig.Hint) (subpixel : KXftConfig.SubPixel) (dpiH dpiV : Nat) :
    (FreeTypeParameters.ctor
        ⟨KXftConfig.AntiAliasing.Enabled, hinting, hint, subpixel, dpiH, dpiV⟩).renderMode
      = (match subpixel with
        | KXftConfig.SubPixel.Rgb => FT_Render_Mode.LCD
        | KXftConfig.SubPixel.Bgr => FT_Render_Mode.LCD
        | KXftConfig.SubPixel.Vrgb => FT_Render_Mode.LCD_V
        | KXftConfig.SubPixel.Vbgr => FT_Render_Mode.LCD_V
        | KXftConfig.SubPixel.None => FT_Render_Mode.NORMAL
        | KXftConfig.SubPixel.NotSet => FT_Render_Mode.NORMAL) := by
  cases hint <;> cases subpixel <;> rfl

/-! ## Rounding to `float` -/

theorem rint_intCast (n : Int) : rint (n : ℚ) = n := by
  unfold rint
  simp only [Int.floor_intCast, sub_self]
  rw [if_pos (by norm_num)]

theorem roundToFloat_zero : roundToFloat 0 = 0 := by
  unfold roundToFloat
  rw [if_pos rfl]

theorem roundToFloat_of_exponent (v : ℚ) (e : Int) (h1 : (2 : ℚ) ^ e ≤ |v|)
    (h2 : |v| < (2 : ℚ) ^ (e + 1)) :
    roundToFloat v = (rint (v / (2 : ℚ) ^ (e - 23)) : ℚ) * (2 : ℚ) ^ (e - 23) := by
  have hpos : 0 < |v| := lt_of_lt_of_le (zpow_pos (by norm_num) e) h1
  have hv : v ≠ 0 := abs_pos.mp hpos
  have hlog : Int.log 2 |v| = e := by
    have ha : e ≤ Int.log 2 |v| :=
      (Int.zpow_le_iff_le_log (by norm_num) hpos).mp (by exact_mod_cast h1)
    have hb : Int.log 2 |v| < e + 1 :=
      (Int.lt_zpow_iff_log_lt (by norm_num) hpos).mp (by exact_mod_cast h2)
    omega
  unfold roundToFloat
  rw [if_neg hv]
  simp only [hlog]

theorem roundToFloat_eq_self (v : ℚ) (k t : Int) (hv : v = (k : ℚ) * (2 : ℚ) ^ t)
    (hk : |k| < 2 ^ 24) : roundToFloat v = v := by
  by_cases h0 : v = 0
  · rw [h0]
    exact roundToFloat_zero
  have hpos : 0 < |v| := abs_pos.mpr h0
  have h1 := Int.zpow_log_le_self (b := 2) (r := |v|) (by norm_num) hpos
  have h2 := Int.lt_zpow_succ_log_self (b := 2) (by norm_num) |v|
  have h1q : (2 : ℚ) ^ Int.log 2 |v| ≤ |v| := by exact_mod_cast h1
  have h2q : |v| < (2 : ℚ) ^ (Int.log 2 |v| + 1) := by exact_mod_cast h2
  rw [roundToFloat_of_exponent v (Int.log 2 |v|) h1q h2q]
  generalize Int.log 2 |v| = e at h1q h2q
  have hkq : |(k : ℚ)| < (2 : ℚ) ^ (24 : Int) := by
    have h : ((|k| : Int) : ℚ) < ((2 ^ 24 : Int) : ℚ) := Int.cast_lt.mpr hk
    rw [Int.cast_abs] at h
    norm_num at h ⊢
    exact h
  have habs : |v| = |(k : ℚ)| * (2 : ℚ) ^ t := by
    rw [hv, abs_mul, abs_of_pos (zpow_pos (by norm_num : (0 : ℚ) < 2) t)]
  have hlt : (2 : ℚ) ^ e < (2 : ℚ) ^ (24 + t) := by
    calc (2 : ℚ) ^ e ≤ |v| := h1q
      _ = |(k : ℚ)| * (2 : ℚ) ^ t := habs
      _ < (2 : ℚ) ^ (24 : Int) * (2 : ℚ) ^ t :=
          mul_lt_mul_of_pos_right hkq (zpow_pos (by norm_num) t)
      _ = (2 : ℚ) ^ (24 + t) := by rw [← zpow_add₀ (by norm_num : (2 : ℚ) ≠ 0)]
  have he : e < 24 + t := (zpow_lt_zpow_iff_right₀ (by norm_num : (1 : ℚ) < 2)).mp hlt
  obtain ⟨d, hd⟩ : ∃ d : Nat, t = (e - 23) + (d : Int) := ⟨(t - (e - 23)).toNat, by omega⟩
  have hdiv : v / (2 : ℚ) ^ (e - 23) = ((k * 2 ^ d : Int) : ℚ) := by
    rw [hv, hd, zpow_add₀ (by norm_num : (2 : ℚ) ≠ 0), zpow_natCast]
    push_cast
    field_simp
    ring
  rw [hdiv, rint_intCast, hv, hd, zpow_add₀ (by norm_num : (2 : ℚ) ≠ 0), zpow_natCast]
  push_cast
  ring

theorem roundToFloat_intCast (n : Int) (h : |n| < 2 ^ 24) : roundToFloat (n : ℚ) = n :=
  roundToFloat_eq_self _ n 0 (by simp) h

theorem roundToFloat_div64 (v : ℚ) (k : Int) (hv : v = (k : ℚ) / 64) (hb : |v| < 2 ^ 18) :
    roundToFloat v = v := by
  apply roundToFloat_eq_self v k (-6)
  · rw [hv]
    norm_num
    ring
  · have h : |(k : ℚ)| < 2 ^ 24 := by
      have habs : |v| = |(k : ℚ)| / 64 := by rw [hv, abs_div]; norm_num
      rw [habs] at hb
      linarith
    have h2 : ((|k| : Int) : ℚ) < ((2 ^ 24 : Int) : ℚ) := by
      rw [Int.cast_abs]
      norm_num
      exact h
    exact Int.cast_lt.mp h2

theorem roundToFloat_intCast_isInt (n : Int) :
    ∃ m : Int, roundToFloat (n : ℚ) = (m : ℚ) := by
  by_cases h0 : (n : ℚ) = 0
  · rw [h0]
    exact ⟨0, by rw [roundToFloat_zero]; norm_num⟩
  have hpos : 0 < |(n : ℚ)| := abs_pos.mpr h0
  have h1 := Int.zpow_log_le_self (b := 2) (r := |(n : ℚ)|) (by norm_num) hpos
  have h2 := Int.lt_zpow_succ_log_self (b := 2) (by norm_num) |(n : ℚ)|
  have h1q : (2 : ℚ) ^ Int.log 2 |(n : ℚ)| ≤ |(n : ℚ)| := by exact_mod_cast h1
  have h2q : |(n : ℚ)| < (2 : ℚ) ^ (Int.log 2 |(n : ℚ)| + 1) := by exact_mod_cast h2
  rw [roundToFloat_of_exponent _ (Int.log 2 |(n : ℚ)|) h1q h2q]
  generalize Int.log 2 |(n : ℚ)| = e
  by_cases he : 23 ≤ e
  · obtain ⟨d, hd⟩ : ∃ d : Nat, e - 23 = (d : Int) := ⟨(e - 23).toNat, by omega⟩
    refine ⟨rint ((n : ℚ) / (2 : ℚ) ^ (e - 23)) * 2 ^ d, ?_⟩
    rw [hd, zpow_natCast]
    push_cast
    rfl
  · obtain ⟨d, hd⟩ : ∃ d : Nat, e - 23 = -(d : Int) := ⟨(23 - e).toNat, by omega⟩
    have hdiv : (n : ℚ) / (2 : ℚ) ^ (e - 23) = ((n * 2 ^ d : Int) : ℚ) := by
      rw [hd, zpow_neg, zpow_natCast]
      push_cast
      field_simp
    refine ⟨n, ?_⟩
    rw [hdiv, rint_intCast, hd, zpow_neg, zpow_natCast]
    push_cast
    field_simp

theorem sum_div64 (values : List ℚ) (h : ∀ v ∈ values, ∃ k : Int, v = (k : ℚ) / 64) :
    ∃ k : Int, values.sum = (k : ℚ) / 64 := by
  induction values with
  | nil => exact ⟨0, by simp⟩
  | cons a rest ih =>
    obtain ⟨k1, hk1⟩ := h a (List.mem_cons_self a rest)
    obtain ⟨k2, hk2⟩ := ih (fun v hv => h v (List.mem_cons_of_mem a hv))
    refine ⟨k1 + k2, ?_⟩
    rw [List.sum_cons, hk1, hk2]
    push_cast
    ring

theorem floatSum_exact (values : List ℚ) :
    ∀ start : ℚ, (∃ k : Int, start = (k : ℚ) / 64) →
      (∀ v ∈ values, ∃ k : Int, v = (k : ℚ) / 64) →
      (∀ i, i ≤ values.length → |start + (values.take i).sum| < 2 ^ 18) →
      floatSum start values = start + values.sum := by
  induction values with
  | nil =>
    intro start _ _ _
    simp [floatSum]
  | cons a rest ih =>
    intro start hstart h64 hbound
    obtain ⟨k0, hk0⟩ := hstart
    obtain ⟨k1, hk1⟩ := h64 a (List.mem_cons_self a rest)
    have hb1 : |start + a| < 2 ^ 18 := by
      have h := hbound 1 (by simp)
      simpa using h
    have hstep : roundToFloat (start + a) = start + a :=
      roundToFloat_div64 _ (k0 + k1) (by rw [hk0, hk1]; push_cast; ring) hb1
    show floatSum (roundToFloat (start + a)) rest = _
    rw [hstep, ih (start + a) ⟨k0 + k1, by rw [hk0, hk1]; push_cast; ring⟩
      (fun v hv => h64 v (List.mem_cons_of_mem a hv)) ?_, List.sum_cons, add_assoc]
    intro i hi
    have h := hbound (i + 1) (by simpa using hi)
    rw [List.take_succ_cons, List.sum_cons, ← add_assoc] at h
    exact h

/-! ## Layout metrics of a glyph run -/

theorem maxWithZero_nonneg (values : List ℚ) : 0 ≤ maxWithZero values := by
  induction values with
  | nil => exact le_refl 0
  | cons v rest ih => exact le_trans ih (le_max_right v _)

theorem le_maxWithZero (values : List ℚ) (v : ℚ) (hv : v ∈ values) :
    v ≤ maxWithZero values := by
  induction values with
  | nil => exact absurd hv (List.not_mem_nil v)
  | cons w rest ih =>
    rcases List.mem_cons.mp hv with h | h
    · rw [h]
      exact le_max_left w _
    · exact le_trans (ih h) (le_max_right w _)

theorem maxWithZero_attained (values : List ℚ) :
    maxWithZero values = 0 ∨ maxWithZero values ∈ values := by
  induction values with
  | nil => exact Or.inl rfl
  | cons w rest ih =>
    show max w (maxWithZero rest) = 0 ∨ max w (maxWithZero rest) ∈ w :: rest
    rcases max_choice w (maxWithZero rest) with h | h
    · rw [h]
      exact Or.inr (List.mem_cons_self w rest)
    · rw [h]
      rcases ih with h0 | hmem
      · exact Or.inl h0
      · exact Or.inr (List.mem_cons_of_mem w hmem)

theorem maxOver_eq_maxWithZero (first : ℚ) (others : List ℚ)
    (h : 0 ≤ maxOver first others) : maxWithZero (first :: others) = maxOver first others := by
  induction others with
  | nil =>
    show max first 0 = first
    exact max_eq_left h
  | cons w rest ih =>
    have hstep : maxOver first (w :: rest) = max w (maxOver first rest) := rfl
    have hz : maxWithZero (first :: w :: rest) = max first (max w (maxWithZero rest)) := rfl
    have hz2 : maxWithZero (first :: rest) = max first (maxWithZero rest) := rfl
    rw [hstep] at h ⊢
    rw [hz, max_left_comm]
    by_cases hr : 0 ≤ maxOver first rest
    · rw [← hz2, ih hr]
    · have hneg : maxOver first rest < 0 := not_le.mp hr
      have hw : 0 ≤ w := by
        rcases le_max_iff.mp h with h1 | h1
        · exact h1
        · exact absurd h1 hr
      have hfirst : ∀ l : List ℚ, first ≤ maxOver first l := by
        intro l
        induction l with
        | nil => exact le_refl first
        | cons u t iht => exact le_trans iht (le_max_right u _)
      have hzr : ∀ l : List ℚ, maxOver first l < 0 → maxWithZero l = 0 := by
        intro l
        induction l with
        | nil => intro _; rfl
        | cons u t iht =>
          intro hlt
          have hu : u < 0 := lt_of_le_of_lt (le_max_left u _) hlt
          have ht : maxOver first t < 0 := lt_of_le_of_lt (le_max_right u _) hlt
          show max u (maxWithZero t) = 0
          rw [iht ht]
          exact max_eq_right (le_of_lt hu)
      have hf0 : first < 0 := lt_of_le_of_lt (hfirst rest) hneg
      rw [hzr rest hneg, max_eq_right (le_of_lt hf0), max_eq_left hw,
        max_eq_left (le_trans (le_of_lt hneg) hw)]

theorem measure_foldl_baseLineOffset (glyphs : List GlyphData) :
    ∀ m : FontShaping.Metrics, 0 ≤ m.baseLineOffset →
      (glyphs.foldl FontShaping.measure m).baseLineOffset
        = max m.baseLineOffset (maxWithZero
            ((glyphs.filter (fun g => decide (0 ≤ g.bearingTop))).map GlyphData.bearingTop)) := by
  induction glyphs with
  | nil =>
    intro m hm
    exact (max_eq_left hm).symm
  | cons g rest ih =>
    intro m hm
    by_cases ht : 0 ≤ g.bearingTop
    · have hstep : (FontShaping.measure m g).baseLineOffset = max m.baseLineOffset g.bearingTop := by
        show (if g.bearingTop ≥ 0 then
            (if g.bearingTop > m.baseLineOffset then g.bearingTop else m.baseLineOffset)
          else m.baseLineOffset) = _
        rw [if_pos ht]
        by_cases hgt : g.bearingTop > m.baseLineOffset
        · rw [if_pos hgt, max_eq_right (le_of_lt hgt)]
        · rw [if_neg hgt, max_eq_left (not_lt.mp hgt)]
      rw [List.foldl_cons, ih _ (by rw [hstep]; exact le_trans hm (le_max_left _ _)), hstep,
        List.filter_cons_of_pos (by simpa using ht), List.map_cons]
      exact max_assoc _ _ _
    · have hstep : (FontShaping.measure m g).baseLineOffset = m.baseLineOffset := by
        show (if g.bearingTop ≥ 0 then
            (if g.bearingTop > m.baseLineOffset then g.bearingTop else m.baseLineOffset)
          else m.baseLineOffset) = _
        rw [if_neg ht]
      rw [List.foldl_cons, ih _ (by rw [hstep]; exact hm), hstep,
        List.filter_cons_of_neg (by simpa using ht)]

theorem measure_foldl_bottomExtend (glyphs : List GlyphData) :
    ∀ m : FontShaping.Metrics, 0 ≤ m.bottomExtend →
      (glyphs.foldl FontShaping.measure m).bottomExtend
        = max m.bottomExtend (maxWithZero (glyphs.map bottomExtent)) := by
  induction glyphs with
  | nil =>
    intro m hm
    exact (max_eq_left hm).symm
  | cons g rest ih =>
    intro m hm
    have hstep : (FontShaping.measure m g).bottomExtend = max m.bottomExtend (bottomExtent g) := by
      show (if bottomExtent g > m.bottomExtend then bottomExtent g else m.bottomExtend) = _
      by_cases hgt : bottomExtent g > m.bottomExtend
      · rw [if_pos hgt, max_eq_right (le_of_lt hgt)]
      · rw [if_neg hgt, max_eq_left (not_lt.mp hgt)]
    rw [List.foldl_cons, ih _ (by rw [hstep]; exact le_trans hm (le_max_left _ _)), hstep,
      List.map_cons]
    exact max_assoc _ _ _

theorem measure_foldl_width (glyphs : List GlyphData) :
    ∀ m : FontShaping.Metrics,
      (glyphs.foldl FontShaping.measure m).width
        = floatSum m.width (glyphs.map GlyphData.advanceX) := by
  induction glyphs with
  | nil =>
    intro m
    rfl
  | cons g rest ih =>
    intro m
    rw [List.foldl_cons, ih]
    rfl

theorem ofGlyphs_baseLineOffset (glyphs : List GlyphData) :
    (FontShaping.ofGlyphs glyphs).baseLineOffset
      = maxWithZero
          ((glyphs.filter (fun g => decide (0 ≤ g.bearingTop))).map GlyphData.bearingTop) := by
  show (glyphs.foldl FontShaping.measure ⟨0, 0, 0⟩).baseLineOffset = _
  rw [measure_foldl_baseLineOffset glyphs ⟨0, 0, 0⟩ (le_refl 0)]
  exact max_eq_right (maxWithZero_nonneg _)

theorem ofGlyphs_height (glyphs : List GlyphData) :
    (FontShaping.ofGlyphs glyphs).boundingBox.height
      = (FontShaping.ofGlyphs glyphs).baseLineOffset + maxWithZero (glyphs.map bottomExtent) := by
  show (glyphs.foldl FontShaping.measure ⟨0, 0, 0⟩).baseLineOffset
      + (glyphs.foldl FontShaping.measure ⟨0, 0, 0⟩).bottomExtend
    = (glyphs.foldl FontShaping.measure ⟨0, 0, 0⟩).baseLineOffset + _
  rw [measure_foldl_bottomExtend glyphs ⟨0, 0, 0⟩ (le_refl 0)]
  show _ + max 0 _ = _
  rw [max_eq_right (maxWithZero_nonneg _)]

theorem ofGlyphs_width (glyphs : List GlyphData) :
    (FontShaping.ofGlyphs glyphs).boundingBox.width
      = (glyphs.getLast?.map (fun last =>
          roundToFloat (floatSum 0 (glyphs.map GlyphData.advanceX)
            + roundToFloat (last.getWidth : ℚ)))).getD 0 := by
  have h := measure_foldl_width glyphs ⟨0, 0, 0⟩
  unfold FontShaping.ofGlyphs
  cases hlast : glyphs.getLast? with
  | none =>
    have hnil : glyphs = [] := List.getLast?_eq_none_iff.mp hlast
    rw [hnil]
    rfl
  | some last =>
    simp only [h, Option.map_some', Option.getD_some]

theorem ofGlyphs_width_exact (glyphs : List GlyphData)
    (h64 : ∀ g ∈ glyphs, ∃ k : Int, g.advanceX = (k : ℚ) / 64)
    (hbound : ∀ i, i ≤ glyphs.length →
      |((glyphs.take i).map GlyphData.advanceX).sum| < 2 ^ 18)
    (hfinal : |(glyphs.map GlyphData.advanceX).sum
      + ((glyphs.getLast?.map (fun g => (g.getWidth : ℚ))).getD 0)| < 2 ^ 18) :
    (FontShaping.ofGlyphs glyphs).boundingBox.width
      = (glyphs.map GlyphData.advanceX).sum
        + ((glyphs.getLast?.map (fun g => (g.getWidth : ℚ))).getD 0) := by
  have h64m : ∀ v ∈ glyphs.map GlyphData.advanceX, ∃ k : Int, v = (k : ℚ) / 64 := by
    intro v hv
    obtain ⟨g, hg, hgv⟩ := List.mem_map.mp hv
    rw [← hgv]
    exact h64 g hg
  have hsum : floatSum 0 (glyphs.map GlyphData.advanceX)
      = (glyphs.map GlyphData.advanceX).sum := by
    rw [floatSum_exact _ 0 ⟨0, by norm_num⟩ h64m, zero_add]
    intro i hi
    rw [List.length_map] at hi
    rw [zero_add, ← List.map_take]
    exact hbound i hi
  rw [ofGlyphs_width, hsum]
  cases hlast : glyphs.getLast? with
  | none =>
    have hnil : glyphs = [] := List.getLast?_eq_none_iff.mp hlast
    rw [hnil]
    simp
  | some last =>
    rw [hlast] at hfinal
    simp only [Option.map_some', Option.getD_some] at hfinal ⊢
    have htotal := hbound glyphs.length (le_refl _)
    rw [List.take_length] at htotal
    obtain ⟨k, hk⟩ := sum_div64 _ h64m
    have hw : ((last.getWidth : Nat) : ℚ) < 2 ^ 19 := by
      have ha := abs_lt.mp hfinal
      have hb := abs_lt.mp htotal
      linarith
    have hwf : roundToFloat ((last.getWidth : Nat) : ℚ) = ((last.getWidth : Nat) : ℚ) := by
      have hint : |((last.getWidth : Nat) : Int)| < 2 ^ 24 := by
        rw [abs_of_nonneg (Int.ofNat_nonneg _)]
        have hq : (((last.getWidth : Nat) : Int) : ℚ) < ((2 ^ 24 : Int) : ℚ) := by
          push_cast
          linarith
        exact Int.cast_lt.mp hq
      have h := roundToFloat_intCast ((last.getWidth : Nat) : Int) hint
      push_cast at h
      exact h
    rw [hwf]
    exact roundToFloat_div64 _ (k + 64 * (last.getWidth : Int))
      (by rw [hk]; push_cast; ring) hfinal

theorem ofGlyphs_width_single (g : GlyphData) (k : Int) (hk : g.advanceX = (k : ℚ) / 64)
    (hadv : |g.advanceX| < 2 ^ 18) (hfinal : |g.advanceX + (g.getWidth : ℚ)| < 2 ^ 18) :
    (FontShaping.ofGlyphs [g]).boundingBox.width = g.advanceX + (g.getWidth : ℚ) := by
  rw [ofGlyphs_width_exact [g]]
  · simp
  · intro g2 hg2
    rw [List.mem_singleton.mp hg2]
    exact ⟨k, hk⟩
  · intro i hi
    have hi2 : i ≤ 1 := hi
    interval_cases i
    · simp
    · simpa using hadv
  · simpa using hfinal

/-- C14: for every glyph sequence the baseline offset computed by `FontShaping` is
`max(0, max of bearingTop over the glyphs with bearingTop >= 0)`: it is >= 0, at least
every non-negative bearingTop, and 0 or one of them; inserting or removing a glyph with
negative bearingTop anywhere, or exchanging it for another such glyph, does not change
it. -/
theorem baseLineOffset_max_of_nonnegative_bearingTop (glyphs : List GlyphData) :
    (FontShaping.ofGlyphs glyphs).baseLineOffset
      = maxWithZero
          ((glyphs.filter (fun g => decide (0 ≤ g.bearingTop))).map GlyphData.bearingTop) ∧
    0 ≤ (FontShaping.ofGlyphs glyphs).baseLineOffset ∧
    (∀ g ∈ glyphs, 0 ≤ g.bearingTop →
      g.bearingTop ≤ (FontShaping.ofGlyphs glyphs).baseLineOffset) ∧
    ((FontShaping.ofGlyphs glyphs).baseLineOffset = 0 ∨
      ∃ g ∈ glyphs, 0 ≤ g.bearingTop ∧
        (FontShaping.ofGlyphs glyphs).baseLineOffset = g.bearingTop) ∧
    (∀ (before after : List GlyphData) (g : GlyphData), g.bearingTop < 0 →
      (FontShaping.ofGlyphs (before ++ g :: after)).baseLineOffset
        = (FontShaping.ofGlyphs (before ++ after)).baseLineOffset) ∧
    (∀ (before after : List GlyphData) (g g2 : GlyphData), g.bearingTop < 0 →
      g2.bearingTop < 0 →
      (FontShaping.ofGlyphs (before ++ g :: after)).baseLineOffset
        = (FontShaping.ofGlyphs (before ++ g2 :: after)).baseLineOffset) := by
  have hdrop : ∀ (before after : List GlyphData) (g : GlyphData), g.bearingTop < 0 →
      (FontShaping.ofGlyphs (before ++ g :: after)).baseLineOffset
        = (FontShaping.ofGlyphs (before ++ after)).baseLineOffset := by
    intro before after g hg
    rw [ofGlyphs_baseLineOffset, ofGlyphs_baseLineOffset, List.filter_append,
      List.filter_append, List.filter_cons_of_neg (by simpa using hg)]
  refine ⟨ofGlyphs_baseLineOffset glyphs, ?_, ?_, ?_, hdrop, ?_⟩
  · rw [ofGlyphs_baseLineOffset]
    exact maxWithZero_nonneg _
  · intro g hg h0
    rw [ofGlyphs_baseLineOffset]
    apply le_maxWithZero
    exact List.mem_map.mpr ⟨g, List.mem_filter.mpr ⟨hg, by simpa using h0⟩, rfl⟩
  · rw [ofGlyphs_baseLineOffset]
    rcases maxWithZero_attained
      ((glyphs.filter (fun g : GlyphData => decide (0 ≤ g.bearingTop))).map
        GlyphData.bearingTop) with h | h
    · exact Or.inl h
    · obtain ⟨g, hg, hval⟩ := List.mem_map.mp h
      obtain ⟨hmem, hpos⟩ := List.mem_filter.mp hg
      exact Or.inr ⟨g, hmem, by simpa using hpos, hval.symm⟩
  · intro before after g g2 hg hg2
    rw [hdrop before after g hg, hdrop before after g2 hg2]

/-- C14 on a glyph with bearingTop 7 followed by one with bearingTop -3: the baseline
offset is 7, with and without the second glyph. -/
theorem baseLineOffset_max_of_nonnegative_bearingTop_witness :
    (FontShaping.ofGlyphs [⟨0, 0, 10, 0, 1, 7, none⟩, ⟨0, 0, 10, 0, 1, -3, none⟩]).baseLineOffset
      = (FontShaping.ofGlyphs [⟨0, 0, 10, 0, 1, 7, none⟩]).baseLineOffset ∧
    (FontShaping.ofGlyphs [⟨0, 0, 10, 0, 1, 7, none⟩]).baseLineOffset = 7 := by
  constructor
  · exact (baseLineOffset_max_of_nonnegative_bearingTop []).2.2.2.2.1
      [⟨0, 0, 10, 0, 1, 7, none⟩] [] ⟨0, 0, 10, 0, 1, -3, none⟩ (by norm_num)
  · rw [(baseLineOffset_max_of_nonnegative_bearingTop [⟨0, 0, 10, 0, 1, 7, none⟩]).1]
    norm_num [maxWithZero]

/-- C15 as stated fails: a single glyph of height 2 with bearingTop 5 (it sits wholly
above the baseline) has bottom extent 2 - 5 = -3, so the claimed height is 5 + (-3) = 2,
while the constructor keeps `bottomExtend` at its initial 0 and yields height 5.  The
glyph is given by offsetX 0, offsetY 0, advanceX 4, advanceY 0, bearingLeft 0,
bearingTop 5 and a Gray bitmap of width 1 and height 2. -/
theorem boundingBox_height_unclamped_counterexample :
    (FontShaping.ofGlyphs
        [⟨0, 0, 4, 0, 0, 5, some (PixelData.grayScale ⟨⟨1, 1, 1, 2⟩, [255, 255]⟩)⟩]).boundingBox.height
      ≠ (FontShaping.ofGlyphs
        [⟨0, 0, 4, 0, 0, 5, some (PixelData.grayScale ⟨⟨1, 1, 1, 2⟩, [255, 255]⟩)⟩]).baseLineOffset
      + maxOver
          (bottomExtent ⟨0, 0, 4, 0, 0, 5, some (PixelData.grayScale ⟨⟨1, 1, 1, 2⟩, [255, 255]⟩)⟩)
          [] ∧
    (FontShaping.ofGlyphs
        [⟨0, 0, 4, 0, 0, 5, some (PixelData.grayScale ⟨⟨1, 1, 1, 2⟩, [255, 255]⟩)⟩]).boundingBox.height
      = 5 ∧
    (FontShaping.ofGlyphs
        [⟨0, 0, 4, 0, 0, 5, some (PixelData.grayScale ⟨⟨1, 1, 1, 2⟩, [255, 255]⟩)⟩]).baseLineOffset
      + maxOver
          (bottomExtent ⟨0, 0, 4, 0, 0, 5, some (PixelData.grayScale ⟨⟨1, 1, 1, 2⟩, [255, 255]⟩)⟩)
          [] = 2 := by
  rw [ofGlyphs_height, ofGlyphs_baseLineOffset]
  norm_num [maxWithZero, maxOver, bottomExtent, GlyphData.getHeight, PixelData.getHeight,
    PixelData.toRasteredGlyph]

/-- C15, amended: for every glyph sequence `boundingBox.height` equals
`baselineOffset + max(0, max over all glyphs of (height - |bearingTop|))`; for the empty
sequence it is 0; and when the largest bottom extent is not negative this is
`baselineOffset + max over all glyphs of (height - |bearingTop|)`. -/
theorem boundingBox_height_clamped (glyphs : List GlyphData) :
    (FontShaping.ofGlyphs glyphs).boundingBox.height
      = (FontShaping.ofGlyphs glyphs).baseLineOffset
        + maxWithZero (glyphs.map bottomExtent) ∧
    (FontShaping.ofGlyphs []).boundingBox.height = 0 ∧
    (∀ (g : GlyphData) (rest : List GlyphData), glyphs = g :: rest →
      0 ≤ maxOver (bottomExtent g) (rest.map bottomExtent) →
      (FontShaping.ofGlyphs glyphs).boundingBox.height
        = (FontShaping.ofGlyphs glyphs).baseLineOffset
          + maxOver (bottomExtent g) (rest.map bottomExtent)) := by
  refine ⟨ofGlyphs_height glyphs, ?_, ?_⟩
  · rw [ofGlyphs_height, ofGlyphs_baseLineOffset]
    norm_num [maxWithZero]
  · intro g rest hg hmax
    rw [ofGlyphs_height, hg, List.map_cons, maxOver_eq_maxWithZero _ _ hmax]

/-- C15, amended, on a glyph of height 9 with bearingTop 7 followed by a glyph of height
2 with bearingTop 5: the largest bottom extent is 2 and the height is 7 + 2. -/
theorem boundingBox_height_clamped_witness :
    (FontShaping.ofGlyphs
        [⟨0, 0, 10, 0, 1, 7, some (PixelData.grayScale ⟨⟨1, 1, 1, 9⟩, List.replicate 9 255⟩)⟩,
          ⟨0, 0, 4, 0, 0, 5, some (PixelData.grayScale ⟨⟨1, 1, 1, 2⟩, [255, 255]⟩)⟩]).boundingBox.height
      = 9 := by
  have h := (boundingBox_height_clamped
      [⟨0, 0, 10, 0, 1, 7, some (PixelData.grayScale ⟨⟨1, 1, 1, 9⟩, List.replicate 9 255⟩)⟩,
        ⟨0, 0, 4, 0, 0, 5, some (PixelData.grayScale ⟨⟨1, 1, 1, 2⟩, [255, 255]⟩)⟩]).2.2
    _ _ rfl (by
      norm_num [maxOver, bottomExtent, GlyphData.getHeight, PixelData.getHeight,
        PixelData.toRasteredGlyph])
  rw [h, ofGlyphs_baseLineOffset]
  norm_num [maxWithZero, maxOver, bottomExtent, GlyphData.getHeight, PixelData.getHeight,
    PixelData.toRasteredGlyph]

/-- C16: for every glyph run (empty or not) `boundingBox.height >= baselineOffset` and
`baselineOffset >= 0`. -/
theorem boundingBox_height_ge_baseLineOffset (glyphs : List GlyphData) :
    (FontShaping.ofGlyphs glyphs).baseLineOffset
      ≤ (FontShaping.ofGlyphs glyphs).boundingBox.height ∧
    0 ≤ (FontShaping.ofGlyphs glyphs).baseLineOffset := by
  constructor
  · rw [ofGlyphs_height]
    exact le_add_of_nonneg_right (maxWithZero_nonneg _)
  · rw [ofGlyphs_baseLineOffset]
    exact maxWithZero_nonneg _

/-- C17 as stated fails: the constructor adds the advances in `float`.  For a run of two
glyphs without bitmap with advances 300000 (19200000/64) and 67/64 the sum of the
advances is 300001 + 3/64, which lies half-way between two neighbouring `float` values
(they are 1/32 apart there); `width += advanceX` rounds it to 300001 + 1/16, and that is
the width of the bounding box.  The run is what `FontShaping` builds from the shaped
advances 19200000 and 67 (26.6 values) of two BGRA glyphs. -/
theorem boundingBox_width_exact_sum_counterexample :
    (FontShaping.ofGlyphs
        [⟨0, 0, 300000, 0, 0, 0, none⟩, ⟨0, 0, 67 / 64, 0, 0, 0, none⟩]).boundingBox.width
      = 300001 + 1 / 16 ∧
    (([⟨0, 0, 300000, 0, 0, 0, none⟩, ⟨0, 0, 67 / 64, 0, 0, 0, none⟩] :
          List GlyphData).map GlyphData.advanceX).sum
        + ((([⟨0, 0, 300000, 0, 0, 0, none⟩, ⟨0, 0, 67 / 64, 0, 0, 0, none⟩] :
          List GlyphData).getLast?.map (fun g => (g.getWidth : ℚ))).getD 0)
      = 300001 + 3 / 64 ∧
    (FontShaping.ofGlyphs
        [⟨0, 0, 300000, 0, 0, 0, none⟩, ⟨0, 0, 67 / 64, 0, 0, 0, none⟩]).boundingBox.width
      ≠ (([⟨0, 0, 300000, 0, 0, 0, none⟩, ⟨0, 0, 67 / 64, 0, 0, 0, none⟩] :
          List GlyphData).map GlyphData.advanceX).sum
        + ((([⟨0, 0, 300000, 0, 0, 0, none⟩, ⟨0, 0, 67 / 64, 0, 0, 0, none⟩] :
          List GlyphData).getLast?.map (fun g => (g.getWidth : ℚ))).getD 0) ∧
    FontShaping.ctor
        [(⟨19200000, 0, 0, 0⟩, ⟨⟨0, 0, 0, [], FT_Pixel_Mode.BGRA⟩, 0, 0⟩),
         (⟨67, 0, 0, 0⟩, ⟨⟨0, 0, 0, [], FT_Pixel_Mode.BGRA⟩, 0, 0⟩)]
        ⟨KXftConfig.AntiAliasing.Enabled, KXftConfig.Hinting.Enabled, KXftConfig.Hint.Full,
          KXftConfig.SubPixel.None, 96, 96⟩
      = some (FontShaping.ofGlyphs
          [⟨0, 0, 300000, 0, 0, 0, none⟩, ⟨0, 0, 67 / 64, 0, 0, 0, none⟩]) := by
  have hz : roundToFloat ((0 : Int) : ℚ) = 0 := by
    rw [Int.cast_zero]
    exact roundToFloat_zero
  have hzd : roundToFloat ((0 : Int) : ℚ) / PIXEL_FRACTION_FACTOR = 0 := by
    rw [hz, zero_div]
  have hA : roundToFloat ((19200000 : Int) : ℚ) / PIXEL_FRACTION_FACTOR = 300000 := by
    rw [roundToFloat_eq_self _ 9375 11 (by norm_num) (by norm_num)]
    norm_num [PIXEL_FRACTION_FACTOR]
  have hB : roundToFloat ((67 : Int) : ℚ) / PIXEL_FRACTION_FACTOR = 67 / 64 := by
    rw [roundToFloat_eq_self _ 67 0 (by norm_num) (by norm_num)]
    norm_num [PIXEL_FRACTION_FACTOR]
  have hctor : FontShaping.ctor
      [(⟨19200000, 0, 0, 0⟩, ⟨⟨0, 0, 0, [], FT_Pixel_Mode.BGRA⟩, 0, 0⟩),
       (⟨67, 0, 0, 0⟩, ⟨⟨0, 0, 0, [], FT_Pixel_Mode.BGRA⟩, 0, 0⟩)]
      ⟨KXftConfig.AntiAliasing.Enabled, KXftConfig.Hinting.Enabled, KXftConfig.Hint.Full,
        KXftConfig.SubPixel.None, 96, 96⟩
      = some (FontShaping.ofGlyphs
          [⟨roundToFloat ((0 : Int) : ℚ) / PIXEL_FRACTION_FACTOR,
            roundToFloat ((0 : Int) : ℚ) / PIXEL_FRACTION_FACTOR,
            roundToFloat ((19200000 : Int) : ℚ) / PIXEL_FRACTION_FACTOR,
            roundToFloat ((0 : Int) : ℚ) / PIXEL_FRACTION_FACTOR,
            roundToFloat ((0 : Int) : ℚ), roundToFloat ((0 : Int) : ℚ), none⟩,
           ⟨roundToFloat ((0 : Int) : ℚ) / PIXEL_FRACTION_FACTOR,
            roundToFloat ((0 : Int) : ℚ) / PIXEL_FRACTION_FACTOR,
            roundToFloat ((67 : Int) : ℚ) / PIXEL_FRACTION_FACTOR,
            roundToFloat ((0 : Int) : ℚ) / PIXEL_FRACTION_FACTOR,
            roundToFloat ((0 : Int) : ℚ), roundToFloat ((0 : Int) : ℚ), none⟩]) := rfl
  rw [hzd, hA, hB, hz] at hctor
  have h1 : roundToFloat ((0 : ℚ) + 300000) = 300000 := by
    rw [zero_add]
    exact roundToFloat_eq_self 300000 9375 5 (by norm_num) (by norm_num)
  have h2 : roundToFloat ((300000 : ℚ) + 67 / 64) = 300001 + 1 / 16 := by
    rw [roundToFloat_of_exponent _ 18 (by norm_num [abs_of_pos]) (by norm_num [abs_of_pos])]
    have hfloor : ⌊((300000 + 67 / 64 : ℚ)) / (2 : ℚ) ^ ((18 : Int) - 23)⌋ = 9600033 := by
      rw [Int.floor_eq_iff]
      norm_num
    unfold rint
    simp only [hfloor]
    norm_num
  have h3 : roundToFloat ((300001 : ℚ) + 1 / 16 + roundToFloat ((0 : Nat) : ℚ))
      = 300001 + 1 / 16 := by
    rw [Nat.cast_zero, roundToFloat_zero, add_zero]
    exact roundToFloat_eq_self (300001 + 1 / 16) 4800017 (-4) (by norm_num) (by norm_num)
  have hwidth : (FontShaping.ofGlyphs
      [⟨0, 0, 300000, 0, 0, 0, none⟩, ⟨0, 0, 67 / 64, 0, 0, 0, none⟩]).boundingBox.width
      = 300001 + 1 / 16 := by
    rw [ofGlyphs_width, List.getLast?_cons_cons, List.getLast?_singleton, Option.map_some',
      Option.getD_some, List.map_cons, List.map_cons, List.map_nil, floatSum, List.foldl_cons,
      List.foldl_cons, List.foldl_nil]
    show roundToFloat (roundToFloat (roundToFloat ((0 : ℚ) + 300000) + 67 / 64)
      + roundToFloat ((0 : Nat) : ℚ)) = _
    rw [h1, h2, h3]
  have hsum : (([⟨0, 0, 300000, 0, 0, 0, none⟩, ⟨0, 0, 67 / 64, 0, 0, 0, none⟩] :
          List GlyphData).map GlyphData.advanceX).sum
        + ((([⟨0, 0, 300000, 0, 0, 0, none⟩, ⟨0, 0, 67 / 64, 0, 0, 0, none⟩] :
          List GlyphData).getLast?.map (fun g => (g.getWidth : ℚ))).getD 0)
      = 300001 + 3 / 64 := by
    norm_num [GlyphData.getWidth]
  refine ⟨hwidth, hsum, ?_, hctor⟩
  rw [hwidth, hsum]
  norm_num

/-- C17, amended: for every glyph sequence `boundingBox.width` is the `float` accumulation
of advanceX over all glyphs in shaping order plus the pixel width of the last glyph, every
addition rounded to the nearest `float` (0 for the empty sequence); two runs with the same
advances and the same last glyph have the same width, whatever the bitmaps of their other
glyphs; and when the advances are multiples of 1/64 and every partial sum of advances and
the final sum plus the last width stay below `2 ^ 18` in magnitude, the width is exactly the
sum of advanceX plus the pixel width of the last glyph. -/
theorem boundingBox_width_float_sum_of_advances (glyphs : List GlyphData) :
    (FontShaping.ofGlyphs glyphs).boundingBox.width
      = (glyphs.getLast?.map (fun last =>
          roundToFloat (floatSum 0 (glyphs.map GlyphData.advanceX)
            + roundToFloat (last.getWidth : ℚ)))).getD 0 ∧
    (FontShaping.ofGlyphs []).boundingBox.width = 0 ∧
    (∀ (others others2 : List GlyphData) (last : GlyphData),
      others.map GlyphData.advanceX = others2.map GlyphData.advanceX →
      (FontShaping.ofGlyphs (others ++ [last])).boundingBox.width
        = (FontShaping.ofGlyphs (others2 ++ [last])).boundingBox.width) ∧
    ((∀ g ∈ glyphs, ∃ k : Int, g.advanceX = (k : ℚ) / 64) →
      (∀ i, i ≤ glyphs.length → |((glyphs.take i).map GlyphData.advanceX).sum| < 2 ^ 18) →
      |(glyphs.map GlyphData.advanceX).sum
          + ((glyphs.getLast?.map (fun g => (g.getWidth : ℚ))).getD 0)| < 2 ^ 18 →
      (FontShaping.ofGlyphs glyphs).boundingBox.width
        = (glyphs.map GlyphData.advanceX).sum
          + ((glyphs.getLast?.map (fun g => (g.getWidth : ℚ))).getD 0)) := by
  refine ⟨ofGlyphs_width glyphs, ?_, ?_, ?_⟩
  · rfl
  · intro others others2 last hadv
    rw [ofGlyphs_width, ofGlyphs_width, List.map_append, List.map_append, hadv,
      List.getLast?_concat, List.getLast?_concat]
  · intro h64 hbound hfinal
    exact ofGlyphs_width_exact glyphs h64 hbound hfinal

/-- C17, amended, on two glyphs with advances 10 and 4 and bitmap widths 30 and 3: the
width is 10 + 4 + 3, and the width 30 of the first glyph does not enter. -/
theorem boundingBox_width_float_sum_of_advances_witness :
    (FontShaping.ofGlyphs
        [⟨0, 0, 10, 0, 1, 7, some (PixelData.grayScale ⟨⟨30, 30, 30, 1⟩, List.replicate 30 255⟩)⟩,
          ⟨0, 0, 4, 0, 0, 5, some (PixelData.grayScale ⟨⟨3, 3, 3, 1⟩, [255, 255, 255]⟩)⟩]).boundingBox.width
      = 17 ∧
    (FontShaping.ofGlyphs
        [⟨0, 0, 10, 0, 1, 7, some (PixelData.grayScale ⟨⟨30, 30, 30, 1⟩, List.replicate 30 255⟩)⟩,
          ⟨0, 0, 4, 0, 0, 5, some (PixelData.grayScale ⟨⟨3, 3, 3, 1⟩, [255, 255, 255]⟩)⟩]).boundingBox.width
      = (FontShaping.ofGlyphs
        [⟨0, 0, 10, 0, 1, 7, none⟩,
          ⟨0, 0, 4, 0, 0, 5, some (PixelData.grayScale ⟨⟨3, 3, 3, 1⟩, [255, 255, 255]⟩)⟩]).boundingBox.width := by
  constructor
  · rw [(boundingBox_width_float_sum_of_advances _).2.2.2 ?_ ?_ ?_]
    · norm_num [GlyphData.getWidth, PixelData.getWidth, PixelData.toRasteredGlyph]
    · intro g hg
      rcases List.mem_cons.mp hg with h | h
      · exact ⟨640, by rw [h]; norm_num⟩
      · rcases List.mem_cons.mp h with h2 | h2
        · exact ⟨256, by rw [h2]; norm_num⟩
        · exact absurd h2 (List.not_mem_nil g)
    · intro i hi
      have hi2 : i ≤ 2 := hi
      interval_cases i <;> norm_num [abs_of_pos]
    · norm_num [GlyphData.getWidth, PixelData.getWidth, PixelData.toRasteredGlyph, abs_of_pos]
  · exact (boundingBox_width_float_sum_of_advances []).2.2.1
      [⟨0, 0, 10, 0, 1, 7, some (PixelData.grayScale ⟨⟨30, 30, 30, 1⟩, List.replicate 30 255⟩)⟩]
      [⟨0, 0, 10, 0, 1, 7, none⟩]
      ⟨0, 0, 4, 0, 0, 5, some (PixelData.grayScale ⟨⟨3, 3, 3, 1⟩, [255, 255, 255]⟩)⟩ rfl

/-! ## Rendering a glyph run -/

theorem paintGlyphs_eq_foldlM (baseLineOffset : Nat) (pen : QColor) (glyphs : List GlyphData) :
    ∀ (canvas : QImage) (x : ℚ),
      FreeTypeFontPreviewRenderer.paintGlyphs baseLineOffset pen glyphs canvas x
        = (FreeTypeFontPreviewRenderer.paintCalls baseLineOffset glyphs x).foldlM
            (PaintCall.run pen) canvas := by
  induction glyphs with
  | nil =>
    intro canvas x
    rfl
  | cons data rest ih =>
    intro canvas x
    unfold FreeTypeFontPreviewRenderer.paintGlyphs FreeTypeFontPreviewRenderer.paintCalls
    rw [List.foldlM_cons]
    show Option.bind _ _ = Option.bind _ _
    congr 1
    funext canvas2
    exact ih canvas2 _

theorem getBaseLineOffset_cast (glyphs : List GlyphData)
    (hint : ∀ g ∈ glyphs, ∃ n : Int, g.bearingTop = (n : ℚ)) :
    (((FontShaping.ofGlyphs glyphs).getBaseLineOffset : Nat) : ℚ)
      = (FontShaping.ofGlyphs glyphs).baseLineOffset := by
  have h0 : 0 ≤ (FontShaping.ofGlyphs glyphs).baseLineOffset := by
    rw [ofGlyphs_baseLineOffset]
    exact maxWithZero_nonneg _
  have hn : ∃ n : Int, (FontShaping.ofGlyphs glyphs).baseLineOffset = (n : ℚ) := by
    rw [ofGlyphs_baseLineOffset]
    rcases maxWithZero_attained
      ((glyphs.filter (fun g : GlyphData => decide (0 ≤ g.bearingTop))).map
        GlyphData.bearingTop) with h | h
    · exact ⟨0, by rw [h]; norm_num⟩
    · obtain ⟨g, hg, hval⟩ := List.mem_map.mp h
      obtain ⟨n, hgn⟩ := hint g (List.mem_filter.mp hg).1
      exact ⟨n, by rw [← hval, hgn]⟩
  obtain ⟨n, hbase⟩ := hn
  unfold FontShaping.getBaseLineOffset
  rw [hbase] at h0 ⊢
  have hn0 : 0 ≤ n := by exact_mod_cast h0
  rw [Int.floor_intCast]
  have hcast : ((n.toNat : Nat) : Int) = n := Int.toNat_of_nonneg hn0
  exact_mod_cast hcast

theorem PixelData_paint_frame (p : PixelData) (canvas canvas2 : QImage) (x y : Int)
    (pen : QColor) (h : p.paint canvas x y pen = some canvas2) :
    UnchangedOutside x y p.getWidth p.getHeight canvas canvas2 := by
  cases p with
  | monochrome g =>
    exact paint_loops_frame (g.paintPixel x y pen) x y g.width g.height
      (mono_paintPixel_cases g x y pen) canvas canvas2 h
  | grayScale g =>
    exact paint_loops_frame (GrayScaleGlyph.paintPixel g x y pen) x y g.width g.height
      (gray_paintPixel_cases g x y pen) canvas canvas2 h
  | subPixel g =>
    exact paint_loops_frame
      (AbstractSubPixelGlyph.paintPixel (SubPixelGlyph.getValue g) g x y pen) x y g.width
      g.height (subpixel_paintPixel_cases _ g x y pen) canvas canvas2 h
  | verticalSubPixel g =>
    exact paint_loops_frame
      (AbstractSubPixelGlyph.paintPixel (VerticalSubPixelGlyph.getValue g) g x y pen) x y
      g.width g.height (subpixel_paintPixel_cases _ g x y pen) canvas canvas2 h

theorem GlyphData_paint_frame (g : GlyphData) (canvas canvas2 : QImage) (x y : Int)
    (pen : QColor) (h : g.paint canvas x y pen = some canvas2) :
    UnchangedOutside x y g.getWidth g.getHeight canvas canvas2 := by
  obtain ⟨ox, oy, ax, ay, bl, bt, pd⟩ := g
  cases pd with
  | none =>
    have hc : canvas = canvas2 := Option.some.inj h
    rw [← hc]
    exact ⟨rfl, rfl, fun _ _ _ => rfl⟩
  | some p => exact PixelData_paint_frame p canvas canvas2 x y pen h

theorem PixelData_paint_isSome (p : PixelData) (hr : p.Readable) (canvas : QImage)
    (x y : Int) (pen : QColor) : ∃ canvas2, p.paint canvas x y pen = some canvas2 := by
  cases p with
  | monochrome g =>
    obtain ⟨hwidth, hlen⟩ := hr
    obtain ⟨c2, hrun, _⟩ := mono_paint_boxStep g canvas x y pen
      (fun gy gx hy hx => mono_read g hwidth hlen gx gy hx hy)
    exact ⟨c2, hrun⟩
  | grayScale g =>
    obtain ⟨hpitch, hwidth, hlen⟩ := hr
    obtain ⟨c2, hrun, _⟩ := gray_paint_boxStep g canvas x y pen
      (fun j i hj hi => gray_read g hpitch hwidth hlen j i hj hi)
    exact ⟨c2, hrun⟩
  | subPixel g =>
    obtain ⟨hpitch, hwidth, hlen⟩ := hr
    obtain ⟨c2, hrun, _⟩ := subpixel_paint_boxStep (SubPixelGlyph.getValue g) g canvas x y pen
      (subPixel_read g hpitch hwidth hlen)
    exact ⟨c2, hrun⟩
  | verticalSubPixel g =>
    obtain ⟨hpitch, hwidth, hlen⟩ := hr
    obtain ⟨c2, hrun, _⟩ := subpixel_paint_boxStep (VerticalSubPixelGlyph.getValue g) g canvas
      x y pen (verticalSubPixel_read g hpitch hwidth hlen)
    exact ⟨c2, hrun⟩

theorem GlyphData_paint_isSome (g : GlyphData) (hr : g.Readable) (canvas : QImage)
    (x y : Int) (pen : QColor) : ∃ canvas2, g.paint canvas x y pen = some canvas2 := by
  obtain ⟨ox, oy, ax, ay, bl, bt, pd⟩ := g
  cases pd with
  | none => exact ⟨canvas, rfl⟩
  | some p => exact PixelData_paint_isSome p (hr p rfl) canvas x y pen

theorem paintCalls_frame (pen : QColor) (calls : List PaintCall) :
    ∀ canvas canvas2 : QImage, calls.foldlM (PaintCall.run pen) canvas = some canvas2 →
      canvas2.width = canvas.width ∧ canvas2.height = canvas.height ∧
      ∀ a b : Int, (∀ call ∈ calls, ¬call.covers a b) →
        canvas2.pixels a b = canvas.pixels a b := by
  induction calls with
  | nil =>
    intro canvas canvas2 h
    have hc : canvas = canvas2 := Option.some.inj h
    rw [← hc]
    exact ⟨rfl, rfl, fun _ _ _ => rfl⟩
  | cons call rest ih =>
    intro canvas canvas2 h
    rw [List.foldlM_cons] at h
    obtain ⟨c1, h1, h2⟩ := Option.bind_eq_some.mp h
    obtain ⟨hw1, hh1, hout1⟩ := GlyphData_paint_frame call.glyph canvas c1 call.x call.y pen h1
    obtain ⟨hw2, hh2, hout2⟩ := ih c1 canvas2 h2
    refine ⟨by rw [hw2, hw1], by rw [hh2, hh1], ?_⟩
    intro a b hab
    rw [hout2 a b (fun c hc => hab c (List.mem_cons_of_mem call hc)),
      hout1 a b (hab call (List.mem_cons_self call rest))]

theorem paintCalls_glyph_mem (baseLineOffset : Nat) (glyphs : List GlyphData) :
    ∀ (x : ℚ) (call : PaintCall),
      call ∈ FreeTypeFontPreviewRenderer.paintCalls baseLineOffset glyphs x →
      call.glyph ∈ glyphs := by
  induction glyphs with
  | nil =>
    intro x call h
    exact absurd h (List.not_mem_nil call)
  | cons data rest ih =>
    intro x call h
    unfold FreeTypeFontPreviewRenderer.paintCalls at h
    rcases List.mem_cons.mp h with h1 | h1
    · rw [h1]
      exact List.mem_cons_self data rest
    · exact List.mem_cons_of_mem data (ih _ call h1)

theorem paintCalls_isSome (pen : QColor) (calls : List PaintCall)
    (hr : ∀ call ∈ calls, call.glyph.Readable) :
    ∀ canvas : QImage, ∃ canvas2, calls.foldlM (PaintCall.run pen) canvas = some canvas2 := by
  induction calls with
  | nil =>
    intro canvas
    exact ⟨canvas, rfl⟩
  | cons call rest ih =>
    intro canvas
    obtain ⟨c1, h1⟩ := GlyphData_paint_isSome call.glyph (hr call (List.mem_cons_self call rest))
      canvas call.x call.y pen
    obtain ⟨c2, h2⟩ := ih (fun c hc => hr c (List.mem_cons_of_mem call hc)) c1
    refine ⟨c2, ?_⟩
    rw [List.foldlM_cons]
    exact Option.bind_eq_some.mpr ⟨c1, h1, h2⟩

theorem ceill_intCast (n : Int) : ceill (n : ℚ) = n := by
  unfold ceill
  exact Int.ceil_intCast n

theorem QImage_ctor_fill_size (width height : Int) (color : QColor) :
    (0 < width → 0 < height →
      (((QImage.ctor width height).fill color).width : Int) = width ∧
      (((QImage.ctor width height).fill color).height : Int) = height) ∧
    (width ≤ 0 ∨ height ≤ 0 →
      ((QImage.ctor width height).fill color).width = 0 ∧
      ((QImage.ctor width height).fill color).height = 0) := by
  unfold QImage.fill QImage.ctor
  constructor
  · intro hw hh
    rw [if_neg (by omega)]
    exact ⟨Int.toNat_of_nonneg (le_of_lt hw), Int.toNat_of_nonneg (le_of_lt hh)⟩
  · intro h
    rw [if_pos h]
    exact ⟨rfl, rfl⟩

/-- C19 as stated fails: a run of one space glyph (advanceX 4, an empty Gray bitmap of
width 0 and height 0, bearingTop 0) has a bounding box of width 4 and height 0; the
constructor `QImage(4, 0, format)` yields the null image, so the returned canvas has
width 0, not `ceil(4) = 4`. -/
theorem renderText_canvas_size_counterexample :
    ∃ canvas,
      FreeTypeFontPreviewRenderer.renderText
          (FontShaping.ofGlyphs
            [⟨0, 0, 4, 0, 0, 0, some (PixelData.grayScale ⟨⟨0, 0, 0, 0⟩, []⟩)⟩])
          ⟨255, 255, 255⟩ ⟨0, 0, 0⟩ = some canvas ∧
      (canvas.width : Int)
        ≠ ceill (FontShaping.ofGlyphs
            [⟨0, 0, 4, 0, 0, 0, some (PixelData.grayScale ⟨⟨0, 0, 0, 0⟩, []⟩)⟩]).boundingBox.width ∧
      canvas.width = 0 ∧
      ceill (FontShaping.ofGlyphs
          [⟨0, 0, 4, 0, 0, 0, some (PixelData.grayScale ⟨⟨0, 0, 0, 0⟩, []⟩)⟩]).boundingBox.width
        = 4 := by
  have hw : (FontShaping.ofGlyphs
      [⟨0, 0, 4, 0, 0, 0, some (PixelData.grayScale ⟨⟨0, 0, 0, 0⟩, []⟩)⟩]).boundingBox.width
      = ((4 : Int) : ℚ) := by
    rw [ofGlyphs_width_single _ 256 (by norm_num)
      (by norm_num [abs_of_pos])
      (by norm_num [GlyphData.getWidth, PixelData.getWidth, PixelData.toRasteredGlyph,
        abs_of_pos])]
    norm_num [GlyphData.getWidth, PixelData.getWidth, PixelData.toRasteredGlyph]
  have hh : (FontShaping.ofGlyphs
      [⟨0, 0, 4, 0, 0, 0, some (PixelData.grayScale ⟨⟨0, 0, 0, 0⟩, []⟩)⟩]).boundingBox.height
      = ((0 : Int) : ℚ) := by
    rw [ofGlyphs_height, ofGlyphs_baseLineOffset]
    norm_num [maxWithZero, bottomExtent, GlyphData.getHeight, PixelData.getHeight,
      PixelData.toRasteredGlyph]
  refine ⟨(QImage.ctor 4 0).fill ⟨255, 255, 255⟩, ?_, ?_, rfl, ?_⟩
  · unfold FreeTypeFontPreviewRenderer.renderText
    simp only [FontShaping.getBoundingBox, hw, hh, ceill_intCast]
    rfl
  · rw [hw, ceill_intCast]
    decide
  · rw [hw, ceill_intCast]

/-- C19, amended: whenever `renderText` completes, the canvas has width
`ceil(boundingBox.width)` and height `ceil(boundingBox.height)` if both are positive and
is the null image of width 0 and height 0 otherwise, and every pixel that lies in the
paint box of no invocation of `paint` has exactly the background colour; `renderText`
does complete when every glyph bitmap is readable. -/
theorem renderText_canvas_size_and_background (glyphs : List GlyphData)
    (background pen : QColor) :
    (∀ canvas,
      FreeTypeFontPreviewRenderer.renderText (FontShaping.ofGlyphs glyphs) background pen
        = some canvas →
      (0 < ceill (FontShaping.ofGlyphs glyphs).boundingBox.width →
        0 < ceill (FontShaping.ofGlyphs glyphs).boundingBox.height →
        (canvas.width : Int) = ceill (FontShaping.ofGlyphs glyphs).boundingBox.width ∧
        (canvas.height : Int) = ceill (FontShaping.ofGlyphs glyphs).boundingBox.height) ∧
      (ceill (FontShaping.ofGlyphs glyphs).boundingBox.width ≤ 0
          ∨ ceill (FontShaping.ofGlyphs glyphs).boundingBox.height ≤ 0 →
        canvas.width = 0 ∧ canvas.height = 0) ∧
      (∀ a b : Int,
        (∀ call ∈ FreeTypeFontPreviewRenderer.paintCalls
            (FontShaping.ofGlyphs glyphs).getBaseLineOffset glyphs 0, ¬call.covers a b) →
        canvas.pixels a b = background.rgb)) ∧
    ((∀ g ∈ glyphs, g.Readable) →
      ∃ canvas,
        FreeTypeFontPreviewRenderer.renderText (FontShaping.ofGlyphs glyphs) background pen
          = some canvas) := by
  have hrun : FreeTypeFontPreviewRenderer.renderText (FontShaping.ofGlyphs glyphs) background pen
      = (FreeTypeFontPreviewRenderer.paintCalls
            (FontShaping.ofGlyphs glyphs).getBaseLineOffset glyphs 0).foldlM
          (PaintCall.run pen)
          ((QImage.ctor (ceill (FontShaping.ofGlyphs glyphs).boundingBox.width)
            (ceill (FontShaping.ofGlyphs glyphs).boundingBox.height)).fill background) :=
    paintGlyphs_eq_foldlM _ pen glyphs _ 0
  constructor
  · intro canvas hcanvas
    rw [hrun] at hcanvas
    obtain ⟨hw, hh, hout⟩ := paintCalls_frame pen _ _ canvas hcanvas
    obtain ⟨hpos, hnull⟩ := QImage_ctor_fill_size
      (ceill (FontShaping.ofGlyphs glyphs).boundingBox.width)
      (ceill (FontShaping.ofGlyphs glyphs).boundingBox.height) background
    refine ⟨?_, ?_, ?_⟩
    · intro h1 h2
      rw [hw, hh]
      exact hpos h1 h2
    · intro h
      rw [hw, hh]
      exact hnull h
    · intro a b hab
      rw [hout a b hab]
      rfl
  · intro hr
    rw [hrun]
    exact paintCalls_isSome pen _
      (fun call hc => hr call.glyph (paintCalls_glyph_mem _ glyphs 0 call hc)) _

/-- C19, amended, on one glyph with advanceX 3, bearingTop 1 and a fully covered Gray
bitmap of one pixel, painted in black on white: the canvas is 4 wide and 1 high, and the
pixel at column 2, outside the paint box at the origin, is white. -/
theorem renderText_canvas_size_and_background_witness :
    ∃ canvas,
      FreeTypeFontPreviewRenderer.renderText
          (FontShaping.ofGlyphs
            [⟨0, 0, 3, 0, 0, 1, some (PixelData.grayScale ⟨⟨1, 1, 1, 1⟩, [255]⟩)⟩])
          ⟨255, 255, 255⟩ ⟨0, 0, 0⟩ = some canvas ∧
      canvas.width = 4 ∧ canvas.height = 1 ∧ canvas.pixels 2 0 = ⟨255, 255, 255⟩ := by
  have hthm := renderText_canvas_size_and_background
    [⟨0, 0, 3, 0, 0, 1, some (PixelData.grayScale ⟨⟨1, 1, 1, 1⟩, [255]⟩)⟩]
    ⟨255, 255, 255⟩ ⟨0, 0, 0⟩
  have hw : (FontShaping.ofGlyphs
      [⟨0, 0, 3, 0, 0, 1, some (PixelData.grayScale ⟨⟨1, 1, 1, 1⟩, [255]⟩)⟩]).boundingBox.width
      = ((4 : Int) : ℚ) := by
    rw [ofGlyphs_width_single _ 192 (by norm_num)
      (by norm_num [abs_of_pos])
      (by norm_num [GlyphData.getWidth, PixelData.getWidth, PixelData.toRasteredGlyph,
        abs_of_pos])]
    norm_num [GlyphData.getWidth, PixelData.getWidth, PixelData.toRasteredGlyph]
  have hh : (FontShaping.ofGlyphs
      [⟨0, 0, 3, 0, 0, 1, some (PixelData.grayScale ⟨⟨1, 1, 1, 1⟩, [255]⟩)⟩]).boundingBox.height
      = ((1 : Int) : ℚ) := by
    rw [ofGlyphs_height, ofGlyphs_baseLineOffset]
    norm_num [maxWithZero, bottomExtent, GlyphData.getHeight, PixelData.getHeight,
      PixelData.toRasteredGlyph]
  obtain ⟨canvas, hcanvas⟩ := hthm.2 (by
    intro g hg p hp
    rcases List.mem_cons.mp hg with h | h
    · rw [h] at hp
      have hp2 : PixelData.grayScale ⟨⟨1, 1, 1, 1⟩, [255]⟩ = p := Option.some.inj hp
      rw [← hp2]
      exact ⟨by decide, by decide, by decide⟩
    · exact absurd h (List.not_mem_nil g))
  obtain ⟨hsize, _, hbg⟩ := hthm.1 canvas hcanvas
  rw [hw, hh, ceill_intCast, ceill_intCast] at hsize
  obtain ⟨hcw, hch⟩ := hsize (by decide) (by decide)
  refine ⟨canvas, hcanvas, by exact_mod_cast hcw, by exact_mod_cast hch, ?_⟩
  apply hbg 2 0
  intro call hcall
  unfold FreeTypeFontPreviewRenderer.paintCalls at hcall
  have hc := List.mem_singleton.mp hcall
  have hx : call.x = 0 := by
    rw [hc]
    norm_num [rint, GlyphData.getBearingLeft, roundToFloat_zero]
  intro hcov
  have h2 := hcov.2.1
  rw [hx] at h2
  have hwid : call.glyph.getWidth = 1 := by rw [hc]; rfl
  rw [hwid] at h2
  omega

/-- C20: for the empty glyph sequence the run has zero glyphs, baseline offset 0 and a
bounding box of width 0 and height 0; `renderText` makes no invocation of `paint` and
returns the null canvas of width 0 and height 0, which has no pixel (and whose pixel data
is the background colour throughout). -/
theorem empty_run_renders_empty_canvas (options : KXftConfig) (background pen : QColor) :
    FontShaping.ctor [] options = some (FontShaping.ofGlyphs []) ∧
    (FontShaping.ofGlyphs []).getGlyphCount = 0 ∧
    (FontShaping.ofGlyphs []).baseLineOffset = 0 ∧
    (FontShaping.ofGlyphs []).boundingBox.width = 0 ∧
    (FontShaping.ofGlyphs []).boundingBox.height = 0 ∧
    FreeTypeFontPreviewRenderer.paintCalls (FontShaping.ofGlyphs []).getBaseLineOffset
      (FontShaping.ofGlyphs []).getGlyphs 0 = [] ∧
    ∃ canvas,
      FreeTypeFontPreviewRenderer.renderText (FontShaping.ofGlyphs []) background pen
        = some canvas ∧
      canvas.width = 0 ∧ canvas.height = 0 ∧
      ∀ a b : Int, ¬canvas.valid a b ∧ canvas.pixels a b = background.rgb := by
  have hh : (FontShaping.ofGlyphs []).boundingBox.height = 0 := by
    show (0 : ℚ) + 0 = 0
    norm_num
  refine ⟨rfl, rfl, rfl, rfl, hh, rfl, (QImage.ctor 0 0).fill background, ?_, rfl, rfl, ?_⟩
  · unfold FreeTypeFontPreviewRenderer.renderText
    have hw : (FontShaping.ofGlyphs []).getBoundingBox.width = ((0 : Int) : ℚ) := by
      show (0 : ℚ) = ((0 : Int) : ℚ)
      norm_num
    have hh2 : (FontShaping.ofGlyphs []).getBoundingBox.height = ((0 : Int) : ℚ) := by
      show (FontShaping.ofGlyphs []).boundingBox.height = ((0 : Int) : ℚ)
      rw [hh]
      norm_num
    simp only [hw, hh2, ceill_intCast]
    rfl
  · intro a b
    refine ⟨?_, rfl⟩
    intro hv
    have h1 := hv.1
    have h2 := hv.2.1
    have hz : ((QImage.ctor 0 0).fill background).width = 0 := rfl
    rw [hz] at h2
    omega

/-! ## Runs of Mono glyphs -/

theorem setPixel_pixels (c : QImage) (p q : Int) (v : QRgb) (a b : Int) :
    (c.setPixel p q v).pixels a b = v ∨ (c.setPixel p q v).pixels a b = c.pixels a b := by
  unfold QImage.setPixel
  split
  · show (if a = p ∧ b = q then v else c.pixels a b) = v
      ∨ (if a = p ∧ b = q then v else c.pixels a b) = c.pixels a b
    split
    · exact Or.inl rfl
    · exact Or.inr rfl
  · exact Or.inr rfl

theorem mono_paintPixel_pen (g : MonochromeGlyph) (x y : Int) (pen : QColor)
    (gy gx : Nat) (c c2 : QImage) (h : g.paintPixel x y pen gy gx c = some c2) :
    c2 = c ∨ c2 = c.setPixel (gx + x) (gy + y) pen.rgb := by
  unfold MonochromeGlyph.paintPixel at h
  obtain ⟨bit, _, hbit⟩ := Option.map_eq_some'.mp h
  by_cases hb : bit ≠ 0
  · rw [if_pos hb] at hbit
    exact Or.inr hbit.symm
  · rw [if_neg hb] at hbit
    exact Or.inl hbit.symm

theorem mono_paint_keeps_colours (g : MonochromeGlyph) (x y : Int) (pen : QColor)
    (C : QRgb → Prop) (hpen : C pen.rgb) (canvas canvas2 : QImage)
    (h : g.paint canvas x y pen = some canvas2) (hc : ∀ a b, C (canvas.pixels a b)) :
    ∀ a b, C (canvas2.pixels a b) := by
  refine forLoop_preserves (fun c : QImage => ∀ a b, C (c.pixels a b)) g.height _ ?_
    canvas canvas2 hc h
  intro gy _ s s2 hs hrow
  refine forLoop_preserves (fun c : QImage => ∀ a b, C (c.pixels a b)) g.width _ ?_
    s s2 hs hrow
  intro gx _ t t2 ht hstep a b
  rcases mono_paintPixel_pen g x y pen gy gx t t2 hstep with h1 | h1
  · rw [h1]
    exact ht a b
  · rw [h1]
    rcases setPixel_pixels t (gx + x) (gy + y) pen.rgb a b with h2 | h2
    · rw [h2]
      exact hpen
    · rw [h2]
      exact ht a b

theorem mono_calls_keep_colours (pen : QColor) (C : QRgb → Prop) (hpen : C pen.rgb)
    (calls : List PaintCall)
    (hmono : ∀ call ∈ calls, ∃ m, call.glyph.pixelData = some (PixelData.monochrome m)) :
    ∀ canvas canvas2 : QImage, calls.foldlM (PaintCall.run pen) canvas = some canvas2 →
      (∀ a b, C (canvas.pixels a b)) → ∀ a b, C (canvas2.pixels a b) := by
  induction calls with
  | nil =>
    intro canvas canvas2 h hc
    have heq : canvas = canvas2 := Option.some.inj h
    rw [← heq]
    exact hc
  | cons call rest ih =>
    intro canvas canvas2 h hc
    rw [List.foldlM_cons] at h
    obtain ⟨c1, h1, h2⟩ := Option.bind_eq_some.mp h
    obtain ⟨m, hm⟩ := hmono call (List.mem_cons_self call rest)
    have hpaint : m.paint canvas call.x call.y pen = some c1 := by
      unfold PaintCall.run GlyphData.paint at h1
      rw [hm] at h1
      exact h1
    exact ih (fun c hcm => hmono c (List.mem_cons_of_mem call hcm)) c1 canvas2 h2
      (mono_paint_keeps_colours m call.x call.y pen C hpen canvas c1 hpaint hc)

/-- C21: for every run whose glyphs are all Mono bitmaps, every background and every pen
colour: whenever `renderText` completes, every pixel of the returned canvas is either the
background colour or the pen colour; and `renderText` does complete when every bitmap is
readable. -/
theorem renderText_mono_two_colours (glyphs : List GlyphData) (background pen : QColor)
    (hmono : ∀ g ∈ glyphs, ∃ m, g.pixelData = some (PixelData.monochrome m)) :
    (∀ canvas,
      FreeTypeFontPreviewRenderer.renderText (FontShaping.ofGlyphs glyphs) background pen
        = some canvas →
      ∀ a b : Int, canvas.pixels a b = background.rgb ∨ canvas.pixels a b = pen.rgb) ∧
    ((∀ g ∈ glyphs, g.Readable) →
      ∃ canvas,
        FreeTypeFontPreviewRenderer.renderText (FontShaping.ofGlyphs glyphs) background pen
          = some canvas) := by
  have hrun : FreeTypeFontPreviewRenderer.renderText (FontShaping.ofGlyphs glyphs) background pen
      = (FreeTypeFontPreviewRenderer.paintCalls
            (FontShaping.ofGlyphs glyphs).getBaseLineOffset glyphs 0).foldlM
          (PaintCall.run pen)
          ((QImage.ctor (ceill (FontShaping.ofGlyphs glyphs).boundingBox.width)
            (ceill (FontShaping.ofGlyphs glyphs).boundingBox.height)).fill background) :=
    paintGlyphs_eq_foldlM _ pen glyphs _ 0
  constructor
  · intro canvas hcanvas
    rw [hrun] at hcanvas
    exact mono_calls_keep_colours pen
      (fun v => v = background.rgb ∨ v = pen.rgb) (Or.inr rfl) _
      (fun call hc => hmono call.glyph (paintCalls_glyph_mem _ glyphs 0 call hc))
      _ canvas hcanvas (fun _ _ => Or.inl rfl)
  · intro hr
    rw [hrun]
    exact paintCalls_isSome pen _
      (fun call hc => hr call.glyph (paintCalls_glyph_mem _ glyphs 0 call hc)) _

/-- C21 on the scenario of the specification: one Mono glyph of 3 x 2 pixels (rows `010`
and `101`, one byte per row), advanceX 4 and bearingTop 2, painted with a black pen on a
white background: the canvas has only pure black and pure white pixels. -/
theorem renderText_mono_two_colours_witness :
    ∃ canvas,
      FreeTypeFontPreviewRenderer.renderText
          (FontShaping.ofGlyphs
            [⟨0, 0, 4, 0, 0, 2, some (PixelData.monochrome ⟨⟨1, 1, 3, 2⟩, [64, 160]⟩)⟩])
          ⟨255, 255, 255⟩ ⟨0, 0, 0⟩ = some canvas ∧
      ∀ a b : Int, canvas.pixels a b = ⟨255, 255, 255⟩ ∨ canvas.pixels a b = ⟨0, 0, 0⟩ := by
  have hmono : ∀ g ∈ ([⟨0, 0, 4, 0, 0, 2,
        some (PixelData.monochrome ⟨⟨1, 1, 3, 2⟩, [64, 160]⟩)⟩] : List GlyphData),
      ∃ m, g.pixelData = some (PixelData.monochrome m) := by
    intro g hg
    rw [List.mem_singleton.mp hg]
    exact ⟨_, rfl⟩
  have hthm := renderText_mono_two_colours
    [⟨0, 0, 4, 0, 0, 2, some (PixelData.monochrome ⟨⟨1, 1, 3, 2⟩, [64, 160]⟩)⟩]
    ⟨255, 255, 255⟩ ⟨0, 0, 0⟩ hmono
  obtain ⟨canvas, hcanvas⟩ := hthm.2 (by
    intro g hg p hp
    rw [List.mem_singleton.mp hg] at hp
    have hp2 : PixelData.monochrome ⟨⟨1, 1, 3, 2⟩, [64, 160]⟩ = p := Option.some.inj hp
    rw [← hp2]
    exact ⟨by decide, by decide⟩)
  exact ⟨canvas, hcanvas, hthm.1 canvas hcanvas⟩

/-! ## Construction of the glyph bitmaps -/

theorem MonochromeGlyph_ctor_eq_some (bitmap : FT_Bitmap) (g : MonochromeGlyph)
    (h : MonochromeGlyph.ctor bitmap = some g) :
    MonochromeGlyph.copySize bitmap ≤ bitmap.buffer.length ∧
    g = { toRasteredGlyph := RasteredGlyph.ctor bitmap bitmap.width bitmap.rows
          bitmap := bitmap.buffer.take (MonochromeGlyph.copySize bitmap) } := by
  unfold MonochromeGlyph.ctor at h
  by_cases hsize : MonochromeGlyph.copySize bitmap ≤ bitmap.buffer.length
  · have hsize2 : (RasteredGlyph.ctor bitmap bitmap.width bitmap.rows).height
          * (RasteredGlyph.ctor bitmap bitmap.width bitmap.rows).rowLength % 2 ^ 32
        ≤ bitmap.buffer.length := hsize
    simp only [hsize2, if_true] at h
    exact ⟨hsize, (Option.some.inj h).symm⟩
  · have hsize2 : ¬((RasteredGlyph.ctor bitmap bitmap.width bitmap.rows).height
          * (RasteredGlyph.ctor bitmap bitmap.width bitmap.rows).rowLength % 2 ^ 32
        ≤ bitmap.buffer.length) := hsize
    simp only [hsize2, if_false] at h
    exact absurd h (by simp)

theorem MonochromeGlyph_ctor_isSome (bitmap : FT_Bitmap)
    (h : MonochromeGlyph.copySize bitmap ≤ bitmap.buffer.length) :
    MonochromeGlyph.ctor bitmap
      = some { toRasteredGlyph := RasteredGlyph.ctor bitmap bitmap.width bitmap.rows
               bitmap := bitmap.buffer.take (MonochromeGlyph.copySize bitmap) } := by
  unfold MonochromeGlyph.ctor
  have hsize2 : (RasteredGlyph.ctor bitmap bitmap.width bitmap.rows).height
        * (RasteredGlyph.ctor bitmap bitmap.width bitmap.rows).rowLength % 2 ^ 32
      ≤ bitmap.buffer.length := h
  simp only [hsize2, if_true]
  rfl

theorem ByteDataGlyph_ctor_eq_some (bitmap : FT_Bitmap) (bytesPerPixel width height : Nat)
    (g : ByteDataGlyph) (h : ByteDataGlyph.ctor bitmap bytesPerPixel width height = some g) :
    ByteDataGlyph.copySize bitmap bytesPerPixel height < 2 ^ 31 ∧
    ByteDataGlyph.copySize bitmap bytesPerPixel height ≤ bitmap.buffer.length ∧
    g = { toRasteredGlyph := RasteredGlyph.ctor bitmap width height
          bytemap := bitmap.buffer.take (ByteDataGlyph.copySize bitmap bytesPerPixel height) } := by
  unfold ByteDataGlyph.ctor at h
  by_cases hsize : ByteDataGlyph.copySize bitmap bytesPerPixel height < 2 ^ 31
      ∧ ByteDataGlyph.copySize bitmap bytesPerPixel height ≤ bitmap.buffer.length
  · have hsize2 : height * (RasteredGlyph.ctor bitmap width height).rowLength * bytesPerPixel
          % 2 ^ 32 < 2 ^ 31
        ∧ height * (RasteredGlyph.ctor bitmap width height).rowLength * bytesPerPixel % 2 ^ 32
          ≤ bitmap.buffer.length := hsize
    simp only [hsize2, and_self, if_true] at h
    exact ⟨hsize.1, hsize.2, (Option.some.inj h).symm⟩
  · have hsize2 : ¬(height * (RasteredGlyph.ctor bitmap width height).rowLength * bytesPerPixel
          % 2 ^ 32 < 2 ^ 31
        ∧ height * (RasteredGlyph.ctor bitmap width height).rowLength * bytesPerPixel % 2 ^ 32
          ≤ bitmap.buffer.length) := hsize
    rw [if_neg hsize2] at h
    exact absurd h (by simp)

theorem ByteDataGlyph_ctor_isSome (bitmap : FT_Bitmap) (bytesPerPixel width height : Nat)
    (h1 : ByteDataGlyph.copySize bitmap bytesPerPixel height < 2 ^ 31)
    (h2 : ByteDataGlyph.copySize bitmap bytesPerPixel height ≤ bitmap.buffer.length) :
    ByteDataGlyph.ctor bitmap bytesPerPixel width height
      = some { toRasteredGlyph := RasteredGlyph.ctor bitmap width height
               bytemap := bitmap.buffer.take
                 (ByteDataGlyph.copySize bitmap bytesPerPixel height) } := by
  unfold ByteDataGlyph.ctor
  have hsize2 : height * (RasteredGlyph.ctor bitmap width height).rowLength * bytesPerPixel
        % 2 ^ 32 < 2 ^ 31
      ∧ height * (RasteredGlyph.ctor bitmap width height).rowLength * bytesPerPixel % 2 ^ 32
        ≤ bitmap.buffer.length := ⟨h1, h2⟩
  rw [if_pos hsize2]
  rfl

theorem AbstractSubPixelGlyph_ctor_eq_some (bitmap : FT_Bitmap)
    (bytesPerPixel width height : Nat) (reversed : Bool) (g : AbstractSubPixelGlyph)
    (h : AbstractSubPixelGlyph.ctor bitmap bytesPerPixel width height reversed = some g) :
    ByteDataGlyph.copySize bitmap bytesPerPixel height < 2 ^ 31 ∧
    ByteDataGlyph.copySize bitmap bytesPerPixel height ≤ bitmap.buffer.length ∧
    g = { toRasteredGlyph := RasteredGlyph.ctor bitmap width height
          bytemap := bitmap.buffer.take (ByteDataGlyph.copySize bitmap bytesPerPixel height)
          reverse := reversed } := by
  unfold AbstractSubPixelGlyph.ctor at h
  obtain ⟨base, hbase, hg⟩ := Option.map_eq_some'.mp h
  obtain ⟨h1, h2, h3⟩ := ByteDataGlyph_ctor_eq_some bitmap bytesPerPixel width height base hbase
  refine ⟨h1, h2, ?_⟩
  rw [← hg, h3]

theorem AbstractSubPixelGlyph_ctor_isSome (bitmap : FT_Bitmap)
    (bytesPerPixel width height : Nat) (reversed : Bool)
    (h1 : ByteDataGlyph.copySize bitmap bytesPerPixel height < 2 ^ 31)
    (h2 : ByteDataGlyph.copySize bitmap bytesPerPixel height ≤ bitmap.buffer.length) :
    AbstractSubPixelGlyph.ctor bitmap bytesPerPixel width height reversed
      = some { toRasteredGlyph := RasteredGlyph.ctor bitmap width height
               bytemap := bitmap.buffer.take
                 (ByteDataGlyph.copySize bitmap bytesPerPixel height)
               reverse := reversed } := by
  unfold AbstractSubPixelGlyph.ctor
  rw [ByteDataGlyph_ctor_isSome bitmap bytesPerPixel width height h1 h2]
  rfl

theorem length_take_of_le (buffer : List Byte) (n : Nat) (h : n ≤ buffer.length) :
    (buffer.take n).length = n := by
  rw [List.length_take]
  exact Nat.min_eq_left h

/-- C24: for every constructed glyph bitmap whose size computation does not wrap around
`2 ^ 32`, the row length is `|pitch|` and the owned buffer has exactly
`height * |pitch| * max(1, bytesPerPixelComponent)` bytes, `height` being the logical
height and the component count 0 for Mono, 1 for Gray and 3 for SubpixelH and
SubpixelV. -/
theorem owned_buffer_length (bitmap : FT_Bitmap) (reversed : Bool) :
    (∀ g, MonochromeGlyph.ctor bitmap = some g → g.height * g.rowLength * max 1 0 < 2 ^ 32 →
      g.rowLength = g.pitch.natAbs ∧
      g.bitmap.length = g.height * g.pitch.natAbs * max 1 0) ∧
    (∀ g, GrayScaleGlyph.ctor bitmap = some g → g.height * g.rowLength * max 1 1 < 2 ^ 32 →
      g.rowLength = g.pitch.natAbs ∧
      g.bytemap.length = g.height * g.pitch.natAbs * max 1 1) ∧
    (∀ g, SubPixelGlyph.ctor bitmap reversed = some g →
      g.height * g.rowLength * max 1 3 < 2 ^ 32 →
      g.rowLength = g.pitch.natAbs ∧
      g.bytemap.length = g.height * g.pitch.natAbs * max 1 3) ∧
    (∀ g, VerticalSubPixelGlyph.ctor bitmap reversed = some g →
      g.height * g.rowLength * max 1 3 < 2 ^ 32 →
      g.rowLength = g.pitch.natAbs ∧
      g.bytemap.length = g.height * g.pitch.natAbs * max 1 3) := by
  refine ⟨?_, ?_, ?_, ?_⟩
  · intro g hg hwrap
    obtain ⟨hsize, hval⟩ := MonochromeGlyph_ctor_eq_some bitmap g hg
    subst hval
    refine ⟨rfl, ?_⟩
    show (bitmap.buffer.take (MonochromeGlyph.copySize bitmap)).length
      = bitmap.rows * bitmap.pitch.natAbs * max 1 0
    have hw : bitmap.rows * bitmap.pitch.natAbs * max 1 0 < 2 ^ 32 := hwrap
    rw [length_take_of_le _ _ hsize]
    unfold MonochromeGlyph.copySize
    simp only [Nat.max_def] at hw ⊢
    simp only [Nat.mul_one, Nat.le_zero_eq, Nat.succ_ne_zero, if_false] at hw ⊢
    exact Nat.mod_eq_of_lt hw
  · intro g hg hwrap
    obtain ⟨_, hsize, hval⟩ := ByteDataGlyph_ctor_eq_some bitmap 1 bitmap.width bitmap.rows g hg
    subst hval
    refine ⟨rfl, ?_⟩
    show (bitmap.buffer.take (ByteDataGlyph.copySize bitmap 1 bitmap.rows)).length
      = bitmap.rows * bitmap.pitch.natAbs * max 1 1
    have hw : bitmap.rows * bitmap.pitch.natAbs * max 1 1 < 2 ^ 32 := hwrap
    rw [length_take_of_le _ _ hsize]
    unfold ByteDataGlyph.copySize
    rw [Nat.max_self] at hw ⊢
    exact Nat.mod_eq_of_lt hw
  · intro g hg hwrap
    obtain ⟨_, hsize, hval⟩ := AbstractSubPixelGlyph_ctor_eq_some bitmap 3 (bitmap.width / 3)
      bitmap.rows reversed g hg
    subst hval
    refine ⟨rfl, ?_⟩
    show (bitmap.buffer.take (ByteDataGlyph.copySize bitmap 3 bitmap.rows)).length
      = bitmap.rows * bitmap.pitch.natAbs * max 1 3
    have hw : bitmap.rows * bitmap.pitch.natAbs * max 1 3 < 2 ^ 32 := hwrap
    rw [length_take_of_le _ _ hsize]
    unfold ByteDataGlyph.copySize
    have hmax : max 1 3 = 3 := by decide
    rw [hmax] at hw ⊢
    exact Nat.mod_eq_of_lt hw
  · intro g hg hwrap
    obtain ⟨_, hsize, hval⟩ := AbstractSubPixelGlyph_ctor_eq_some bitmap 3 bitmap.width
      (bitmap.rows / 3) reversed g hg
    subst hval
    refine ⟨rfl, ?_⟩
    show (bitmap.buffer.take (ByteDataGlyph.copySize bitmap 3 (bitmap.rows / 3))).length
      = bitmap.rows / 3 * bitmap.pitch.natAbs * max 1 3
    have hw : bitmap.rows / 3 * bitmap.pitch.natAbs * max 1 3 < 2 ^ 32 := hwrap
    rw [length_take_of_le _ _ hsize]
    unfold ByteDataGlyph.copySize
    have hmax : max 1 3 = 3 := by decide
    rw [hmax] at hw ⊢
    exact Nat.mod_eq_of_lt hw

/-- C24 on a Mono bitmap of 2 rows with pitch 2 and on an LCD_V bitmap of 6 rows with
pitch 2: the owned buffers have 2 * 2 * 1 and (6 / 3) * 2 * 3 bytes. -/
theorem owned_buffer_length_witness :
    (∃ g, MonochromeGlyph.ctor ⟨2, 3, 2, [64, 0, 160, 0], FT_Pixel_Mode.MONO⟩ = some g ∧
      g.bitmap.length = 2 * 2 * 1) ∧
    (∃ g, VerticalSubPixelGlyph.ctor ⟨6, 2, 2, List.replicate 12 255, FT_Pixel_Mode.LCD_V⟩ false
        = some g ∧ g.bytemap.length = 2 * 2 * 3) := by
  constructor
  · have hctor : MonochromeGlyph.ctor ⟨2, 3, 2, [64, 0, 160, 0], FT_Pixel_Mode.MONO⟩
        = some ⟨⟨2, 2, 3, 2⟩, [64, 0, 160, 0]⟩ := by decide
    exact ⟨_, hctor, ((owned_buffer_length ⟨2, 3, 2, [64, 0, 160, 0], FT_Pixel_Mode.MONO⟩
      false).1 _ hctor (by decide)).2⟩
  · have hctor : VerticalSubPixelGlyph.ctor
          ⟨6, 2, 2, List.replicate 12 255, FT_Pixel_Mode.LCD_V⟩ false
        = some ⟨⟨⟨2, 2, 2, 2⟩, List.replicate 12 255⟩, false⟩ := by decide
    exact ⟨_, hctor, ((owned_buffer_length
      ⟨6, 2, 2, List.replicate 12 255, FT_Pixel_Mode.LCD_V⟩ false).2.2.2 _ hctor
      (by decide)).2⟩

/-- C29: for a rasterizer bitmap with positive stride at least the physical row byte
count (`ceil(rawWidth / 8)` for Mono, `rawWidth` for the byte formats) and a size
computation that does not wrap around `2 ^ 32`, every index that paint reads in the
constructed glyph, for `(row, col)` in `[0, height) x [0, width)` and sub-offset 0, 1 or 2,
is at least 0 and below the length of the owned buffer. -/
theorem paint_reads_inside_owned_buffer (bitmap : FT_Bitmap) (reversed : Bool)
    (hpitch : 0 < bitmap.pitch) :
    (∀ g, MonochromeGlyph.ctor bitmap = some g → (bitmap.width + 7) / 8 ≤ bitmap.pitch.natAbs →
      bitmap.rows * bitmap.pitch.natAbs < 2 ^ 32 →
      ∀ x y : Nat, x < g.width → y < g.height →
        (y * g.pitch.natAbs + x / 8) % 2 ^ 32 < g.bitmap.length ∧
        (MonochromeGlyph.pixelAt x y g.pitch g.bitmap).isSome = true) ∧
    (∀ g, GrayScaleGlyph.ctor bitmap = some g → (bitmap.width : Int) ≤ bitmap.pitch →
      bitmap.rows * bitmap.pitch.natAbs * 1 < 2 ^ 32 →
      ∀ row col : Nat, row < g.height → col < g.width →
        0 ≤ GrayScaleGlyph.index g row col ∧
        GrayScaleGlyph.index g row col < g.bytemap.length) ∧
    (∀ g, SubPixelGlyph.ctor bitmap reversed = some g → (bitmap.width : Int) ≤ bitmap.pitch →
      bitmap.rows * bitmap.pitch.natAbs * 3 < 2 ^ 32 →
      ∀ (row col : Nat) (k : Int), row < g.height → col < g.width → 0 ≤ k → k ≤ 2 →
        0 ≤ SubPixelGlyph.index g row col k ∧
        SubPixelGlyph.index g row col k < g.bytemap.length) ∧
    (∀ g, VerticalSubPixelGlyph.ctor bitmap reversed = some g →
      (bitmap.width : Int) ≤ bitmap.pitch →
      bitmap.rows / 3 * bitmap.pitch.natAbs * 3 < 2 ^ 32 →
      ∀ (row col : Nat) (k : Int), row < g.height → col < g.width → 0 ≤ k → k ≤ 2 →
        0 ≤ VerticalSubPixelGlyph.index g row col k ∧
        VerticalSubPixelGlyph.index g row col k < g.bytemap.length) := by
  have habs : ((bitmap.pitch.natAbs : Nat) : Int) = bitmap.pitch :=
    Int.natAbs_of_nonneg (le_of_lt hpitch)
  refine ⟨?_, ?_, ?_, ?_⟩
  · intro g hg hwidth hwrap x y hx hy
    obtain ⟨hsize, hval⟩ := MonochromeGlyph_ctor_eq_some bitmap g hg
    subst hval
    have hlen : (bitmap.buffer.take (MonochromeGlyph.copySize bitmap)).length
        = bitmap.rows * bitmap.pitch.natAbs := by
      rw [length_take_of_le _ _ hsize]
      exact Nat.mod_eq_of_lt hwrap
    have hx2 : x < bitmap.width := hx
    have hy2 : y < bitmap.rows := hy
    have h2 : (y + 1) * bitmap.pitch.natAbs ≤ bitmap.rows * bitmap.pitch.natAbs :=
      Nat.mul_le_mul_right _ (by omega)
    have h3 : (y + 1) * bitmap.pitch.natAbs
        = y * bitmap.pitch.natAbs + bitmap.pitch.natAbs := by ring
    have h4 : (y * bitmap.pitch.natAbs + x / 8) % 2 ^ 32 ≤ y * bitmap.pitch.natAbs + x / 8 :=
      Nat.mod_le _ _
    have hidx : (y * bitmap.pitch.natAbs + x / 8) % 2 ^ 32
        < (bitmap.buffer.take (MonochromeGlyph.copySize bitmap)).length := by
      rw [hlen]
      omega
    refine ⟨hidx, ?_⟩
    obtain ⟨v, hv⟩ := byteAt_isSome (bitmap.buffer.take (MonochromeGlyph.copySize bitmap))
      (((y * bitmap.pitch.natAbs + x / 8) % 2 ^ 32 : Nat) : Int) (by omega) (by omega)
    show (MonochromeGlyph.pixelAt x y bitmap.pitch
      (bitmap.buffer.take (MonochromeGlyph.copySize bitmap))).isSome = true
    unfold MonochromeGlyph.pixelAt
    simp only [hv, Option.map_some', Option.isSome_some]
  · intro g hg hwidth hwrap row col hrow hcol
    obtain ⟨_, hsize, hval⟩ := ByteDataGlyph_ctor_eq_some bitmap 1 bitmap.width bitmap.rows g hg
    subst hval
    have hlen : (bitmap.buffer.take (ByteDataGlyph.copySize bitmap 1 bitmap.rows)).length
        = bitmap.rows * bitmap.pitch.natAbs * 1 := by
      rw [length_take_of_le _ _ hsize]
      exact Nat.mod_eq_of_lt hwrap
    apply gray_index_inside _ hpitch hwidth _ row col hrow hcol
    show (bitmap.rows : Int) * bitmap.pitch
      ≤ ((bitmap.buffer.take (ByteDataGlyph.copySize bitmap 1 bitmap.rows)).length : Int)
    rw [hlen]
    push_cast
    rw [abs_of_pos hpitch]
    omega
  · intro g hg hwidth hwrap row col k hrow hcol hk0 hk2
    obtain ⟨_, hsize, hval⟩ := AbstractSubPixelGlyph_ctor_eq_some bitmap 3 (bitmap.width / 3)
      bitmap.rows reversed g hg
    subst hval
    have hlen : ((bitmap.buffer.take (ByteDataGlyph.copySize bitmap 3 bitmap.rows)).length : Int)
        = (bitmap.rows : Int) * bitmap.pitch * 3 := by
      rw [length_take_of_le _ _ hsize]
      unfold ByteDataGlyph.copySize
      rw [Nat.mod_eq_of_lt hwrap]
      push_cast
      rw [abs_of_pos hpitch]
    have hrow2 : row < bitmap.rows := hrow
    have hcol2 : col < bitmap.width / 3 := hcol
    have h1 : (0 : Int) ≤ (row : Int) * bitmap.pitch := by positivity
    have h2 : ((row : Int) + 1) * bitmap.pitch ≤ (bitmap.rows : Int) * bitmap.pitch :=
      Int.mul_le_mul_of_nonneg_right (by omega) (by omega)
    have h3 : ((row : Int) + 1) * bitmap.pitch = (row : Int) * bitmap.pitch + bitmap.pitch := by
      ring
    have h4 : (0 : Int) ≤ (bitmap.rows : Int) * bitmap.pitch := by positivity
    show 0 ≤ (row : Int) * bitmap.pitch + 3 * (col : Int) + k
      ∧ (row : Int) * bitmap.pitch + 3 * (col : Int) + k
        < ((bitmap.buffer.take (ByteDataGlyph.copySize bitmap 3 bitmap.rows)).length : Int)
    rw [hlen]
    constructor <;> omega
  · intro g hg hwidth hwrap row col k hrow hcol hk0 hk2
    obtain ⟨_, hsize, hval⟩ := AbstractSubPixelGlyph_ctor_eq_some bitmap 3 bitmap.width
      (bitmap.rows / 3) reversed g hg
    subst hval
    have hlen : ((bitmap.buffer.take
          (ByteDataGlyph.copySize bitmap 3 (bitmap.rows / 3))).length : Int)
        = ((bitmap.rows / 3 : Nat) : Int) * bitmap.pitch * 3 := by
      rw [length_take_of_le _ _ hsize]
      unfold ByteDataGlyph.copySize
      rw [Nat.mod_eq_of_lt hwrap]
      push_cast
      rw [abs_of_pos hpitch]
    have hrow2 : row < bitmap.rows / 3 := hrow
    have hcol2 : col < bitmap.width := hcol
    have h1 : (0 : Int) ≤ (3 * (row : Int) + k) * bitmap.pitch :=
      Int.mul_nonneg (by omega) (by omega)
    have h2 : (3 * (row : Int) + k + 1) * bitmap.pitch
        ≤ (3 * ((bitmap.rows / 3 : Nat) : Int)) * bitmap.pitch :=
      Int.mul_le_mul_of_nonneg_right (by omega) (by omega)
    have h3 : (3 * (row : Int) + k + 1) * bitmap.pitch
        = (3 * (row : Int) + k) * bitmap.pitch + bitmap.pitch := by ring
    have h5 : (3 * ((bitmap.rows / 3 : Nat) : Int)) * bitmap.pitch
        = ((bitmap.rows / 3 : Nat) : Int) * bitmap.pitch * 3 := by ring
    show 0 ≤ (3 * (row : Int) + k) * bitmap.pitch + (col : Int)
      ∧ (3 * (row : Int) + k) * bitmap.pitch + (col : Int)
        < ((bitmap.buffer.take
            (ByteDataGlyph.copySize bitmap 3 (bitmap.rows / 3))).length : Int)
    rw [hlen]
    constructor <;> omega

/-- C29 on a Gray bitmap of 2 rows and 2 columns with pitch 3: the last pixel (row 1,
column 1) is read at index 4 of the 6 owned bytes. -/
theorem paint_reads_inside_owned_buffer_witness :
    ∃ g, GrayScaleGlyph.ctor ⟨2, 2, 3, [10, 20, 0, 30, 40, 0], FT_Pixel_Mode.GRAY⟩ = some g ∧
      GrayScaleGlyph.index g 1 1 = 4 ∧ (0 : Int) ≤ GrayScaleGlyph.index g 1 1 ∧
      GrayScaleGlyph.index g 1 1 < g.bytemap.length := by
  have hctor : GrayScaleGlyph.ctor ⟨2, 2, 3, [10, 20, 0, 30, 40, 0], FT_Pixel_Mode.GRAY⟩
      = some ⟨⟨3, 3, 2, 2⟩, [10, 20, 0, 30, 40, 0]⟩ := by decide
  have h := (paint_reads_inside_owned_buffer
    ⟨2, 2, 3, [10, 20, 0, 30, 40, 0], FT_Pixel_Mode.GRAY⟩ false (by decide)).2.1 _ hctor
    (by decide) (by decide) 1 1 (by decide) (by decide)
  exact ⟨_, hctor, by decide, h.1, h.2⟩

/-- C30, evaluated on the code: `MonochromeGlyph`, `GrayScaleGlyph` and
`VerticalSubPixelGlyph` copy at most `rawHeight * |stride|` bytes, but `SubPixelGlyph`
copies `rawHeight * |stride| * 3`.  For the LCD bitmap of 1 row of 3 samples with stride 3
the constructor copies 9 bytes (seen on a rasterizer buffer that is long enough), and on
the rasterizer's own buffer of 1 * 3 = 3 bytes the copy reads past its end, which has no
result here. -/
theorem constructor_copy_sizes :
    (∀ bitmap : FT_Bitmap,
      MonochromeGlyph.copySize bitmap ≤ bitmap.rows * bitmap.pitch.natAbs) ∧
    (∀ bitmap : FT_Bitmap,
      ByteDataGlyph.copySize bitmap 1 bitmap.rows ≤ bitmap.rows * bitmap.pitch.natAbs) ∧
    (∀ bitmap : FT_Bitmap,
      ByteDataGlyph.copySize bitmap 3 (bitmap.rows / 3) ≤ bitmap.rows * bitmap.pitch.natAbs) ∧
    ByteDataGlyph.copySize ⟨1, 3, 3, [255, 128, 0], FT_Pixel_Mode.LCD⟩ 3 1 = 9 ∧
    (SubPixelGlyph.ctor ⟨1, 3, 3, List.replicate 9 7, FT_Pixel_Mode.LCD⟩ false).map
        (fun g => g.bytemap.length) = some 9 ∧
    SubPixelGlyph.ctor ⟨1, 3, 3, [255, 128, 0], FT_Pixel_Mode.LCD⟩ false = none := by
  refine ⟨?_, ?_, ?_, by decide, by decide, by decide⟩
  · intro bitmap
    exact Nat.mod_le _ _
  · intro bitmap
    unfold ByteDataGlyph.copySize
    rw [Nat.mul_one]
    exact Nat.mod_le _ _
  · intro bitmap
    unfold ByteDataGlyph.copySize
    refine le_trans (Nat.mod_le _ _) ?_
    have h : bitmap.rows / 3 * bitmap.pitch.natAbs * 3
        = (bitmap.rows / 3 * 3) * bitmap.pitch.natAbs := by ring
    rw [h]
    exact Nat.mul_le_mul_right _ (Nat.div_mul_le_self _ _)

/-- C28: whenever `GlyphData` is constructed, its bitmap object is chosen by the pixel
mode of the rasterizer bitmap and holds the logical dimensions: MONO gives a
`MonochromeGlyph` and GRAY a `GrayScaleGlyph` of `(width, rows)`, LCD a `SubPixelGlyph` of
`(width / 3, rows)` and LCD_V a `VerticalSubPixelGlyph` of `(width, rows / 3)`, with
integer division; the construction succeeds when the rasterizer buffer holds the bytes
that the glyph constructor copies. -/
theorem GlyphData_selects_variant_and_dimensions (glyphPos : hb_glyph_position_t)
    (glyphData : FT_GlyphSlotRec) (reversed : Bool) :
    (∀ g, GlyphData.ctor glyphPos glyphData reversed = some g →
      (glyphData.bitmap.pixel_mode = FT_Pixel_Mode.MONO →
        ∃ m, g.pixelData = some (PixelData.monochrome m) ∧
          m.width = glyphData.bitmap.width ∧ m.height = glyphData.bitmap.rows ∧
          g.getWidth = glyphData.bitmap.width ∧ g.getHeight = glyphData.bitmap.rows) ∧
      (glyphData.bitmap.pixel_mode = FT_Pixel_Mode.GRAY →
        ∃ b, g.pixelData = some (PixelData.grayScale b) ∧
          b.width = glyphData.bitmap.width ∧ b.height = glyphData.bitmap.rows ∧
          g.getWidth = glyphData.bitmap.width ∧ g.getHeight = glyphData.bitmap.rows) ∧
      (glyphData.bitmap.pixel_mode = FT_Pixel_Mode.LCD →
        ∃ s, g.pixelData = some (PixelData.subPixel s) ∧
          s.width = glyphData.bitmap.width / 3 ∧ s.height = glyphData.bitmap.rows ∧
          g.getWidth = glyphData.bitmap.width / 3 ∧ g.getHeight = glyphData.bitmap.rows) ∧
      (glyphData.bitmap.pixel_mode = FT_Pixel_Mode.LCD_V →
        ∃ s, g.pixelData = some (PixelData.verticalSubPixel s) ∧
          s.width = glyphData.bitmap.width ∧ s.height = glyphData.bitmap.rows / 3 ∧
          g.getWidth = glyphData.bitmap.width ∧ g.getHeight = glyphData.bitmap.rows / 3)) ∧
    (glyphData.bitmap.pixel_mode = FT_Pixel_Mode.MONO →
      MonochromeGlyph.copySize glyphData.bitmap ≤ glyphData.bitmap.buffer.length →
      ∃ g, GlyphData.ctor glyphPos glyphData reversed = some g) ∧
    (glyphData.bitmap.pixel_mode = FT_Pixel_Mode.GRAY →
      ByteDataGlyph.copySize glyphData.bitmap 1 glyphData.bitmap.rows < 2 ^ 31 →
      ByteDataGlyph.copySize glyphData.bitmap 1 glyphData.bitmap.rows
        ≤ glyphData.bitmap.buffer.length →
      ∃ g, GlyphData.ctor glyphPos glyphData reversed = some g) ∧
    (glyphData.bitmap.pixel_mode = FT_Pixel_Mode.LCD →
      ByteDataGlyph.copySize glyphData.bitmap 3 glyphData.bitmap.rows < 2 ^ 31 →
      ByteDataGlyph.copySize glyphData.bitmap 3 glyphData.bitmap.rows
        ≤ glyphData.bitmap.buffer.length →
      ∃ g, GlyphData.ctor glyphPos glyphData reversed = some g) ∧
    (glyphData.bitmap.pixel_mode = FT_Pixel_Mode.LCD_V →
      ByteDataGlyph.copySize glyphData.bitmap 3 (glyphData.bitmap.rows / 3) < 2 ^ 31 →
      ByteDataGlyph.copySize glyphData.bitmap 3 (glyphData.bitmap.rows / 3)
        ≤ glyphData.bitmap.buffer.length →
      ∃ g, GlyphData.ctor glyphPos glyphData reversed = some g) := by
  refine ⟨?_, ?_, ?_, ?_, ?_⟩
  · intro g hg
    refine ⟨?_, ?_, ?_, ?_⟩
    · intro hmode
      simp only [GlyphData.ctor, hmode] at hg
      obtain ⟨pd, hpd, hgd⟩ := Option.map_eq_some'.mp hg
      obtain ⟨m, hm, hpm⟩ := Option.map_eq_some'.mp hpd
      obtain ⟨_, hval⟩ := MonochromeGlyph_ctor_eq_some _ m hm
      subst hgd
      subst hpm
      subst hval
      exact ⟨_, rfl, rfl, rfl, rfl, rfl⟩
    · intro hmode
      simp only [GlyphData.ctor, hmode] at hg
      obtain ⟨pd, hpd, hgd⟩ := Option.map_eq_some'.mp hg
      obtain ⟨b, hb, hpb⟩ := Option.map_eq_some'.mp hpd
      obtain ⟨_, _, hval⟩ := ByteDataGlyph_ctor_eq_some _ _ _ _ b hb
      subst hgd
      subst hpb
      subst hval
      exact ⟨_, rfl, rfl, rfl, rfl, rfl⟩
    · intro hmode
      simp only [GlyphData.ctor, hmode] at hg
      obtain ⟨pd, hpd, hgd⟩ := Option.map_eq_some'.mp hg
      obtain ⟨s, hs, hps⟩ := Option.map_eq_some'.mp hpd
      obtain ⟨_, _, hval⟩ := AbstractSubPixelGlyph_ctor_eq_some _ _ _ _ _ s hs
      subst hgd
      subst hps
      subst hval
      exact ⟨_, rfl, rfl, rfl, rfl, rfl⟩
    · intro hmode
      simp only [GlyphData.ctor, hmode] at hg
      obtain ⟨pd, hpd, hgd⟩ := Option.map_eq_some'.mp hg
      obtain ⟨s, hs, hps⟩ := Option.map_eq_some'.mp hpd
      obtain ⟨_, _, hval⟩ := AbstractSubPixelGlyph_ctor_eq_some _ _ _ _ _ s hs
      subst hgd
      subst hps
      subst hval
      exact ⟨_, rfl, rfl, rfl, rfl, rfl⟩
  · intro hmode hsize
    simp only [GlyphData.ctor, hmode, MonochromeGlyph_ctor_isSome _ hsize, Option.map_some']
    exact ⟨_, rfl⟩
  · intro hmode h1 h2
    simp only [GlyphData.ctor, hmode, GrayScaleGlyph.ctor,
      ByteDataGlyph_ctor_isSome _ 1 _ _ h1 h2, Option.map_some']
    exact ⟨_, rfl⟩
  · intro hmode h1 h2
    simp only [GlyphData.ctor, hmode, SubPixelGlyph.ctor,
      AbstractSubPixelGlyph_ctor_isSome _ 3 _ _ reversed h1 h2, Option.map_some']
    exact ⟨_, rfl⟩
  · intro hmode h1 h2
    simp only [GlyphData.ctor, hmode, VerticalSubPixelGlyph.ctor,
      AbstractSubPixelGlyph_ctor_isSome _ 3 _ _ reversed h1 h2, Option.map_some']
    exact ⟨_, rfl⟩

/-- C28 on an LCD_V bitmap of 7 rows and 2 columns with pitch 2: the glyph is a
`VerticalSubPixelGlyph` of width 2 and height 7 / 3 = 2. -/
theorem GlyphData_selects_variant_and_dimensions_witness :
    ∃ g s, GlyphData.ctor ⟨640, 0, 0, 0⟩
        ⟨⟨7, 2, 2, List.replicate 14 255, FT_Pixel_Mode.LCD_V⟩, 1, 2⟩ false = some g ∧
      g.pixelData = some (PixelData.verticalSubPixel s) ∧ g.getWidth = 2 ∧ g.getHeight = 2 := by
  have hthm := GlyphData_selects_variant_and_dimensions ⟨640, 0, 0, 0⟩
    ⟨⟨7, 2, 2, List.replicate 14 255, FT_Pixel_Mode.LCD_V⟩, 1, 2⟩ false
  obtain ⟨g, hg⟩ := hthm.2.2.2.2 rfl (by decide) (by decide)
  obtain ⟨s, hs, _, _, hw, hh⟩ := (hthm.1 g hg).2.2.2 rfl
  exact ⟨g, s, hg, hs, hw, hh⟩

/-! ## Addressing of Mono bitmaps -/

theorem byteAt_natCast (buffer : List Byte) (n : Nat) : byteAt buffer (n : Int) = buffer[n]? := by
  unfold byteAt
  rw [if_neg (by omega), Int.toNat_ofNat]

/-- C25 as stated fails: FreeType renders a Mono bitmap of width 3 with stride 2.  In the
bitmap of 2 rows with buffer 0, 0, 128, 0 the pixel (0, 1) is covered, `pixelAt` reads
byte `1 * 2 + 0 = 2`; the byte at index `1 * ceil(3 / 8) + 0 = 1` of the claim is 0. -/
theorem pixelAt_row_length_counterexample :
    MonochromeGlyph.pixelAt 0 1 2 [0, 0, 128, 0] ≠ specPixelAt 3 [0, 0, 128, 0] 0 1 ∧
    MonochromeGlyph.pixelAt 0 1 2 [0, 0, 128, 0] = some 1 ∧
    specPixelAt 3 [0, 0, 128, 0] 0 1 = some 0 ∧
    (MonochromeGlyph.ctor ⟨2, 3, 2, [0, 0, 128, 0], FT_Pixel_Mode.MONO⟩).bind
        (fun g => MonochromeGlyph.pixelAt 0 1 g.pitch g.bitmap) = some 1 ∧
    (MonochromeGlyph.ctor ⟨2, 3, 2, [0, 0, 128, 0], FT_Pixel_Mode.MONO⟩).bind
        (fun g => specPixelAt g.width g.bitmap 0 1) = some 0 := by
  refine ⟨by decide, by decide, by decide, by decide, by decide⟩

/-- C25, amended: rows of a Mono bitmap are addressed with a row byte length of `|pitch|`
and bits are most significant bit first: `pixelAt(x, y)` is bit `7 - x mod 8` of the byte
at index `y * |pitch| + floor(x / 8)` (taken modulo `2 ^ 32` as unsigned arithmetic does),
so it is 0 or 1; when `|pitch|` equals `ceil(width / 8)` this is the byte at
`y * ceil(width / 8) + floor(x / 8)`. -/
theorem pixelAt_row_stride_msb_first (x y : Nat) (pitch : Int) (buffer : List Byte) :
    MonochromeGlyph.pixelAt x y pitch buffer
      = (buffer[(y * pitch.natAbs + x / 8) % 2 ^ 32]?).map
          (fun byte => byte.val / 2 ^ (7 - x % 8) % 2) ∧
    (y * pitch.natAbs + x / 8 < 2 ^ 32 →
      MonochromeGlyph.pixelAt x y pitch buffer
        = (buffer[y * pitch.natAbs + x / 8]?).map
            (fun byte => byte.val / 2 ^ (7 - x % 8) % 2)) ∧
    (∀ bit, MonochromeGlyph.pixelAt x y pitch buffer = some bit → bit = 0 ∨ bit = 1) ∧
    (∀ width : Nat, pitch.natAbs = (width + 7) / 8 → y * pitch.natAbs + x / 8 < 2 ^ 32 →
      MonochromeGlyph.pixelAt x y pitch buffer = specPixelAt width buffer x y) := by
  have hmain : MonochromeGlyph.pixelAt x y pitch buffer
      = (buffer[(y * pitch.natAbs + x / 8) % 2 ^ 32]?).map
          (fun byte => byte.val / 2 ^ (7 - x % 8) % 2) := by
    unfold MonochromeGlyph.pixelAt
    simp only [byteAt_natCast, Nat.and_one_is_mod, Nat.shiftRight_eq_div_pow]
  refine ⟨hmain, ?_, ?_, ?_⟩
  · intro hwrap
    rw [hmain, Nat.mod_eq_of_lt hwrap]
  · intro bit hbit
    rw [hmain] at hbit
    obtain ⟨byte, _, hval⟩ := Option.map_eq_some'.mp hbit
    have hlt : byte.val / 2 ^ (7 - x % 8) % 2 < 2 := Nat.mod_lt _ (by decide)
    omega
  · intro width hpitch hwrap
    rw [hmain, Nat.mod_eq_of_lt hwrap, hpitch]
    rfl

/-- C25, amended, on the bitmap of width 3 with stride 2 and buffer 0, 0, 128, 0: pixel
(0, 1) is bit 7 of the byte at index `1 * 2 + 0`, which is 1. -/
theorem pixelAt_row_stride_msb_first_witness :
    MonochromeGlyph.pixelAt 0 1 2 [0, 0, 128, 0]
      = (([0, 0, 128, 0] : List Byte)[1 * 2 + 0 / 8]?).map
          (fun byte => byte.val / 2 ^ (7 - 0 % 8) % 2) :=
  (pixelAt_row_stride_msb_first 0 1 2 [0, 0, 128, 0]).2.1 (by decide)

/-! ## The reversed flag and purity of the parameters -/

theorem mapM_option_mem {α β : Type} (f : α → Option β) (l : List α) :
    ∀ l2 : List β, l.mapM f = some l2 → ∀ b ∈ l2, ∃ a ∈ l, f a = some b := by
  induction l with
  | nil =>
    intro l2 h b hb
    rw [List.mapM_nil] at h
    have hnil : [] = l2 := Option.some.inj h
    rw [← hnil] at hb
    exact absurd hb (List.not_mem_nil b)
  | cons a rest ih =>
    intro l2 h b hb
    rw [List.mapM_cons] at h
    cases hfa : f a with
    | none =>
      rw [hfa] at h
      exact absurd h (by simp)
    | some b0 =>
      cases hrest : rest.mapM f with
      | none =>
        rw [hfa, hrest] at h
        exact absurd h (by simp)
      | some bs =>
        rw [hfa, hrest] at h
        have hl2 : b0 :: bs = l2 := Option.some.inj h
        rw [← hl2] at hb
        rcases List.mem_cons.mp hb with h1 | h1
        · exact ⟨a, List.mem_cons_self a rest, by rw [h1]; exact hfa⟩
        · obtain ⟨a2, ha2, hf2⟩ := ih bs hrest b h1
          exact ⟨a2, List.mem_cons_of_mem a ha2, hf2⟩

theorem GlyphData_ctor_reverse (glyphPos : hb_glyph_position_t) (glyphData : FT_GlyphSlotRec)
    (reversed : Bool) (g : GlyphData) (h : GlyphData.ctor glyphPos glyphData reversed = some g)
    (s : AbstractSubPixelGlyph)
    (hs : g.pixelData = some (PixelData.subPixel s)
      ∨ g.pixelData = some (PixelData.verticalSubPixel s)) :
    s.reverse = reversed := by
  cases hmode : glyphData.bitmap.pixel_mode <;> simp only [GlyphData.ctor, hmode] at h
  case LCD =>
    obtain ⟨pd, hpd, hgd⟩ := Option.map_eq_some'.mp h
    obtain ⟨s2, hs2, hps⟩ := Option.map_eq_some'.mp hpd
    obtain ⟨_, _, hval⟩ := AbstractSubPixelGlyph_ctor_eq_some _ _ _ _ _ s2 hs2
    subst hgd
    subst hps
    subst hval
    rcases hs with h1 | h1
    · have h2 := PixelData.subPixel.inj (Option.some.inj h1)
      rw [← h2]
    · exact absurd (Option.some.inj h1) (by simp)
  case LCD_V =>
    obtain ⟨pd, hpd, hgd⟩ := Option.map_eq_some'.mp h
    obtain ⟨s2, hs2, hps⟩ := Option.map_eq_some'.mp hpd
    obtain ⟨_, _, hval⟩ := AbstractSubPixelGlyph_ctor_eq_some _ _ _ _ _ s2 hs2
    subst hgd
    subst hps
    subst hval
    rcases hs with h1 | h1
    · exact absurd (Option.some.inj h1) (by simp)
    · have h2 := PixelData.verticalSubPixel.inj (Option.some.inj h1)
      rw [← h2]
  case MONO =>
    obtain ⟨pd, hpd, hgd⟩ := Option.map_eq_some'.mp h
    obtain ⟨m, _, hpm⟩ := Option.map_eq_some'.mp hpd
    subst hgd
    subst hpm
    rcases hs with h1 | h1 <;> exact absurd (Option.some.inj h1) (by simp)
  case GRAY =>
    obtain ⟨pd, hpd, hgd⟩ := Option.map_eq_some'.mp h
    obtain ⟨m, _, hpm⟩ := Option.map_eq_some'.mp hpd
    subst hgd
    subst hpm
    rcases hs with h1 | h1 <;> exact absurd (Option.some.inj h1) (by simp)
  all_goals
    obtain ⟨pd, hpd, hgd⟩ := Option.map_eq_some'.mp h
    have hnone : none = pd := Option.some.inj hpd
    subst hgd
    subst hnone
    rcases hs with h1 | h1 <;> exact absurd h1 (by simp)

/-- C26: the reversed flag that `FontShaping` passes to every glyph of a run is
`_subpixel_reverse(options)`: it is true exactly when the sub-pixel order is Bgr or Vbgr
and false for Rgb, Vrgb, None and NotSet; every sub-pixel glyph of a constructed run
carries it. -/
theorem reversed_flag_iff_bgr_or_vbgr (options : KXftConfig) :
    (_subpixel_reverse options = true ↔
      options.subpixelSetting = KXftConfig.SubPixel.Bgr
        ∨ options.subpixelSetting = KXftConfig.SubPixel.Vbgr) ∧
    (options.subpixelSetting = KXftConfig.SubPixel.Rgb
        ∨ options.subpixelSetting = KXftConfig.SubPixel.Vrgb
        ∨ options.subpixelSetting = KXftConfig.SubPixel.None
        ∨ options.subpixelSetting = KXftConfig.SubPixel.NotSet →
      _subpixel_reverse options = false) ∧
    (∀ rasterized : List (hb_glyph_position_t × FT_GlyphSlotRec),
      FontShaping.ctor rasterized options
        = (rasterized.mapM (fun r => GlyphData.ctor r.1 r.2
            (decide (options.subpixelSetting = KXftConfig.SubPixel.Bgr
              ∨ options.subpixelSetting = KXftConfig.SubPixel.Vbgr)))).map
            FontShaping.ofGlyphs) ∧
    (∀ (rasterized : List (hb_glyph_position_t × FT_GlyphSlotRec)) (fontShaping : FontShaping),
      FontShaping.ctor rasterized options = some fontShaping →
      ∀ g ∈ fontShaping.glyphs, ∀ s : AbstractSubPixelGlyph,
        g.pixelData = some (PixelData.subPixel s)
          ∨ g.pixelData = some (PixelData.verticalSubPixel s) →
        (s.reverse = true ↔
          options.subpixelSetting = KXftConfig.SubPixel.Bgr
            ∨ options.subpixelSetting = KXftConfig.SubPixel.Vbgr)) := by
  have hiff : _subpixel_reverse options = true ↔
      options.subpixelSetting = KXftConfig.SubPixel.Bgr
        ∨ options.subpixelSetting = KXftConfig.SubPixel.Vbgr := by
    unfold _subpixel_reverse
    cases options.subpixelSetting <;> decide
  have hdec : _subpixel_reverse options
      = decide (options.subpixelSetting = KXftConfig.SubPixel.Bgr
          ∨ options.subpixelSetting = KXftConfig.SubPixel.Vbgr) := by
    unfold _subpixel_reverse
    cases options.subpixelSetting <;> decide
  refine ⟨hiff, ?_, ?_, ?_⟩
  · intro h
    unfold _subpixel_reverse
    rcases h with h | h | h | h <;> rw [h] <;> decide
  · intro rasterized
    unfold FontShaping.ctor
    rw [hdec]
  · intro rasterized fontShaping hfs g hg s hs
    unfold FontShaping.ctor at hfs
    obtain ⟨glyphs, hglyphs, hof⟩ := Option.map_eq_some'.mp hfs
    have hg2 : g ∈ glyphs := by
      rw [← hof] at hg
      exact hg
    obtain ⟨r, _, hr⟩ := mapM_option_mem _ rasterized glyphs hglyphs g hg2
    rw [GlyphData_ctor_reverse r.1 r.2 _ g hr s hs]
    exact hiff

/-- C26 on a run of one LCD glyph with sub-pixel order Bgr: the glyph carries
`reverse = true`. -/
theorem reversed_flag_iff_bgr_or_vbgr_witness :
    ∃ fontShaping g s,
      FontShaping.ctor
          [(⟨640, 0, 0, 0⟩, ⟨⟨1, 3, 3, List.replicate 9 255, FT_Pixel_Mode.LCD⟩, 0, 1⟩)]
          ⟨KXftConfig.AntiAliasing.Enabled, KXftConfig.Hinting.Enabled, KXftConfig.Hint.Full,
            KXftConfig.SubPixel.Bgr, 96, 96⟩ = some fontShaping ∧
      fontShaping.glyphs = [g] ∧ g.pixelData = some (PixelData.subPixel s) ∧
      s.reverse = true := by
  have hctor : FontShaping.ctor
      [(⟨640, 0, 0, 0⟩, ⟨⟨1, 3, 3, List.replicate 9 255, FT_Pixel_Mode.LCD⟩, 0, 1⟩)]
      ⟨KXftConfig.AntiAliasing.Enabled, KXftConfig.Hinting.Enabled, KXftConfig.Hint.Full,
        KXftConfig.SubPixel.Bgr, 96, 96⟩
      = some (FontShaping.ofGlyphs
          [⟨roundToFloat ((0 : Int) : ℚ) / PIXEL_FRACTION_FACTOR,
            roundToFloat ((0 : Int) : ℚ) / PIXEL_FRACTION_FACTOR,
            roundToFloat ((640 : Int) : ℚ) / PIXEL_FRACTION_FACTOR,
            roundToFloat ((0 : Int) : ℚ) / PIXEL_FRACTION_FACTOR,
            roundToFloat ((0 : Int) : ℚ), roundToFloat ((1 : Int) : ℚ),
            some (PixelData.subPixel ⟨⟨⟨3, 3, 1, 1⟩, List.replicate 9 255⟩, true⟩)⟩]) := rfl
  refine ⟨_, _, _, hctor, rfl, rfl, ?_⟩
  exact ((reversed_flag_iff_bgr_or_vbgr
    ⟨KXftConfig.AntiAliasing.Enabled, KXftConfig.Hinting.Enabled, KXftConfig.Hint.Full,
      KXftConfig.SubPixel.Bgr, 96, 96⟩).2.2.2 _ _ hctor _ (List.mem_singleton.mpr rfl) _
    (Or.inl rfl)).mpr (Or.inl rfl)

theorem ctorOn_eq_ctor (storage : FreeTypeParameters) (options : KXftConfig) :
    FreeTypeParameters.ctorOn storage options = FreeTypeParameters.ctor options := by
  obtain ⟨antialiasing, hinting, hint, subpixel, dpiH, dpiV⟩ := options
  cases antialiasing <;> cases hinting <;> cases hint <;> cases subpixel <;> rfl

/-- C27: the members that the constructor `FreeTypeParameters` leaves behind are a
function of the options alone: run on any two storages (whatever the members held before)
with option values whose fields are equal, it yields equal `loadFlags` and equal
`renderMode`; both members are written by their initialisers before they are read. -/
theorem FreeTypeParameters_depends_on_options_only (storage1 storage2 : FreeTypeParameters)
    (a b : KXftConfig)
    (haa : a.antialiasingSetting = b.antialiasingSetting)
    (hhinting : a.hintingSetting = b.hintingSetting)
    (hhint : a.hintstyleSetting = b.hintstyleSetting)
    (hsub : a.subpixelSetting = b.subpixelSetting)
    (hdpiH : a.dpiH = b.dpiH) (hdpiV : a.dpiV = b.dpiV) :
    (FreeTypeParameters.ctorOn storage1 a).loadFlags
      = (FreeTypeParameters.ctorOn storage2 b).loadFlags ∧
    (FreeTypeParameters.ctorOn storage1 a).renderMode
      = (FreeTypeParameters.ctorOn storage2 b).renderMode ∧
    FreeTypeParameters.ctorOn storage1 a = FreeTypeParameters.ctor a := by
  have hab : a = b := by
    cases a
    cases b
    simp only [KXftConfig.mk.injEq]
    exact ⟨haa, hhinting, hhint, hsub, hdpiH, hdpiV⟩
  rw [ctorOn_eq_ctor storage1 a, ctorOn_eq_ctor storage2 b, hab]
  exact ⟨rfl, rfl, rfl⟩

/-- C27 on two storages with different previous contents (flags 0 and mode NORMAL
against flags 4095 and mode LCD_V) and the same options: the constructed members agree. -/
theorem FreeTypeParameters_depends_on_options_only_witness :
    (FreeTypeParameters.ctorOn ⟨0, FT_Render_Mode.NORMAL⟩
        ⟨KXftConfig.AntiAliasing.Enabled, KXftConfig.Hinting.Enabled, KXftConfig.Hint.Full,
          KXftConfig.SubPixel.Rgb, 96, 96⟩).loadFlags
      = (FreeTypeParameters.ctorOn ⟨4095, FT_Render_Mode.LCD_V⟩
        ⟨KXftConfig.AntiAliasing.Enabled, KXftConfig.Hinting.Enabled, KXftConfig.Hint.Full,
          KXftConfig.SubPixel.Rgb, 96, 96⟩).loadFlags ∧
    (FreeTypeParameters.ctorOn ⟨0, FT_Render_Mode.NORMAL⟩
        ⟨KXftConfig.AntiAliasing.Enabled, KXftConfig.Hinting.Enabled, KXftConfig.Hint.Full,
          KXftConfig.SubPixel.Rgb, 96, 96⟩).renderMode
      = (FreeTypeParameters.ctorOn ⟨4095, FT_Render_Mode.LCD_V⟩
        ⟨KXftConfig.AntiAliasing.Enabled, KXftConfig.Hinting.Enabled, KXftConfig.Hint.Full,
          KXftConfig.SubPixel.Rgb, 96, 96⟩).renderMode :=
  ⟨(FreeTypeParameters_depends_on_options_only _ _ _ _ rfl rfl rfl rfl rfl rfl).1,
    (FreeTypeParameters_depends_on_options_only _ _ _ _ rfl rfl rfl rfl rfl rfl).2.1⟩

/-! ## Glyphs in an unsupported pixel encoding -/

/-- C23 fails in the code: when fontconfig finds no match `retrievePath` returns the empty
path, `getFontFace` returns whatever `FT_New_Face` left in its local even when the error
code is not 0 (here 1, `FT_Err_Cannot_Open_Resource`), and the constructor goes on with
that face: no failure value exists and nothing stops the constructor before shaping. -/
theorem font_load_failure_is_not_reported :
    (∀ (getStringResult : FcResult) (copied : String),
      FontManagement.retrievePath FcResult.FcResultNoMatch getStringResult copied = "") ∧
    (∀ copied : String,
      FontManagement.retrievePath FcResult.FcResultMatch FcResult.FcResultNoId copied = "") ∧
    (∀ (garbage : FT_Face) (path : String),
      FreeTypeLibrary.getFontFace (fun _ => (1, garbage)) path = garbage) ∧
    (∀ (getStringResult : FcResult) (copied : String) (garbage : FT_Face),
      FontShaping.openFace FcResult.FcResultNoMatch getStringResult copied
        (fun _ => (1, garbage)) = ("", garbage)) := by
  refine ⟨fun _ _ => rfl, fun _ => rfl, fun _ _ => rfl, fun _ _ _ => rfl⟩

/-! ## Range of the blended channel -/

theorem blendFormula_between (c background pen : Nat) (hc : c ≤ 255) :
    min background pen ≤ blendFormula c background pen ∧
    blendFormula c background pen ≤ max background pen := by
  unfold blendFormula
  constructor
  · rw [Nat.le_div_iff_mul_le (by decide)]
    have h1 : (255 - c) * min background pen ≤ (255 - c) * background :=
      Nat.mul_le_mul_left _ (min_le_left _ _)
    have h2 : c * min background pen ≤ c * pen := Nat.mul_le_mul_left _ (min_le_right _ _)
    have h3 : (255 - c) * min background pen + c * min background pen
        = min background pen * 255 := by
      rw [← Nat.add_mul, Nat.mul_comm]
      congr 1
      omega
    omega
  · apply Nat.div_le_of_le_mul
    have h1 : (255 - c) * background ≤ (255 - c) * max background pen :=
      Nat.mul_le_mul_left _ (le_max_left _ _)
    have h2 : c * pen ≤ c * max background pen := Nat.mul_le_mul_left _ (le_max_right _ _)
    have h3 : (255 - c) * max background pen + c * max background pen
        = 255 * max background pen := by
      rw [← Nat.add_mul]
      congr 1
      omega
    omega

/-- C33: for every coverage, background and pen channel value in 0..255 the blended
channel `((255 - c) * background + c * pen) / 255` computed by the paint methods lies
between `min(background, pen)` and `max(background, pen)` inclusive, hence in 0..255, and
the byte that `qRgb` stores for it is the value itself. -/
theorem blend_between_background_and_pen (c background pen : Byte) :
    min (background.val : Int) pen.val ≤ blend c.val background.val pen.val ∧
    blend c.val background.val pen.val ≤ max (background.val : Int) pen.val ∧
    0 ≤ blend c.val background.val pen.val ∧
    blend c.val background.val pen.val ≤ 255 ∧
    ((lowByte (blend c.val background.val pen.val)).val : Int)
      = blend c.val background.val pen.val ∧
    blend c.val background.val pen.val
      = (((255 - c.val) * background.val + c.val * pen.val) / 255 : Nat) := by
  have hc : c.val ≤ 255 := by omega
  have hb : background.val ≤ 255 := by omega
  have hp : pen.val ≤ 255 := by omega
  obtain ⟨hmin, hmax⟩ := blendFormula_between c.val background.val pen.val hc
  have hle := blendFormula_le c.val background.val pen.val hc hb hp
  have hlow := lowByte_blend c background pen
  rw [blend_eq_blendFormula _ _ _ hc]
  refine ⟨?_, ?_, ?_, ?_, ?_, rfl⟩
  · have h : ((min background.val pen.val : Nat) : Int) ≤ blendFormula c.val background.val pen.val :=
      Int.ofNat_le.mpr hmin
    rw [Nat.cast_min] at h
    exact h
  · have h : ((blendFormula c.val background.val pen.val : Nat) : Int)
        ≤ ((max background.val pen.val : Nat) : Int) := Int.ofNat_le.mpr hmax
    rw [Nat.cast_max] at h
    exact h
  · exact Int.ofNat_nonneg _
  · exact Int.ofNat_le.mpr hle
  · have hlow2 : (lowByte ((blendFormula c.val background.val pen.val : Nat) : Int)).val
        = blendFormula c.val background.val pen.val := by
      rw [← blend_eq_blendFormula _ _ _ hc]
      exact hlow
    rw [hlow2]

/-! ## What the FreeType parameters depend on -/

/-- C35: the load flags and the render mode do not depend on the dpi fields: two option
values that agree on antialiasing, hinting, hint style and sub-pixel order yield the same
`loadFlags` and the same `renderMode`, whatever their `dpiH` and `dpiV`. -/
theorem FreeTypeParameters_independent_of_dpi (a b : KXftConfig)
    (haa : a.antialiasingSetting = b.antialiasingSetting)
    (hhinting : a.hintingSetting = b.hintingSetting)
    (hhint : a.hintstyleSetting = b.hintstyleSetting)
    (hsub : a.subpixelSetting = b.subpixelSetting) :
    (FreeTypeParameters.ctor a).loadFlags = (FreeTypeParameters.ctor b).loadFlags ∧
    (FreeTypeParameters.ctor a).renderMode = (FreeTypeParameters.ctor b).renderMode := by
  have h : FreeTypeParameters.ctor a = FreeTypeParameters.ctor b := by
    unfold FreeTypeParameters.ctor
    rw [haa, hhinting, hhint, hsub]
  rw [h]
  exact ⟨rfl, rfl⟩

/-- C35 on two option values that differ in both dpi fields (96 x 96 against 300 x 144). -/
theorem FreeTypeParameters_independent_of_dpi_witness :
    (FreeTypeParameters.ctor
        ⟨KXftConfig.AntiAliasing.Enabled, KXftConfig.Hinting.Enabled, KXftConfig.Hint.Full,
          KXftConfig.SubPixel.Rgb, 96, 96⟩).loadFlags
      = (FreeTypeParameters.ctor
        ⟨KXftConfig.AntiAliasing.Enabled, KXftConfig.Hinting.Enabled, KXftConfig.Hint.Full,
          KXftConfig.SubPixel.Rgb, 300, 144⟩).loadFlags ∧
    (FreeTypeParameters.ctor
        ⟨KXftConfig.AntiAliasing.Enabled, KXftConfig.Hinting.Enabled, KXftConfig.Hint.Full,
          KXftConfig.SubPixel.Rgb, 96, 96⟩).renderMode
      = (FreeTypeParameters.ctor
        ⟨KXftConfig.AntiAliasing.Enabled, KXftConfig.Hinting.Enabled, KXftConfig.Hint.Full,
          KXftConfig.SubPixel.Rgb, 300, 144⟩).renderMode :=
  FreeTypeParameters_independent_of_dpi _ _ rfl rfl rfl rfl

/-- C36: an antialiasing setting of NotSet is translated exactly like Enabled: for every
hinting, hint style, sub-pixel order and dpi the constructor yields the same `loadFlags`
and the same `renderMode` for `AntiAliasing::NotSet` as for `AntiAliasing::Enabled`. -/
theorem FreeTypeParameters_notSet_as_enabled (hinting : KXftConfig.Hinting)
    (hint : KXftConfig.Hint) (subpixel : KXftConfig.SubPixel) (dpiH dpiV : Nat) :
    (FreeTypeParameters.ctor
        ⟨KXftConfig.AntiAliasing.NotSet, hinting, hint, subpixel, dpiH, dpiV⟩).loadFlags
      = (FreeTypeParameters.ctor
        ⟨KXftConfig.AntiAliasing.Enabled, hinting, hint, subpixel, dpiH, dpiV⟩).loadFlags ∧
    (FreeTypeParameters.ctor
        ⟨KXftConfig.AntiAliasing.NotSet, hinting, hint, subpixel, dpiH, dpiV⟩).renderMode
      = (FreeTypeParameters.ctor
        ⟨KXftConfig.AntiAliasing.Enabled, hinting, hint, subpixel, dpiH, dpiV⟩).renderMode := by
  cases hint <;> cases subpixel <;> exact ⟨rfl, rfl⟩

/-! ## Vertical placement of the paint boxes -/

theorem paintCalls_y (baseLineOffset : Nat) (glyphs : List GlyphData) :
    ∀ (x : ℚ) (call : PaintCall),
      call ∈ FreeTypeFontPreviewRenderer.paintCalls baseLineOffset glyphs x →
      call.y = rint ((baseLineOffset : ℚ) - call.glyph.getBearingTop
        + call.glyph.getOffsetY) := by
  induction glyphs with
  | nil =>
    intro x call h
    exact absurd h (List.not_mem_nil call)
  | cons data rest ih =>
    intro x call h
    unfold FreeTypeFontPreviewRenderer.paintCalls at h
    rcases List.mem_cons.mp h with h1 | h1
    · rw [h1]
    · exact ih _ call h1

theorem GlyphData_ctor_bearingTop (glyphPos : hb_glyph_position_t)
    (glyphData : FT_GlyphSlotRec) (reversed : Bool) (g : GlyphData)
    (h : GlyphData.ctor glyphPos glyphData reversed = some g) :
    g.bearingTop = roundToFloat (glyphData.bitmap_top : ℚ) ∧
    g.offsetY = roundToFloat (glyphPos.y_offset : ℚ) / PIXEL_FRACTION_FACTOR ∧
    ∃ n : Int, g.bearingTop = (n : ℚ) := by
  unfold GlyphData.ctor at h
  obtain ⟨pd, _, hgd⟩ := Option.map_eq_some'.mp h
  rw [← hgd]
  exact ⟨rfl, rfl, roundToFloat_intCast_isInt glyphData.bitmap_top⟩

theorem ofGlyphs_vertical_extent (glyphs : List GlyphData)
    (hint : ∀ g ∈ glyphs, ∃ n : Int, g.bearingTop = (n : ℚ))
    (g : GlyphData) (hg : g ∈ glyphs) (ht : 0 ≤ g.getBearingTop) (hoff : g.getOffsetY = 0) :
    0 ≤ rint (((FontShaping.ofGlyphs glyphs).getBaseLineOffset : ℚ) - g.getBearingTop
        + g.getOffsetY) ∧
    rint (((FontShaping.ofGlyphs glyphs).getBaseLineOffset : ℚ) - g.getBearingTop
        + g.getOffsetY) + (g.getHeight : Int)
      ≤ ceill (FontShaping.ofGlyphs glyphs).getBoundingBox.height := by
  have hB := getBaseLineOffset_cast glyphs hint
  obtain ⟨n, hn⟩ := hint g hg
  have ht2 : 0 ≤ g.bearingTop := ht
  have htB : g.bearingTop ≤ (FontShaping.ofGlyphs glyphs).baseLineOffset := by
    rw [ofGlyphs_baseLineOffset]
    exact le_maxWithZero _ _
      (List.mem_map.mpr ⟨g, List.mem_filter.mpr ⟨hg, by simpa using ht2⟩, rfl⟩)
  have hext : bottomExtent g ≤ maxWithZero (glyphs.map bottomExtent) :=
    le_maxWithZero _ _ (List.mem_map.mpr ⟨g, hg, rfl⟩)
  have harg : ((FontShaping.ofGlyphs glyphs).getBaseLineOffset : ℚ) - g.getBearingTop
      + g.getOffsetY
      = ((((FontShaping.ofGlyphs glyphs).getBaseLineOffset : Int) - n : Int) : ℚ) := by
    rw [hoff]
    show ((FontShaping.ofGlyphs glyphs).getBaseLineOffset : ℚ) - g.bearingTop + 0 = _
    rw [hn]
    push_cast
    ring
  rw [harg, rint_intCast]
  have hnB : (n : ℚ) ≤ (((FontShaping.ofGlyphs glyphs).getBaseLineOffset : Int) : ℚ) := by
    rw [← hn]
    push_cast
    rw [hB]
    exact htB
  have hnB2 : n ≤ ((FontShaping.ofGlyphs glyphs).getBaseLineOffset : Int) :=
    Int.cast_le.mp hnB
  constructor
  · omega
  · have hheight : (((((FontShaping.ofGlyphs glyphs).getBaseLineOffset : Int) - n
          + (g.getHeight : Int) : Int)) : ℚ)
        ≤ (FontShaping.ofGlyphs glyphs).boundingBox.height := by
      rw [ofGlyphs_height]
      have hbe : bottomExtent g = (g.getHeight : ℚ) - (n : ℚ) := by
        unfold bottomExtent
        rw [abs_of_nonneg ht2, hn]
      rw [hbe] at hext
      push_cast
      rw [hB]
      linarith
    have hceil := Int.ceil_mono hheight
    rw [Int.ceil_intCast] at hceil
    exact hceil

/-- C31: in every glyph run that `FontShaping` constructs, every paint invocation of
`renderText` for a glyph with `bearingTop >= 0` and `offsetY = 0` has its vertical
extent inside the canvas rows: its vertical origin is `>= 0` and origin plus glyph
height is at most `ceil(boundingBox.height)`, which is the height of the returned canvas
whenever the canvas is not the null image. -/
theorem paint_box_vertically_inside_canvas
    (rasterized : List (hb_glyph_position_t × FT_GlyphSlotRec)) (options : KXftConfig)
    (fontShaping : FontShaping)
    (hctor : FontShaping.ctor rasterized options = some fontShaping) :
    ∀ call ∈ FreeTypeFontPreviewRenderer.paintCalls fontShaping.getBaseLineOffset
        fontShaping.getGlyphs 0,
      0 ≤ call.glyph.getBearingTop → call.glyph.getOffsetY = 0 →
      0 ≤ call.y ∧
      call.y + (call.glyph.getHeight : Int) ≤ ceill fontShaping.getBoundingBox.height ∧
      (∀ (background pen : QColor) (canvas : QImage),
        FreeTypeFontPreviewRenderer.renderText fontShaping background pen = some canvas →
        0 < ceill fontShaping.getBoundingBox.width →
        call.y + (call.glyph.getHeight : Int) ≤ canvas.height) := by
  unfold FontShaping.ctor at hctor
  obtain ⟨glyphs, hglyphs, hof⟩ := Option.map_eq_some'.mp hctor
  rw [← hof]
  have hint : ∀ g ∈ glyphs, ∃ n : Int, g.bearingTop = (n : ℚ) := by
    intro g hg
    obtain ⟨r, _, hr⟩ := mapM_option_mem _ rasterized glyphs hglyphs g hg
    exact (GlyphData_ctor_bearingTop r.1 r.2 _ g hr).2.2
  intro call hcall htop hoff
  have hcall2 : call ∈ FreeTypeFontPreviewRenderer.paintCalls
      (FontShaping.ofGlyphs glyphs).getBaseLineOffset glyphs 0 := hcall
  have hmem := paintCalls_glyph_mem _ glyphs 0 call hcall2
  have hy := paintCalls_y _ glyphs 0 call hcall2
  obtain ⟨h0, h1⟩ := ofGlyphs_vertical_extent glyphs hint call.glyph hmem htop hoff
  rw [← hy] at h0 h1
  refine ⟨h0, h1, ?_⟩
  intro background pen canvas hcanvas hwidth
  have hrun : FreeTypeFontPreviewRenderer.renderText (FontShaping.ofGlyphs glyphs) background pen
      = (FreeTypeFontPreviewRenderer.paintCalls
            (FontShaping.ofGlyphs glyphs).getBaseLineOffset glyphs 0).foldlM
          (PaintCall.run pen)
          ((QImage.ctor (ceill (FontShaping.ofGlyphs glyphs).boundingBox.width)
            (ceill (FontShaping.ofGlyphs glyphs).boundingBox.height)).fill background) :=
    paintGlyphs_eq_foldlM _ pen glyphs _ 0
  rw [hrun] at hcanvas
  obtain ⟨_, hh, _⟩ := paintCalls_frame pen _ _ canvas hcanvas
  obtain ⟨hpos, hnull⟩ := QImage_ctor_fill_size
    (ceill (FontShaping.ofGlyphs glyphs).boundingBox.width)
    (ceill (FontShaping.ofGlyphs glyphs).boundingBox.height) background
  have h1b : call.y + (call.glyph.getHeight : Int)
      ≤ ceill (FontShaping.ofGlyphs glyphs).boundingBox.height := h1
  have hwidth2 : 0 < ceill (FontShaping.ofGlyphs glyphs).boundingBox.width := hwidth
  rw [hh]
  by_cases hpos2 : 0 < ceill (FontShaping.ofGlyphs glyphs).boundingBox.height
  · rw [(hpos hwidth2 hpos2).2]
    exact h1b
  · have hz := (hnull (Or.inr (not_lt.mp hpos2))).2
    rw [hz]
    have hle : ceill (FontShaping.ofGlyphs glyphs).boundingBox.height ≤ 0 := not_lt.mp hpos2
    exact le_trans h1b (by rw [Nat.cast_zero]; exact hle)

/-- C31 on a run of two Gray glyphs: one of height 2 with bearingTop 2 and one of height
3 with bearingTop 1 (bounding box height 2 + 2 = 4): both paint boxes lie in rows 0..4. -/
theorem paint_box_vertically_inside_canvas_witness :
    ∃ fontShaping,
      FontShaping.ctor
          [(⟨192, 0, 0, 0⟩, ⟨⟨2, 1, 1, [255, 128], FT_Pixel_Mode.GRAY⟩, 0, 2⟩),
           (⟨192, 0, 0, 0⟩, ⟨⟨3, 1, 1, [64, 128, 255], FT_Pixel_Mode.GRAY⟩, 0, 1⟩)]
          ⟨KXftConfig.AntiAliasing.Enabled, KXftConfig.Hinting.Enabled, KXftConfig.Hint.Full,
            KXftConfig.SubPixel.None, 96, 96⟩ = some fontShaping ∧
      ∀ call ∈ FreeTypeFontPreviewRenderer.paintCalls fontShaping.getBaseLineOffset
          fontShaping.getGlyphs 0,
        0 ≤ call.glyph.getBearingTop → call.glyph.getOffsetY = 0 →
        0 ≤ call.y ∧
        call.y + (call.glyph.getHeight : Int) ≤ ceill fontShaping.getBoundingBox.height := by
  have hctor : FontShaping.ctor
      [(⟨192, 0, 0, 0⟩, ⟨⟨2, 1, 1, [255, 128], FT_Pixel_Mode.GRAY⟩, 0, 2⟩),
       (⟨192, 0, 0, 0⟩, ⟨⟨3, 1, 1, [64, 128, 255], FT_Pixel_Mode.GRAY⟩, 0, 1⟩)]
      ⟨KXftConfig.AntiAliasing.Enabled, KXftConfig.Hinting.Enabled, KXftConfig.Hint.Full,
        KXftConfig.SubPixel.None, 96, 96⟩
      = some (FontShaping.ofGlyphs
          [⟨roundToFloat ((0 : Int) : ℚ) / PIXEL_FRACTION_FACTOR,
            roundToFloat ((0 : Int) : ℚ) / PIXEL_FRACTION_FACTOR,
            roundToFloat ((192 : Int) : ℚ) / PIXEL_FRACTION_FACTOR,
            roundToFloat ((0 : Int) : ℚ) / PIXEL_FRACTION_FACTOR,
            roundToFloat ((0 : Int) : ℚ), roundToFloat ((2 : Int) : ℚ),
            some (PixelData.grayScale ⟨⟨1, 1, 1, 2⟩, [255, 128]⟩)⟩,
           ⟨roundToFloat ((0 : Int) : ℚ) / PIXEL_FRACTION_FACTOR,
            roundToFloat ((0 : Int) : ℚ) / PIXEL_FRACTION_FACTOR,
            roundToFloat ((192 : Int) : ℚ) / PIXEL_FRACTION_FACTOR,
            roundToFloat ((0 : Int) : ℚ) / PIXEL_FRACTION_FACTOR,
            roundToFloat ((0 : Int) : ℚ), roundToFloat ((1 : Int) : ℚ),
            some (PixelData.grayScale ⟨⟨1, 1, 1, 3⟩, [64, 128, 255]⟩)⟩]) := rfl
  refine ⟨_, hctor, ?_⟩
  intro call hcall htop hoff
  obtain ⟨h0, h1, _⟩ := paint_box_vertically_inside_canvas _ _ _ hctor call hcall htop hoff
  exact ⟨h0, h1⟩

/-! ## Sub-pixel glyphs with equal samples -/

theorem forLoop_congr {σ : Type} (n : Nat) (f g : Nat → σ → Option σ)
    (h : ∀ i < n, ∀ s, f i s = g i s) (s : σ) : forLoop n f s = forLoop n g s := by
  induction n with
  | zero => rfl
  | succ k ih =>
    show (forLoop k f s).bind (f k) = (forLoop k g s).bind (g k)
    rw [ih (fun i hi => h i (Nat.lt_succ_of_lt hi))]
    congr 1
    funext c
    exact h k (Nat.lt_succ_self k) c

theorem subpixel_paint_eq_gray (getValue : Int → Int → Int → Option Byte)
    (s : AbstractSubPixelGlyph) (g : ByteDataGlyph)
    (hw : g.width = s.width) (hh : g.height = s.height)
    (hsame : ∀ j < s.height, ∀ i < s.width, ∀ k : Int, k = 0 ∨ k = 1 ∨ k = 2 →
      getValue (j : Int) (i : Int) k = byteAt g.bytemap (GrayScaleGlyph.index g j i))
    (canvas : QImage) (x y : Int) (pen : QColor) :
    AbstractSubPixelGlyph.paint getValue s canvas x y pen
      = GrayScaleGlyph.paint g canvas x y pen := by
  unfold AbstractSubPixelGlyph.paint GrayScaleGlyph.paint
  rw [hh, hw]
  apply forLoop_congr
  intro j hj c
  apply forLoop_congr
  intro i hi c2
  have hr := hsame j hj i hi (if s.reverse then 2 else 0) (by cases s.reverse <;> simp)
  have hg := hsame j hj i hi 1 (Or.inr (Or.inl rfl))
  have hb := hsame j hj i hi (if s.reverse then 0 else 2) (by cases s.reverse <;> simp)
  unfold AbstractSubPixelGlyph.paintPixel GrayScaleGlyph.paintPixel
  simp only [hr, hg, hb]
  cases byteAt g.bytemap (GrayScaleGlyph.index g j i) <;> rfl

theorem ofSamples_read (getValue : Int → Int → Int → Option Byte) (s : AbstractSubPixelGlyph)
    (j i : Nat) (hj : j < s.height) (hi : i < s.width) :
    byteAt (GrayScaleGlyph.ofSamples getValue s).bytemap
        (GrayScaleGlyph.index (GrayScaleGlyph.ofSamples getValue s) j i)
      = some ((getValue (j : Int) (i : Int) 1).getD 0) := by
  have hidx : GrayScaleGlyph.index (GrayScaleGlyph.ofSamples getValue s) j i
      = ((j * s.width + i : Nat) : Int) := by
    unfold GrayScaleGlyph.index GrayScaleGlyph.ofSamples
    push_cast
    rfl
  have hlt : j * s.width + i < s.height * s.width := by
    have h1 : (j + 1) * s.width ≤ s.height * s.width := Nat.mul_le_mul_right _ hj
    have h2 : (j + 1) * s.width = j * s.width + s.width := Nat.succ_mul j s.width
    omega
  have hdiv : (j * s.width + i) / s.width = j := by
    rw [Nat.add_comm, Nat.add_mul_div_right _ _ (by omega), Nat.div_eq_of_lt hi, Nat.zero_add]
  have hmod : (j * s.width + i) % s.width = i := by
    rw [Nat.add_comm, Nat.add_mul_mod_self_right, Nat.mod_eq_of_lt hi]
  rw [hidx, byteAt_natCast]
  unfold GrayScaleGlyph.ofSamples
  simp only [List.getElem?_map, List.getElem?_range hlt, Option.map_some', hdiv, hmod]

theorem ofSamples_same (getValue : Int → Int → Int → Option Byte) (s : AbstractSubPixelGlyph)
    (hequal : ∀ j < s.height, ∀ i < s.width, ∃ v : Byte,
      getValue (j : Int) (i : Int) 0 = some v ∧ getValue (j : Int) (i : Int) 1 = some v
        ∧ getValue (j : Int) (i : Int) 2 = some v) :
    ∀ j < s.height, ∀ i < s.width, ∀ k : Int, k = 0 ∨ k = 1 ∨ k = 2 →
      getValue (j : Int) (i : Int) k
        = byteAt (GrayScaleGlyph.ofSamples getValue s).bytemap
            (GrayScaleGlyph.index (GrayScaleGlyph.ofSamples getValue s) j i) := by
  intro j hj i hi k hk
  obtain ⟨v, h0, h1, h2⟩ := hequal j hj i hi
  rw [ofSamples_read getValue s j i hj hi, h1]
  rcases hk with hk | hk | hk
  · rw [hk, h0]
    rfl
  · rw [hk, h1]
    rfl
  · rw [hk, h2]
    rfl

/-- C32: for a sub-pixel bitmap (horizontal or vertical layout) and either value of the
reversed flag, if the three samples of every logical pixel equal the coverage that a Gray
bitmap of the same logical size holds for that pixel, `paint` returns exactly what
`GrayScaleGlyph::paint` returns for that Gray bitmap, on every canvas, origin and pen.
When the three samples of every logical pixel are present and equal, the Gray bitmap
`ofSamples` holding the common values is such a bitmap. -/
theorem equal_samples_paint_as_gray (b : ByteDataGlyph) (reversed : Bool) :
    (∀ g : ByteDataGlyph, g.width = b.width → g.height = b.height →
      (∀ j < b.height, ∀ i < b.width, ∀ k : Int, k = 0 ∨ k = 1 ∨ k = 2 →
        SubPixelGlyph.getValue ⟨b, reversed⟩ (j : Int) (i : Int) k
          = byteAt g.bytemap (GrayScaleGlyph.index g j i)) →
      ∀ (canvas : QImage) (x y : Int) (pen : QColor),
        SubPixelGlyph.paint ⟨b, reversed⟩ canvas x y pen
          = GrayScaleGlyph.paint g canvas x y pen) ∧
    (∀ g : ByteDataGlyph, g.width = b.width → g.height = b.height →
      (∀ j < b.height, ∀ i < b.width, ∀ k : Int, k = 0 ∨ k = 1 ∨ k = 2 →
        VerticalSubPixelGlyph.getValue ⟨b, reversed⟩ (j : Int) (i : Int) k
          = byteAt g.bytemap (GrayScaleGlyph.index g j i)) →
      ∀ (canvas : QImage) (x y : Int) (pen : QColor),
        VerticalSubPixelGlyph.paint ⟨b, reversed⟩ canvas x y pen
          = GrayScaleGlyph.paint g canvas x y pen) ∧
    ((∀ j < b.height, ∀ i < b.width, ∃ v : Byte,
        SubPixelGlyph.getValue ⟨b, reversed⟩ (j : Int) (i : Int) 0 = some v
          ∧ SubPixelGlyph.getValue ⟨b, reversed⟩ (j : Int) (i : Int) 1 = some v
          ∧ SubPixelGlyph.getValue ⟨b, reversed⟩ (j : Int) (i : Int) 2 = some v) →
      ∀ (canvas : QImage) (x y : Int) (pen : QColor),
        SubPixelGlyph.paint ⟨b, reversed⟩ canvas x y pen
          = GrayScaleGlyph.paint
              (GrayScaleGlyph.ofSamples (SubPixelGlyph.getValue ⟨b, reversed⟩) ⟨b, reversed⟩)
              canvas x y pen) ∧
    ((∀ j < b.height, ∀ i < b.width, ∃ v : Byte,
        VerticalSubPixelGlyph.getValue ⟨b, reversed⟩ (j : Int) (i : Int) 0 = some v
          ∧ VerticalSubPixelGlyph.getValue ⟨b, reversed⟩ (j : Int) (i : Int) 1 = some v
          ∧ VerticalSubPixelGlyph.getValue ⟨b, reversed⟩ (j : Int) (i : Int) 2 = some v) →
      ∀ (canvas : QImage) (x y : Int) (pen : QColor),
        VerticalSubPixelGlyph.paint ⟨b, reversed⟩ canvas x y pen
          = GrayScaleGlyph.paint
              (GrayScaleGlyph.ofSamples (VerticalSubPixelGlyph.getValue ⟨b, reversed⟩)
                ⟨b, reversed⟩)
              canvas x y pen) := by
  refine ⟨?_, ?_, ?_, ?_⟩
  · intro g hw hh hsame canvas x y pen
    exact subpixel_paint_eq_gray _ ⟨b, reversed⟩ g hw hh hsame canvas x y pen
  · intro g hw hh hsame canvas x y pen
    exact subpixel_paint_eq_gray _ ⟨b, reversed⟩ g hw hh hsame canvas x y pen
  · intro hequal canvas x y pen
    exact subpixel_paint_eq_gray (SubPixelGlyph.getValue ⟨b, reversed⟩) ⟨b, reversed⟩
      (GrayScaleGlyph.ofSamples (SubPixelGlyph.getValue ⟨b, reversed⟩) ⟨b, reversed⟩) rfl rfl
      (ofSamples_same _ ⟨b, reversed⟩ hequal) canvas x y pen
  · intro hequal canvas x y pen
    exact subpixel_paint_eq_gray (VerticalSubPixelGlyph.getValue ⟨b, reversed⟩) ⟨b, reversed⟩
      (GrayScaleGlyph.ofSamples (VerticalSubPixelGlyph.getValue ⟨b, reversed⟩) ⟨b, reversed⟩)
      rfl rfl (ofSamples_same _ ⟨b, reversed⟩ hequal) canvas x y pen

/-- C32 on a reversed horizontal sub-pixel bitmap of one row and two logical pixels with
samples 10, 10, 10 and 200, 200, 200: `paint` returns what Gray paint returns for the
Gray bitmap of 2 x 1 pixels with coverages 10 and 200. -/
theorem equal_samples_paint_as_gray_witness :
    ∀ (canvas : QImage) (x y : Int) (pen : QColor),
      SubPixelGlyph.paint ⟨⟨⟨6, 6, 2, 1⟩, [10, 10, 10, 200, 200, 200]⟩, true⟩ canvas x y pen
        = GrayScaleGlyph.paint ⟨⟨2, 2, 2, 1⟩, [10, 200]⟩ canvas x y pen := by
  refine (equal_samples_paint_as_gray ⟨⟨6, 6, 2, 1⟩, [10, 10, 10, 200, 200, 200]⟩ true).1
    ⟨⟨2, 2, 2, 1⟩, [10, 200]⟩ rfl rfl ?_
  intro j hj i hi k hk
  have hj2 : j < 1 := hj
  have hi2 : i < 2 := hi
  interval_cases j
  interval_cases i <;> rcases hk with hk | hk | hk <;> (rw [hk]; rfl)

/-! ## Fragments read by `PreviewParameters::fromString` -/

/-- C34 fails in the code: the guard of `fromString` is `fragments.length() <= 5`, so an
id that splits into fewer than five fragments is indexed past its end (`"Sans"` has one
fragment and `fragments[1]` is read; `"Sans/10"` has two and `fragments[2]` is read),
while an id of six fragments is not read at all and yields the defaults.  An id of
exactly five fragments is read completely; an `int` that names no enumerator (7) is
stored as it is. -/
theorem fromString_reads_missing_fragments :
    (QString.split "Sans" '/' = ["Sans"]) ∧
    (∀ (toFloat : String → ℚ) (toInt : String → Int) (dpiH dpiV : Nat),
      PreviewParameters.fromString toFloat toInt "Sans" dpiH dpiV
        = Except.error (PreviewParameters.Fault.indexOutOfRange 1 1)) ∧
    (QString.split "Sans/10" '/' = ["Sans", "10"]) ∧
    (∀ (toFloat : String → ℚ) (toInt : String → Int) (dpiH dpiV : Nat),
      PreviewParameters.fromString toFloat toInt "Sans/10" dpiH dpiV
        = Except.error (PreviewParameters.Fault.indexOutOfRange 2 2)) ∧
    (∀ (toFloat : String → ℚ) (toInt : String → Int) (dpiH dpiV : Nat),
      PreviewParameters.fromString toFloat toInt "" dpiH dpiV
        = Except.error (PreviewParameters.Fault.indexOutOfRange 1 1)) ∧
    (QString.split "Sans/10/2/4/2/x" '/' = ["Sans", "10", "2", "4", "2", "x"]) ∧
    (∀ (toFloat : String → ℚ) (toInt : String → Int) (dpiH dpiV : Nat),
      PreviewParameters.fromString toFloat toInt "Sans/10/2/4/2/x" dpiH dpiV
        = Except.ok ⟨"", 10, ⟨KXftConfig.AntiAliasing.Disabled.toInt,
            KXftConfig.Hinting.Disabled.toInt, KXftConfig.Hint.None.toInt,
            KXftConfig.SubPixel.None.toInt, dpiH, dpiV⟩⟩) ∧
    (∀ (toFloat : String → ℚ) (dpiH dpiV : Nat),
      PreviewParameters.fromString toFloat (fun _ => 2) "Sans/10/2/2/2" dpiH dpiV
        = Except.ok ⟨"Sans", toFloat "10", ⟨KXftConfig.AntiAliasing.Enabled.toInt,
            KXftConfig.Hinting.Enabled.toInt, KXftConfig.Hint.Slight.toInt,
            KXftConfig.SubPixel.Rgb.toInt, dpiH, dpiV⟩⟩) ∧
    (∀ (toFloat : String → ℚ) (dpiH dpiV : Nat),
      PreviewParameters.fromString toFloat (fun _ => 7) "Sans/10/7/7/7" dpiH dpiV
        = Except.ok ⟨"Sans", toFloat "10", ⟨7, KXftConfig.Hinting.Enabled.toInt, 7, 7,
            dpiH, dpiV⟩⟩) := by
  refine ⟨rfl, fun _ _ _ _ => rfl, rfl, fun _ _ _ _ => rfl, fun _ _ _ _ => rfl, rfl,
    fun _ _ _ _ => rfl, fun _ _ _ => rfl, fun _ _ _ => rfl⟩

end FreetypeRenderer
